import Mathlib

/-!
# MultiFileReader (package http): a shallow embedding

`src/http/multifilereader.go` turns a tree of files into one MIME multipart
byte stream, produced lazily by repeated `Read` calls.  This development
embeds the reader as a state-passing Lean function and proves properties of
it.

Conventions of the embedding:

* a Go `[]byte` or `string` is a `List Byte`; the encoder only copies bytes
  and never inspects them, so a Lean `Char` stands for one byte;
* a Go `error` is an `Option Error` (`none` is `nil`);
* the `cmds.File` interface (declared outside this repository) is given by
  scripted values: a leaf is a script of `Read` results, a directory is a
  script of `NextFile` results;
* `mime/multipart.Writer` and `bytes.Buffer` (Go standard library) are
  modelled by `Writer` and by a `List Byte` holding the unread bytes;
* the random boundary drawn by `multipart.NewWriter` is the next value of an
  oracle `Env.boundary`, indexed by a counter threaded through every call;
* the recursion of `Read` (into a nested reader, and the retry
  `return mfr.Read(buf)`) is bounded by a fuel argument; `none` means the
  fuel ran out, and `Read_fuel_enough` shows how much fuel always suffices.
-/

namespace Http

set_option linter.unusedVariables false

/-- One byte of a Go string or byte slice. -/
abbrev Byte := Char

/-- A Go `error` value other than `nil`: `io.EOF`, or any other failure,
told apart by a code. -/
inductive Error where
  | EOF
  | other (code : Nat)
deriving DecidableEq, Repr

/-- One scripted result of a leaf's `Read`: the bytes it has ready and the
error it reports once they have all been handed out. -/
structure ReadStep where
  bytes : List Byte
  err : Option Error
deriving DecidableEq, Repr

mutual
/-- A `cmds.File` value: a leaf with a name and a script of `Read` results,
or a directory with a name and a script of `NextFile` results. -/
inductive File where
  | leaf (name : List Byte) (reads : List ReadStep)
  | dir (name : List Byte) (entries : Source)
/-- What successive `NextFile` calls return: `eof` is `(nil, io.EOF)` now and
on every later call, `entry f` is `(f, nil)`, `nilFile` is `(nil, nil)` and
`fail e` is `(nil, e)`. -/
inductive Source where
  | eof
  | entry (f : File) (rest : Source)
  | nilFile (rest : Source)
  | fail (e : Error) (rest : Source)
end

/-- The method `File.IsDirectory`. -/
def File.IsDirectory : File → Bool
  | .leaf _ _ => false
  | .dir _ _ => true

/-- The method `File.FileName`. -/
def File.FileName : File → List Byte
  | .leaf n _ => n
  | .dir n _ => n

/-- The script a leaf file is read from (a directory has no bytes of its
own). -/
def File.reads : File → List ReadStep
  | .leaf _ r => r
  | .dir _ _ => []

/-- The entries `NextFile` walks through (a leaf has none). -/
def File.entries : File → Source
  | .leaf _ _ => .eof
  | .dir _ s => s

/-- The method `File.NextFile` on the entries of a directory: the file, the
error and the source afterwards. -/
def Source.NextFile : Source → Option File × Option Error × Source
  | .eof => (none, some .EOF, .eof)
  | .entry f rest => (some f, none, rest)
  | .nilFile rest => (none, none, rest)
  | .fail e rest => (none, some e, rest)

/-- Go's builtin `copy(dst, src)`: the destination afterwards.  The number of
bytes copied is `min dst.length src.length`. -/
def copy (dst src : List Byte) : List Byte :=
  src.take dst.length ++ dst.drop src.length

/-- The method `Read` of a leaf file on the caller's buffer `p`: bytes
written, error, the buffer afterwards and the script afterwards.  A step
whose bytes fit in `p` is delivered whole, together with its error; a longer
one fills `p` and keeps the rest for the next call.  An exhausted script
reports `io.EOF`. -/
def fileRead (reads : List ReadStep) (p : List Byte) :
    Nat × Option Error × List Byte × List ReadStep :=
  match reads with
  | [] => (0, some .EOF, p, [])
  | s :: rest =>
    if s.bytes.length ≤ p.length then
      (s.bytes.length, s.err, copy p s.bytes, rest)
    else
      (p.length, none, copy p s.bytes, ⟨s.bytes.drop p.length, s.err⟩ :: rest)

/-- The method `bytes.Buffer.Read`: bytes read, error, the caller's buffer
afterwards and the unread bytes afterwards. -/
def bufRead (b : List Byte) (p : List Byte) :
    Nat × Option Error × List Byte × List Byte :=
  if b.length = 0 then
    if p.length = 0 then (0, none, p, b) else (0, some .EOF, p, b)
  else
    (min p.length b.length, none, copy p b, b.drop p.length)

/-- The state of a `multipart.Writer`: its boundary token and whether a part
has been created since construction or the last `Close`. -/
structure Writer where
  boundary : List Byte
  lastpart : Bool
deriving DecidableEq, Repr

/-- The line break of the wire format. -/
def crlf : List Byte := "\r\n".toList

/-- The delimiter line `multipart.Writer.CreatePart` writes before the
headers: `--b\r\n` for the first part, `\r\n--b\r\n` for a later one. -/
def Writer.delimiter (w : Writer) : List Byte :=
  (if w.lastpart then crlf else []) ++ "--".toList ++ w.boundary ++ crlf

/-- The bytes `multipart.Writer.Close` writes: `\r\n--b--\r\n`. -/
def Writer.closing (w : Writer) : List Byte :=
  crlf ++ "--".toList ++ w.boundary ++ "--".toList ++ crlf

/-- One header field as `CreatePart` prints it: `key: value\r\n`. -/
def headerLine (kv : List Byte × List Byte) : List Byte :=
  kv.1 ++ ": ".toList ++ kv.2 ++ crlf

/-- The bytes `multipart.Writer.CreatePart` writes for a header: the
delimiter line, one line per field and an empty line. -/
def Writer.partBytes (w : Writer) (header : List (List Byte × List Byte)) : List Byte :=
  w.delimiter ++ (header.map headerLine).flatten ++ crlf

/-- The environment of a run: `boundary n` is the token the `n`-th call of
`multipart.NewWriter` draws, and `partErr` tells whether writing a part's
header block fails.  A `bytes.Buffer` accepts every write, so in Go
`partErr` is constantly `none` (see `Env.NoFault`); it is a parameter so that
the branch `if err != nil` after `CreatePart` has a meaning. -/
structure Env where
  boundary : Nat → List Byte
  partErr : List Byte → Option Nat

/-- The environment of a real run: `CreatePart` never fails. -/
def Env.NoFault (env : Env) : Prop := ∀ h, env.partErr h = none

/-- The method `multipart.Writer.CreatePart` over the reader's buffer `b`:
on failure nothing is written; on success the block is appended and the
writer remembers that a part exists. -/
def Writer.CreatePart (env : Env) (w : Writer) (b : List Byte)
    (header : List (List Byte × List Byte)) : Except Error (List Byte × Writer) :=
  match env.partErr (w.partBytes header) with
  | some code => .error (.other code)
  | none => .ok (b ++ w.partBytes header, { w with lastpart := true })

/-- The method `multipart.Writer.Close` over the reader's buffer `b`: it
appends the closing line, every time it is called, and forgets the last
part. -/
def Writer.Close (w : Writer) (b : List Byte) : List Byte × Writer :=
  (b ++ w.closing, { w with lastpart := false })

mutual
/-- The struct `MultiFileReader`: `files`, `currentFile`, `buf`, `mpWriter`,
`closed` and `form`. -/
inductive MultiFileReader where
  | mk (files : Source) (currentFile : Reader) (buf : List Byte) (mpWriter : Writer)
      (closed : Bool) (form : Bool)
/-- The `io.Reader` held in `currentFile`: `nil`, a leaf file (its script), or
a nested `*MultiFileReader`. -/
inductive Reader where
  | nil
  | file (reads : List ReadStep)
  | mfr (m : MultiFileReader)
end

namespace MultiFileReader

/-- Field `files`. -/
def files : MultiFileReader → Source
  | .mk f _ _ _ _ _ => f
/-- Field `currentFile`. -/
def currentFile : MultiFileReader → Reader
  | .mk _ c _ _ _ _ => c
/-- Field `buf`: the unread bytes of the header buffer. -/
def buf : MultiFileReader → List Byte
  | .mk _ _ b _ _ _ => b
/-- Field `mpWriter`. -/
def mpWriter : MultiFileReader → Writer
  | .mk _ _ _ w _ _ => w
/-- Field `closed`. -/
def closed : MultiFileReader → Bool
  | .mk _ _ _ _ c _ => c
/-- Field `form`. -/
def form : MultiFileReader → Bool
  | .mk _ _ _ _ _ f => f

/-- Assignment to `files` (the source after a `NextFile` call). -/
def setFiles : MultiFileReader → Source → MultiFileReader
  | .mk _ c b w cl f, s => .mk s c b w cl f
/-- Assignment to `currentFile`. -/
def setCurrentFile : MultiFileReader → Reader → MultiFileReader
  | .mk s _ b w cl f, c => .mk s c b w cl f
/-- Assignment to `buf`. -/
def setBuf : MultiFileReader → List Byte → MultiFileReader
  | .mk s c _ w cl f, b => .mk s c b w cl f
/-- Assignment to `mpWriter`. -/
def setWriter : MultiFileReader → Writer → MultiFileReader
  | .mk s c b _ cl f, w => .mk s c b w cl f
/-- Assignment to `closed`. -/
def setClosed : MultiFileReader → Bool → MultiFileReader
  | .mk s c b w _ f, cl => .mk s c b w cl f

/-- The method `Boundary`. -/
def Boundary (mfr : MultiFileReader) : List Byte := mfr.mpWriter.boundary

end MultiFileReader

/-- The function `NewMultiFileReader`: the new reader and the boundary
counter after `multipart.NewWriter` drew its token. -/
def NewMultiFileReader (env : Env) (file : Source) (form : Bool) (rand : Nat) :
    MultiFileReader × Nat :=
  (.mk file .nil [] ⟨env.boundary rand, false⟩ false form, rand + 1)

/-- The value of the `Content-Disposition` field (lines 66 to 71). -/
def contentDisposition (form : Bool) (name : List Byte) : List Byte :=
  if form then "form-data; name=\"file\"; filename=\"".toList ++ name ++ "\"".toList
  else "file; filename=\"".toList ++ name ++ "\"".toList

/-- The value of the `Content-Type` field of a directory part (line 75). -/
def mixedType (boundary : List Byte) : List Byte :=
  "multipart/mixed; boundary=".toList ++ boundary

/-- The value of the `Content-Type` field of a leaf part (line 77). -/
def octetStream : List Byte := "application/octet-stream".toList

/-- The header map handed to `CreatePart`, listed in the order in which
`CreatePart` prints it (by key). -/
def partHeader (cd ct : List Byte) : List (List Byte × List Byte) :=
  [("Content-Disposition".toList, cd), ("Content-Type".toList, ct)]

/-- What the advance step (lines 44 to 85) does: it falls through to the
delegated read, returns an error, or dereferences a nil value. -/
inductive Advance where
  | next (mfr : MultiFileReader) (rand : Nat)
  | fail (e : Error) (mfr : MultiFileReader) (rand : Nat)
  | panic

/-- Lines 54 to 84: start the part of the entry `file`. -/
def startPart (env : Env) (mfr : MultiFileReader) (file : File) (rand : Nat) : Advance :=
  let cur : Reader × Nat :=
    if file.IsDirectory then
      let r := NewMultiFileReader env file.entries false rand
      (.mfr r.1, r.2)
    else
      (.file file.reads, rand)
  let mfr1 := mfr.setCurrentFile cur.1
  let cd := contentDisposition mfr1.form file.FileName
  let ct : Option (List Byte) :=
    if file.IsDirectory then
      match mfr1.currentFile with
      | .mfr c => some (mixedType c.Boundary)
      | _ => none
    else some octetStream
  match ct with
  | none => .panic
  | some ct =>
    match mfr1.mpWriter.CreatePart env mfr1.buf (partHeader cd ct) with
    | .error e => .fail e mfr1 cur.2
    | .ok (b, w) => .next ((mfr1.setBuf b).setWriter w) cur.2

/-- Lines 44 to 85: if no current file is set, advance to the next file. -/
def advance (env : Env) (mfr : MultiFileReader) (rand : Nat) : Advance :=
  match mfr.currentFile with
  | .file _ => .next mfr rand
  | .mfr _ => .next mfr rand
  | .nil =>
    let nf := mfr.files.NextFile
    let file := nf.1
    let err := nf.2.1
    let mfr0 := mfr.setFiles nf.2.2
    if err = some .EOF ∨ (err = none ∧ file.isNone) then
      let cw := mfr0.mpWriter.Close mfr0.buf
      .next (((mfr0.setBuf cw.1).setWriter cw.2).setClosed true) rand
    else
      match err with
      | some e => .fail e mfr0 rand
      | none =>
        if mfr0.closed then .next mfr0 rand
        else
          match file with
          | none => .panic
          | some f => startPart env mfr0 f rand

/-- What a `Read` call returns and leaves behind: the byte count, the error,
the caller's buffer, the reader and the boundary counter afterwards. -/
structure ReadResult where
  written : Nat
  err : Option Error
  p : List Byte
  mfr : MultiFileReader
  rand : Nat

/-- How a `Read` call ends: it returns, or it dereferences a nil value. -/
inductive Outcome where
  | ret (r : ReadResult)
  | panic

/-- The method `MultiFileReader.Read` on the caller's buffer `p`.  The first
argument bounds the depth of recursion. -/
def Read (env : Env) : Nat → MultiFileReader → List Byte → Nat → Option Outcome
  | 0, _, _, _ => none
  | fuel + 1, mfr, p, rand =>
    if mfr.closed = true ∧ mfr.buf.length = 0 then
      some (.ret ⟨0, some .EOF, p, mfr, rand⟩)
    else
      match advance env mfr rand with
      | .panic => some .panic
      | .fail e mfr1 rand1 => some (.ret ⟨0, some e, p, mfr1, rand1⟩)
      | .next mfr1 rand1 =>
        if 0 < mfr1.buf.length then
          let r := bufRead mfr1.buf p
          some (.ret ⟨r.1, r.2.1, r.2.2.1, mfr1.setBuf r.2.2.2, rand1⟩)
        else
          match mfr1.currentFile with
          | .nil => some .panic
          | .file reads =>
            let r := fileRead reads p
            if r.2.1 = some .EOF then
              Read env fuel (mfr1.setCurrentFile .nil) r.2.2.1 rand1
            else
              some (.ret ⟨r.1, r.2.1, r.2.2.1, mfr1.setCurrentFile (.file r.2.2.2), rand1⟩)
          | .mfr c =>
            match Read env fuel c p rand1 with
            | none => none
            | some .panic => some .panic
            | some (.ret r) =>
              if r.err = some .EOF then
                Read env fuel (mfr1.setCurrentFile .nil) r.p r.rand
              else
                some (.ret ⟨r.written, r.err, r.p, mfr1.setCurrentFile (.mfr r.mfr), r.rand⟩)

mutual
/-- The number of nested `Read` calls a call on this reader can make, itself
included. -/
def MultiFileReader.depth : MultiFileReader → Nat
  | .mk _ c _ _ _ _ => c.depth + 1
/-- The depth of the reader held in `currentFile`. -/
def Reader.depth : Reader → Nat
  | .nil => 0
  | .file _ => 1
  | .mfr m => m.depth
end

/-- How a caller's loop of `Read` calls ends: at `io.EOF` with the bytes
collected, at another error with the bytes collected so far, in a panic, or
not within the calls allowed (`unfinished`: every call made has returned
bytes without error).  `noFuel` stands for a `Read` call cut short by its
fuel, which `Read_fuel_enough` rules out. -/
inductive Drain where
  | eof (out : List Byte)
  | failed (out : List Byte) (e : Error)
  | panic
  | unfinished
  | noFuel
deriving DecidableEq, Repr

/-- Prefix the bytes of one call to the result of the remaining calls. -/
def Drain.prepend (chunk : List Byte) : Drain → Drain
  | .eof out => .eof (chunk ++ out)
  | .failed out e => .failed (chunk ++ out) e
  | .panic => .panic
  | .unfinished => .unfinished
  | .noFuel => .noFuel

/-- A caller that reads to the end of the stream, reusing one buffer `p`: it
calls `mfr.Read(p)`, appends `p[:n]` to what it has collected, and goes on
while the error is nil, for at most `calls` calls. -/
def readAll (env : Env) : Nat → MultiFileReader → List Byte → Nat → Drain
  | 0, _, _, _ => .unfinished
  | calls + 1, mfr, p, rand =>
    match Read env mfr.depth mfr p rand with
    | none => .noFuel
    | some .panic => .panic
    | some (.ret r) =>
      match r.err with
      | some .EOF => .eof (r.p.take r.written)
      | some e => .failed (r.p.take r.written) e
      | none => (readAll env calls r.mfr r.p r.rand).prepend (r.p.take r.written)

/-! ## The output a reader still owes

The functions below compute, from a source or from a reader's state, the
bytes that remain to be emitted when every leaf delivers its script and no
call fails.  They are the yardstick the `Read` calls are measured against. -/

/-- The bytes a leaf script delivers. -/
def scriptBytes (reads : List ReadStep) : List Byte :=
  (reads.map (fun s => s.bytes)).flatten

/-- A well-behaved leaf script: every step carries at least one byte and no
error, so the leaf ends with a plain `(0, io.EOF)`. -/
def plainReads (reads : List ReadStep) : Bool :=
  reads.all (fun s => !s.bytes.isEmpty && s.err.isNone)

/-- A source that signals exhaustion on this and every later call. -/
def Source.dry : Source → Bool
  | .eof => true
  | .nilFile rest => rest.dry
  | .fail .EOF rest => rest.dry
  | .fail (.other _) _ => false
  | .entry _ _ => false

mutual
/-- A well-behaved file: its leaves have well-behaved scripts and its
directories well-behaved sources. -/
def File.plain : File → Bool
  | .leaf _ reads => plainReads reads
  | .dir _ entries => entries.plain
/-- A well-behaved source: it yields well-behaved entries, never fails, and
once it has signalled exhaustion (by `io.EOF` or by a nil file with a nil
error) it keeps doing so. -/
def Source.plain : Source → Bool
  | .eof => true
  | .entry f rest => f.plain && rest.plain
  | .nilFile rest => rest.dry
  | .fail .EOF rest => rest.dry
  | .fail (.other _) _ => false
end

mutual
/-- The body of the part of one entry, and the boundary counter after it:
the bytes of a leaf, or the whole stream of the nested reader of a
directory, whose token is the next one drawn. -/
def File.body (env : Env) : File → Nat → List Byte × Nat
  | .leaf _ reads, rand => (scriptBytes reads, rand)
  | .dir _ entries, rand => entries.stream env ⟨env.boundary rand, false⟩ false (rand + 1)
/-- The stream a reader with writer `w` and flag `form` emits for the rest of
its source: each entry's header block and body in turn, then the closing
line. -/
def Source.stream (env : Env) : Source → Writer → Bool → Nat → List Byte × Nat
  | .entry f rest, w, form, rand =>
    let ct := if f.IsDirectory then mixedType (env.boundary rand) else octetStream
    let body := f.body env rand
    let tl := rest.stream env { w with lastpart := true } form body.2
    (w.partBytes (partHeader (contentDisposition form f.FileName) ct) ++ body.1 ++ tl.1, tl.2)
  | .eof, w, _, rand => (w.closing, rand)
  | .nilFile _, w, _, rand => (w.closing, rand)
  | .fail _ _, w, _, rand => (w.closing, rand)
end

mutual
/-- The bytes a reader in this state still owes its caller, and the boundary
counter once they are all emitted. -/
def MultiFileReader.pending (env : Env) : MultiFileReader → Nat → List Byte × Nat
  | .mk s c b w cl f, rand =>
    if cl then (b, rand)
    else
      let pc := c.pending env rand
      let ps := s.stream env w f pc.2
      (b ++ pc.1 ++ ps.1, ps.2)
/-- The bytes the current file still owes. -/
def Reader.pending (env : Env) : Reader → Nat → List Byte × Nat
  | .nil, rand => ([], rand)
  | .file reads, rand => (scriptBytes reads, rand)
  | .mfr m, rand => m.pending env rand
end

/-- Whether no current file is set. -/
def Reader.isNil : Reader → Bool
  | .nil => true
  | _ => false

mutual
/-- The states of a fault-free run that has drained every closing line in
the call that queued it: sources and scripts are well-behaved, a closed
reader has nothing left, and a reader between two parts has an empty header
buffer. -/
def MultiFileReader.good : MultiFileReader → Bool
  | .mk s c b w cl f =>
    c.good && (if cl then c.isNil && b.isEmpty else s.plain && (!c.isNil || b.isEmpty))
/-- The well-behaved current files. -/
def Reader.good : Reader → Bool
  | .nil => true
  | .file reads => plainReads reads
  | .mfr m => m.good
end

mutual
/-- Every closing line of the reader and of its nested readers fits in a
buffer of `k` bytes. -/
def MultiFileReader.fits (k : Nat) : MultiFileReader → Bool
  | .mk s c b w cl f => decide (w.boundary.length + 8 ≤ k) && c.fits k
/-- The closing lines of the current file fit. -/
def Reader.fits (k : Nat) : Reader → Bool
  | .nil => true
  | .file _ => true
  | .mfr m => m.fits k
end

mutual
/-- The states a run read with buffers of `k` bytes is caught in once a
closing line longer than `k` bytes has been queued: the innermost active
reader is closed over an exhausted source with bytes left in its header
buffer, so that its next call queues the closing line again. -/
def MultiFileReader.stuck (k : Nat) : MultiFileReader → Bool
  | .mk s c b w cl f =>
    if cl then c.isNil && !b.isEmpty && decide (k < w.boundary.length + 8) && s.dry
    else b.isEmpty && c.stuck k
/-- The current file is a nested reader that is caught. -/
def Reader.stuck (k : Nat) : Reader → Bool
  | .nil => false
  | .file _ => false
  | .mfr m => m.stuck k
end

/-- Progress of one `Read` call against the bytes `owed` before it: no error,
at least one byte, a good reader left, and the bytes handed out followed by
what is owed afterwards make up what was owed. -/
def Progress (env : Env) (owed : List Byte × Nat) (p : List Byte) (r : ReadResult) : Prop :=
  r.p.length = p.length ∧ r.err = none ∧ 0 < r.written ∧ r.mfr.good = true ∧
    owed.1 = r.p.take r.written ++ (r.mfr.pending env r.rand).1 ∧
    owed.2 = (r.mfr.pending env r.rand).2

/-- A `Read` call that returns bytes without error and leaves the reader
caught. -/
def Stall (k : Nat) (p : List Byte) (r : ReadResult) : Prop :=
  r.p.length = p.length ∧ r.err = none ∧ r.mfr.stuck k = true

/-- What one `Read` call on a good state achieves with a buffer of `k` bytes:
it reports the end of a stream that owes nothing, it makes progress, or it
leaves the reader caught; and closing lines that fit keep fitting. -/
def StepOk (env : Env) (k : Nat) (m : MultiFileReader) (p : List Byte) (rand : Nat)
    (r : ReadResult) : Prop :=
  ((r = ⟨0, some .EOF, p, m, rand⟩ ∧ m.pending env rand = ([], rand)) ∨
    Progress env (m.pending env rand) p r ∨ Stall k p r) ∧
  ((∀ i, (env.boundary i).length + 8 ≤ k) → m.fits k = true → r.mfr.fits k = true)

/-! ## Finite file trees and the wire format

A finite file tree is plain data; `Forest.toSource` turns it into the source
a well-behaved `cmds.File` implementation presents.  `Forest.wire` writes
down, from the description of the format alone, the stream such a tree is to
be sent as. -/

mutual
/-- A file tree entry: a leaf with a name and contents, or a directory with a
name and children. -/
inductive Tree where
  | leaf (name : List Byte) (content : List Byte)
  | dir (name : List Byte) (children : Forest)
/-- The entries of one level of a file tree, in order. -/
inductive Forest where
  | nil
  | cons (t : Tree) (rest : Forest)
end

/-- The script of a leaf that hands out its contents as fast as the caller's
buffer allows and then reports `io.EOF`. -/
def leafScript (content : List Byte) : List ReadStep :=
  if content.isEmpty then [] else [⟨content, none⟩]

mutual
/-- The `cmds.File` presenting a tree entry. -/
def Tree.toFile : Tree → File
  | .leaf name content => .leaf name (leafScript content)
  | .dir name children => .dir name children.toSource
/-- The source presenting the entries of one level: each entry in order, then
`io.EOF`. -/
def Forest.toSource : Forest → Source
  | .nil => .eof
  | .cons t rest => .entry t.toFile rest.toSource
end

/-- The line that opens a part: `--b\r\n` before the first part of a stream,
`\r\n--b\r\n` before every later one. -/
def delimiterLine (b : List Byte) (first : Bool) : List Byte :=
  (if first then [] else "\r\n".toList) ++ "--".toList ++ b ++ "\r\n".toList

/-- The line that closes a stream: `\r\n--b--\r\n`. -/
def closingLine (b : List Byte) : List Byte :=
  "\r\n--".toList ++ b ++ "--\r\n".toList

/-- The value of the `Content-Disposition` field of a part. -/
def dispositionValue (form : Bool) (name : List Byte) : List Byte :=
  (if form then "form-data; name=\"file\"; filename=\"".toList else "file; filename=\"".toList)
    ++ name ++ "\"".toList

/-- The value of the `Content-Type` field of a part: of a directory with the
boundary of its nested stream, or of a leaf. -/
def typeValue (nested : Option (List Byte)) : List Byte :=
  match nested with
  | some b => "multipart/mixed; boundary=".toList ++ b
  | none => "application/octet-stream".toList

/-- The `Content-Disposition` line of a part. -/
def dispositionLine (form : Bool) (name : List Byte) : List Byte :=
  "Content-Disposition: ".toList ++
    (if form then "form-data; name=\"file\"; filename=\"".toList else "file; filename=\"".toList)
    ++ name ++ "\"\r\n".toList

/-- The `Content-Type` line of a part: of a directory with the boundary of
its nested stream, or of a leaf. -/
def typeLine (nested : Option (List Byte)) : List Byte :=
  "Content-Type: ".toList ++
    (match nested with
     | some b => "multipart/mixed; boundary=".toList ++ b
     | none => "application/octet-stream".toList)
    ++ "\r\n".toList

/-- The delimiter line and the header of a part, up to and including the
empty line. -/
def partHead (b : List Byte) (first form : Bool) (name : List Byte)
    (nested : Option (List Byte)) : List Byte :=
  delimiterLine b first ++ dispositionLine form name ++ typeLine nested ++ "\r\n".toList

mutual
/-- The part of one entry in a stream with boundary `b`: its head, then its
body, which for a directory is the complete nested stream under the next
token drawn.  The second component is the boundary counter afterwards. -/
def Tree.wire (env : Env) (b : List Byte) (first form : Bool) : Tree → Nat → List Byte × Nat
  | .leaf name content, rand => (partHead b first form name none ++ content, rand)
  | .dir name children, rand =>
    let nested := children.wire env (env.boundary rand) true false (rand + 1)
    (partHead b first form name (some (env.boundary rand)) ++ nested.1, nested.2)
/-- The stream of the entries of one level under boundary `b`: the part of
each entry in order, then the closing line. -/
def Forest.wire (env : Env) (b : List Byte) (first form : Bool) :
    Forest → Nat → List Byte × Nat
  | .nil, rand => (closingLine b, rand)
  | .cons t rest, rand =>
    let x := t.wire env b first form rand
    let y := rest.wire env b false form x.2
    (x.1 ++ y.1, y.2)
end

/-- The reader `NewMultiFileReader` builds over a file tree, when the
boundary counter stands at `rand`. -/
def newReader (env : Env) (t : Forest) (form : Bool) (rand : Nat) : MultiFileReader :=
  (NewMultiFileReader env t.toSource form rand).1

/-- The stream a file tree is to be sent as by a reader built when the
boundary counter stands at `rand`. -/
def encode (env : Env) (t : Forest) (form : Bool) (rand : Nat) : List Byte :=
  (t.wire env (env.boundary rand) true form (rand + 1)).1

/-! ## The receiving side: a multipart decoder -/

/-- Remove the leading bytes `pre` from `s`, if `s` starts with them. -/
def strip (pre s : List Byte) : Option (List Byte) :=
  if pre.isPrefixOf s then some (s.drop pre.length) else none

/-- Split the input at the first place where `pat` occurs: the bytes before
it, and the remainder starting with `pat`. -/
def cut (pat : List Byte) : List Byte → Option (List Byte × List Byte)
  | [] => if pat.isPrefixOf [] then some ([], []) else none
  | c :: s =>
    if pat.isPrefixOf (c :: s) then some ([], c :: s)
    else
      match cut pat s with
      | some r => some (c :: r.1, r.2)
      | none => none

/-- Modelled from the spec: the first line of the input, which runs up to the
first line break `\r\n`, and the bytes after that break. -/
def cutLine (s : List Byte) : Option (List Byte × List Byte) :=
  match cut "\r\n".toList s with
  | some r => some (r.1, r.2.drop 2)
  | none => none

/-- Modelled from the spec: the lines of the header block of a part, which
the first empty line ends, and the bytes after that empty line.  The first
argument bounds the number of lines. -/
def headerLines : Nat → List Byte → Option (List (List Byte) × List Byte)
  | 0, _ => none
  | fuel + 1, s =>
    match cutLine s with
    | none => none
    | some r =>
      if r.1.isEmpty then some ([], r.2)
      else
        match headerLines fuel r.2 with
        | none => none
        | some t => some (r.1 :: t.1, t.2)

/-- Modelled from the spec: the value of the header field `key`, the text
after `key: ` on the first line that starts so. -/
def fieldValue (key : List Byte) : List (List Byte) → Option (List Byte)
  | [] => none
  | line :: lines =>
    match strip (key ++ ": ".toList) line with
    | some v => some v
    | none => fieldValue key lines

/-- Modelled from the spec: a quoted string, read from after its opening
quote: the text up to the closing quote, in which a backslash quotes the
byte after it and no line break may stand, and the bytes after the closing
quote. -/
def quoted : List Byte → Option (List Byte × List Byte)
  | [] => none
  | c :: s =>
    if c = '"' then some ([], s)
    else if c = '\r' ∨ c = '\n' then none
    else if c = '\\' then
      match s with
      | [] => none
      | d :: s2 =>
        match quoted s2 with
        | none => none
        | some r => some (d :: r.1, r.2)
    else
      match quoted s with
      | none => none
      | some r => some (c :: r.1, r.2)

/-- Modelled from the spec: the parameters of a field value, read from after
its first item: each is written `; key=value`, where the value is a quoted
string or a run of at least one letter or digit.  The first argument bounds
the number of parameters. -/
def params : Nat → List Byte → Option (List (List Byte × List Byte))
  | 0, _ => none
  | fuel + 1, s =>
    if s.isEmpty then some []
    else
      match strip "; ".toList s with
      | none => none
      | some s1 =>
        match strip "=".toList (s1.dropWhile (fun c => c != '=')) with
        | none => none
        | some s2 =>
          match strip "\"".toList s2 with
          | some s3 =>
            match quoted s3 with
            | none => none
            | some r =>
              match params fuel r.2 with
              | none => none
              | some ps => some ((s1.takeWhile (fun c => c != '='), r.1) :: ps)
          | none =>
            if (s2.takeWhile Char.isAlphanum).isEmpty then none
            else
              match params fuel (s2.dropWhile Char.isAlphanum) with
              | none => none
              | some ps =>
                some ((s1.takeWhile (fun c => c != '='), s2.takeWhile Char.isAlphanum) :: ps)

/-- Modelled from the spec: the value of the parameter `key`. -/
def param (key : List Byte) : List (List Byte × List Byte) → Option (List Byte)
  | [] => none
  | kv :: rest => if kv.1 = key then some kv.2 else param key rest

/-- Modelled from the spec: the parameters of a field value `item; k=v; ...`. -/
def fieldParams (v : List Byte) : Option (List (List Byte × List Byte)) :=
  params (v.length + 1) (v.dropWhile (fun c => c != ';'))

/-- Modelled from the spec: the file name of a part, the `filename` parameter
of its `Content-Disposition` field. -/
def fileName (lines : List (List Byte)) : Option (List Byte) :=
  match fieldValue "Content-Disposition".toList lines with
  | none => none
  | some v =>
    match fieldParams v with
    | none => none
    | some ps => param "filename".toList ps

/-- Modelled from the spec: whether a part holds a nested stream, and under
which boundary: the `boundary` parameter of its `Content-Type` field when the
media type is `multipart/mixed`.  The outer `none` is a header that cannot be
read. -/
def nestedBoundary (lines : List (List Byte)) : Option (Option (List Byte)) :=
  match fieldValue "Content-Type".toList lines with
  | none => some none
  | some v =>
    if v.takeWhile (fun c => c != ';') = "multipart/mixed".toList then
      match fieldParams v with
      | none => none
      | some ps =>
        match param "boundary".toList ps with
        | none => none
        | some tok => some (some tok)
    else some none

/-- Modelled from the spec: the multipart decoder of the receiving side, which
is not part of this repository.  At the start of a stream (`first`) or right
after the body of a part, it expects the closing line `\r\n--b--\r\n`, which
ends the stream, or a delimiter line followed by a header block.  The header
block is read line by line up to its empty line; the name of the entry is the
`filename` parameter of the `Content-Disposition` field, and the fields may
come in any order.  The body of the part runs up to the next `\r\n--b`; when
the `Content-Type` field says `multipart/mixed` it is decoded in turn under
the boundary parameter of that field.  The decoder accepts less than the
format allows (field names as written here, one blank after a colon and after
a semicolon, no preamble and no epilogue), and what it accepts it reads as
the format prescribes.  The first argument bounds the number of nested
calls. -/
def decodeParts (b : List Byte) : Nat → Bool → List Byte → Option Forest
  | 0, _, _ => none
  | fuel + 1, first, input =>
    if input = closingLine b then some .nil
    else
      match strip (delimiterLine b first) input with
      | none => none
      | some s1 =>
        match headerLines s1.length s1 with
        | none => none
        | some hd =>
          match cut ("\r\n--".toList ++ b) hd.2 with
          | none => none
          | some br =>
            match fileName hd.1 with
            | none => none
            | some name =>
              match nestedBoundary hd.1 with
              | none => none
              | some none =>
                match decodeParts b fuel false br.2 with
                | none => none
                | some tail => some (.cons (.leaf name br.1) tail)
              | some (some tok) =>
                match decodeParts tok fuel true br.1 with
                | none => none
                | some children =>
                  match decodeParts b fuel false br.2 with
                  | none => none
                  | some tail => some (.cons (.dir name children) tail)

/-- Modelled from the spec: decoding a whole stream under the boundary `b`. -/
def decode (b : List Byte) (input : List Byte) : Option Forest :=
  decodeParts b input.length true input

/-- The pattern `pat` does not begin anywhere inside `body`, also not when
`body` is followed by `pat` itself. -/
def noEarly (pat : List Byte) : List Byte → Bool
  | [] => true
  | c :: s => !(pat.isPrefixOf (c :: s ++ pat)) && noEarly pat s

mutual
/-- The boundary counter after the part of an entry: one token is drawn for
each directory in it. -/
def Tree.next : Tree → Nat → Nat
  | .leaf _ _, rand => rand
  | .dir _ children, rand => children.next (rand + 1)
/-- The boundary counter after the entries of one level. -/
def Forest.next : Forest → Nat → Nat
  | .nil, rand => rand
  | .cons t rest, rand => rest.next (t.next rand)
end

mutual
/-- The number of streams nested in an entry. -/
def Tree.size : Tree → Nat
  | .leaf _ _ => 0
  | .dir _ children => children.size
/-- The number of entries and streams of one level, which bounds the nested
calls the decoder makes on its stream. -/
def Forest.size : Forest → Nat
  | .nil => 1
  | .cons t rest => t.size + rest.size + 1
end

/-- A name that can be written between double quotes on one header line as
it stands: it holds no double quote, no backslash, no carriage return and no
line feed. -/
def nameOk (name : List Byte) : Bool :=
  name.all (fun c => c != '"' && c != '\\' && c != '\r' && c != '\n')

/-- A token that can be written as a parameter value without quotes: it is
not empty and made of letters and digits, as the tokens `multipart.NewWriter`
draws are. -/
def tokenOk (tok : List Byte) : Bool :=
  !tok.isEmpty && tok.all Char.isAlphanum

mutual
/-- An entry can be sent under boundary `b`: its name can be written between
quotes as it stands, the delimiter `\r\n--b` does not begin inside its
body, and for a directory the token of the nested stream can be written
without quotes and the children can be sent under it. -/
def Tree.safe (env : Env) (b : List Byte) : Tree → Nat → Bool
  | .leaf name content, _ =>
    nameOk name && noEarly ("\r\n--".toList ++ b) content
  | .dir name children, rand =>
    nameOk name && tokenOk (env.boundary rand) &&
      children.safe env (env.boundary rand) (rand + 1) &&
      noEarly ("\r\n--".toList ++ b) (children.wire env (env.boundary rand) true false (rand + 1)).1
/-- Every entry of one level can be sent under boundary `b`. -/
def Forest.safe (env : Env) (b : List Byte) : Forest → Nat → Bool
  | .nil, _ => true
  | .cons t rest, rand => t.safe env b rand && rest.safe env b (t.next rand)
end

/-! ## Concrete environments, trees and states used to run the model -/

/-- The boundary of the nested reader held in `currentFile` (empty when the
current file is not a nested reader). -/
def MultiFileReader.childBoundary (m : MultiFileReader) : List Byte :=
  match m.currentFile with
  | .mfr c => c.Boundary
  | _ => []

/-- The header block `CreatePart` writes for an entry when the boundary
counter stands at `rand`. -/
def partBlock (env : Env) (w : Writer) (form : Bool) (file : File) (rand : Nat) : List Byte :=
  w.partBytes (partHeader (contentDisposition form file.FileName)
    (if file.IsDirectory then mixedType (env.boundary rand) else octetStream))

/-- The reader lines 55 to 62 store in `currentFile` for an entry, and the
boundary counter afterwards. -/
def entryReader (env : Env) (file : File) (rand : Nat) : Reader × Nat :=
  if file.IsDirectory then (.mfr (NewMultiFileReader env file.entries false rand).1, rand + 1)
  else (.file file.reads, rand)

/-- A fault-free environment with two-byte tokens `B0`, `B1`, ... -/
def envEx : Env := ⟨fun n => ['B', Char.ofNat (48 + n % 10)], fun _ => none⟩

/-- A fault-free environment whose tokens have the length of the ones
`multipart.NewWriter` draws: sixty hexadecimal digits. -/
def envHex : Env := ⟨fun n => List.replicate 59 '0' ++ [Char.ofNat (48 + n % 10)], fun _ => none⟩

/-- The tree `[fileA, dirB{fileC}, fileD]`. -/
def treeABCD : Forest :=
  .cons (.leaf "fileA".toList "hello".toList)
    (.cons (.dir "dirB".toList (.cons (.leaf "fileC".toList "xy".toList) .nil))
      (.cons (.leaf "fileD".toList []) .nil))

/-- A caller's buffer of `k` bytes. -/
def buffer (k : Nat) : List Byte := List.replicate k 'x'

/-- The reader over the empty tree after the one call that drained its
closing line into a buffer of sixteen bytes. -/
def mfrEnd : MultiFileReader := .mk .eof .nil [] ⟨"B0".toList, false⟩ true true

/-- A fresh form-data reader over the one leaf `a` with contents `hi`. -/
def mfrFresh : MultiFileReader :=
  .mk (.entry (.leaf "a".toList [⟨"hi".toList, none⟩]) .eof) .nil [] ⟨"B0".toList, false⟩
    false true

/-- A reader inside the part of a directory whose nested reader is inside the
part of a leaf; the leaf's next read hands out `ab` and fails with code 5. -/
def mfrFailing : MultiFileReader :=
  .mk .eof
    (.mfr (.mk .eof (.file [⟨"ab".toList, some (.other 5)⟩]) [] ⟨"B1".toList, true⟩ false false))
    [] ⟨"B0".toList, true⟩ false true

/-- A tree of one leaf whose name holds a double quote, a line break and the
text of a header field. -/
def treeQuote : Forest :=
  .cons (.leaf "a\"\r\nContent-Type: application/octet-stream\r\n\r\nZ".toList "c".toList) .nil

/-- A tree of one leaf named `a` whose contents begin with `Z"` and a line
break. -/
def treePlain : Forest :=
  .cons (.leaf "a".toList "Z\"\r\nContent-Type: application/octet-stream\r\n\r\nc".toList) .nil

/-- The tree `[dirB{fileC}, fileD]`. -/
def treeBD : Forest :=
  .cons (.dir "dirB".toList (.cons (.leaf "fileC".toList "xy".toList) .nil))
    (.cons (.leaf "fileD".toList []) .nil)

/-! ## Invariants of a run and bounds on one call -/

/-- A leaf script none of whose reads returns zero bytes with a nil error:
every step carries a byte or an error. -/
def livelyReads (reads : List ReadStep) : Bool :=
  reads.all (fun s => !(s.bytes.isEmpty && s.err.isNone))

mutual
/-- Every leaf in the file has a script whose reads never return zero bytes
with a nil error. -/
def File.lively : File → Bool
  | .leaf _ reads => livelyReads reads
  | .dir _ entries => entries.lively
/-- Every leaf the source yields, at any depth, has such a script. -/
def Source.lively : Source → Bool
  | .eof => true
  | .entry f rest => f.lively && rest.lively
  | .nilFile rest => rest.lively
  | .fail _ rest => rest.lively
end

mutual
/-- Every leaf the reader is reading or has yet to read has such a script. -/
def MultiFileReader.lively : MultiFileReader → Bool
  | .mk s c _ _ _ _ => s.lively && c.lively
/-- The leaves under the current file have such scripts. -/
def Reader.lively : Reader → Bool
  | .nil => true
  | .file reads => livelyReads reads
  | .mfr m => m.lively
end

mutual
/-- A closed reader has no current file, and the same holds of the nested
readers below it. -/
def MultiFileReader.tidy : MultiFileReader → Bool
  | .mk _ c _ _ cl _ => (!cl || c.isNil) && c.tidy
/-- The nested readers under the current file are tidy. -/
def Reader.tidy : Reader → Bool
  | .nil => true
  | .file _ => true
  | .mfr m => m.tidy
end

mutual
/-- Every nested reader below this one has its form flag off. -/
def MultiFileReader.mixedBelow : MultiFileReader → Bool
  | .mk _ c _ _ _ _ => c.mixed
/-- The current file, if a nested reader, has its form flag off, and so have
the readers below it. -/
def Reader.mixed : Reader → Bool
  | .nil => true
  | .file _ => true
  | .mfr m => !m.form && m.mixedBelow
end

mutual
/-- The nesting depth of a file: 1 for a leaf, one more than that of its
entries for a directory. -/
def File.height : File → Nat
  | .leaf _ _ => 1
  | .dir _ entries => entries.height + 1
/-- The nesting depth of the deepest entry a source yields; the number of
entries does not enter. -/
def Source.height : Source → Nat
  | .eof => 0
  | .entry f rest => max f.height rest.height
  | .nilFile rest => rest.height
  | .fail _ rest => rest.height
end

mutual
/-- A bound on the depth of every later state of the reader: one more than
the nesting depth of what it is reading and has yet to read. -/
def MultiFileReader.bound : MultiFileReader → Nat
  | .mk s c _ _ _ _ => max s.height c.bound + 1
/-- The bound of the current file. -/
def Reader.bound : Reader → Nat
  | .nil => 0
  | .file _ => 1
  | .mfr m => m.bound
end

mutual
/-- The nesting depth of a tree entry. -/
def Tree.height : Tree → Nat
  | .leaf _ _ => 1
  | .dir _ children => children.height + 1
/-- The nesting depth of the deepest entry of one level. -/
def Forest.height : Forest → Nat
  | .nil => 0
  | .cons t rest => max t.height rest.height
end

/-- The bytes the first `n` calls of a caller's loop collect and the reader
they leave, the loop stopping early at the first error. -/
def readN (env : Env) : Nat → MultiFileReader → List Byte → Nat → List Byte × MultiFileReader
  | 0, mfr, _, _ => ([], mfr)
  | n + 1, mfr, p, rand =>
    match Read env mfr.depth mfr p rand with
    | some (.ret r) =>
      match r.err with
      | none => (r.p.take r.written ++ (readN env n r.mfr r.p r.rand).1,
          (readN env n r.mfr r.p r.rand).2)
      | some _ => (r.p.take r.written, r.mfr)
    | _ => ([], mfr)

mutual
/-- No reader in the chain of current files is closed. -/
def MultiFileReader.running : MultiFileReader → Bool
  | .mk _ c _ _ cl _ => !cl && c.running
/-- The current file is not a closed reader, nor holds one. -/
def Reader.running : Reader → Bool
  | .nil => true
  | .file _ => true
  | .mfr m => m.running
end

mutual
/-- Every closing line of the reader and of its nested readers is longer
than `k` bytes. -/
def MultiFileReader.short (k : Nat) : MultiFileReader → Bool
  | .mk _ c _ w _ _ => decide (k < w.boundary.length + 8) && c.short k
/-- The closing lines of the current file are longer than `k` bytes. -/
def Reader.short (k : Nat) : Reader → Bool
  | .nil => true
  | .file _ => true
  | .mfr m => m.short k
end

/-- The entries of a source that follow its first directory. -/
def Source.afterDir : Source → Option Source
  | .entry (.dir _ _) rest => some rest
  | .entry (.leaf _ _) rest => rest.afterDir
  | .eof => none
  | .nilFile _ => none
  | .fail _ _ => none

/-- The entries `later` have not been asked for yet: the reader is in the
part of a directory and they are what is left of its source, or it has not
reached its first directory and they are what follows that directory. -/
def MultiFileReader.waiting (later : Source) (m : MultiFileReader) : Prop :=
  (∃ c, m.currentFile = .mfr c ∧ m.files = later) ∨
    ((∀ c, m.currentFile ≠ .mfr c) ∧ m.files.afterDir = some later)

/-! ## Basic facts about the state and about fuel -/

section Basic

variable (env : Env)

@[simp] theorem files_mk (s c b w cl f) : (MultiFileReader.mk s c b w cl f).files = s := rfl
@[simp] theorem currentFile_mk (s c b w cl f) :
    (MultiFileReader.mk s c b w cl f).currentFile = c := rfl
@[simp] theorem buf_mk (s c b w cl f) : (MultiFileReader.mk s c b w cl f).buf = b := rfl
@[simp] theorem mpWriter_mk (s c b w cl f) : (MultiFileReader.mk s c b w cl f).mpWriter = w := rfl
@[simp] theorem closed_mk (s c b w cl f) : (MultiFileReader.mk s c b w cl f).closed = cl := rfl
@[simp] theorem form_mk (s c b w cl f) : (MultiFileReader.mk s c b w cl f).form = f := rfl
@[simp] theorem Boundary_mk (s c b w cl f) :
    (MultiFileReader.mk s c b w cl f).Boundary = w.boundary := rfl
@[simp] theorem setFiles_mk (s c b w cl f x) :
    (MultiFileReader.mk s c b w cl f).setFiles x = .mk x c b w cl f := rfl
@[simp] theorem setCurrentFile_mk (s c b w cl f x) :
    (MultiFileReader.mk s c b w cl f).setCurrentFile x = .mk s x b w cl f := rfl
@[simp] theorem setBuf_mk (s c b w cl f x) :
    (MultiFileReader.mk s c b w cl f).setBuf x = .mk s c x w cl f := rfl
@[simp] theorem setWriter_mk (s c b w cl f x) :
    (MultiFileReader.mk s c b w cl f).setWriter x = .mk s c b x cl f := rfl
@[simp] theorem setClosed_mk (s c b w cl f x) :
    (MultiFileReader.mk s c b w cl f).setClosed x = .mk s c b w x f := rfl
@[simp] theorem depth_mk (s c b w cl f) :
    (MultiFileReader.mk s c b w cl f).depth = c.depth + 1 := rfl
@[simp] theorem depth_nil : Reader.nil.depth = 0 := rfl
@[simp] theorem depth_file (r) : (Reader.file r).depth = 1 := rfl
@[simp] theorem depth_mfr (m) : (Reader.mfr m).depth = m.depth := rfl

theorem depth_pos (m : MultiFileReader) : 0 < m.depth := by
  cases m; simp

/-- One unfolding of `Read`. -/
theorem Read_succ (fuel : Nat) (mfr : MultiFileReader) (p : List Byte) (rand : Nat) :
    Read env (fuel + 1) mfr p rand =
      if mfr.closed = true ∧ mfr.buf.length = 0 then
        some (.ret ⟨0, some .EOF, p, mfr, rand⟩)
      else
        match advance env mfr rand with
        | .panic => some .panic
        | .fail e mfr1 rand1 => some (.ret ⟨0, some e, p, mfr1, rand1⟩)
        | .next mfr1 rand1 =>
          if 0 < mfr1.buf.length then
            some (.ret ⟨(bufRead mfr1.buf p).1, (bufRead mfr1.buf p).2.1,
              (bufRead mfr1.buf p).2.2.1, mfr1.setBuf (bufRead mfr1.buf p).2.2.2, rand1⟩)
          else
            match mfr1.currentFile with
            | .nil => some .panic
            | .file reads =>
              if (fileRead reads p).2.1 = some .EOF then
                Read env fuel (mfr1.setCurrentFile .nil) (fileRead reads p).2.2.1 rand1
              else
                some (.ret ⟨(fileRead reads p).1, (fileRead reads p).2.1,
                  (fileRead reads p).2.2.1,
                  mfr1.setCurrentFile (.file (fileRead reads p).2.2.2), rand1⟩)
            | .mfr c =>
              match Read env fuel c p rand1 with
              | none => none
              | some .panic => some .panic
              | some (.ret r) =>
                if r.err = some .EOF then
                  Read env fuel (mfr1.setCurrentFile .nil) r.p r.rand
                else
                  some (.ret ⟨r.written, r.err, r.p,
                    mfr1.setCurrentFile (.mfr r.mfr), r.rand⟩) := rfl

/-- More fuel never changes a result. -/
theorem Read_fuel_mono : ∀ (fuel : Nat) (mfr : MultiFileReader) (p : List Byte) (rand : Nat)
    (o : Outcome), Read env fuel mfr p rand = some o →
    ∀ fuel2, fuel ≤ fuel2 → Read env fuel2 mfr p rand = some o := by
  intro fuel
  induction fuel with
  | zero => intro mfr p rand o h; simp [Read] at h
  | succ n ih =>
    intro mfr p rand o h fuel2 hle
    obtain ⟨m, rfl⟩ : ∃ m, fuel2 = m + 1 := ⟨fuel2 - 1, by omega⟩
    have hnm : n ≤ m := by omega
    rw [Read_succ] at h ⊢
    split
    · rename_i hc; rw [if_pos hc] at h; exact h
    · rename_i hc
      rw [if_neg hc] at h
      cases hadv : advance env mfr rand with
      | panic => rw [hadv] at h; exact h
      | fail e m1 r1 => rw [hadv] at h; exact h
      | next m1 r1 =>
        rw [hadv] at h
        simp only at h ⊢
        split
        · rename_i hb; rw [if_pos hb] at h; exact h
        · rename_i hb
          rw [if_neg hb] at h
          cases hcur : m1.currentFile with
          | nil => rw [hcur] at h; exact h
          | file reads =>
            rw [hcur] at h
            simp only at h ⊢
            split
            · rename_i he; rw [if_pos he] at h; exact ih _ _ _ _ h _ hnm
            · rename_i he; rw [if_neg he] at h; exact h
          | mfr c =>
            rw [hcur] at h
            simp only at h ⊢
            cases hc : Read env n c p r1 with
            | none => rw [hc] at h; simp at h
            | some oc =>
              rw [hc] at h
              rw [ih _ _ _ _ hc _ hnm]
              cases oc with
              | panic => exact h
              | ret r =>
                simp only at h ⊢
                split
                · rename_i he; rw [if_pos he] at h; exact ih _ _ _ _ h _ hnm
                · rename_i he; rw [if_neg he] at h; exact h

theorem closing_length (w : Writer) : w.closing.length = w.boundary.length + 8 := by
  simp [Writer.closing, crlf]

theorem partBytes_length_pos (w : Writer) (h : List (List Byte × List Byte)) :
    0 < (w.partBytes h).length := by
  simp [Writer.partBytes, Writer.delimiter, crlf]

/-- The advance step on a reader without a current file, by the next entry of
its source. -/
theorem advance_nil_eof (b w cl f) (rand : Nat) :
    advance env (.mk .eof .nil b w cl f) rand
      = .next (.mk .eof .nil (b ++ w.closing) { w with lastpart := false } true f) rand := by
  simp [advance, Source.NextFile, Writer.Close]

theorem advance_nil_nilFile (rest b w cl f) (rand : Nat) :
    advance env (.mk (.nilFile rest) .nil b w cl f) rand
      = .next (.mk rest .nil (b ++ w.closing) { w with lastpart := false } true f) rand := by
  simp [advance, Source.NextFile, Writer.Close]

theorem advance_nil_failEOF (rest b w cl f) (rand : Nat) :
    advance env (.mk (.fail .EOF rest) .nil b w cl f) rand
      = .next (.mk rest .nil (b ++ w.closing) { w with lastpart := false } true f) rand := by
  simp [advance, Source.NextFile, Writer.Close]

theorem advance_nil_fail (code : Nat) (rest b w cl f) (rand : Nat) :
    advance env (.mk (.fail (.other code) rest) .nil b w cl f) rand
      = .fail (.other code) (.mk rest .nil b w cl f) rand := by
  simp [advance, Source.NextFile]

theorem advance_nil_entry (file : File) (rest b w cl f) (rand : Nat) :
    advance env (.mk (.entry file rest) .nil b w cl f) rand
      = if cl = true then .next (.mk rest .nil b w cl f) rand
        else startPart env (.mk rest .nil b w cl f) file rand := by
  simp [advance, Source.NextFile]

theorem advance_cur (m : MultiFileReader) (rand : Nat) (h : m.currentFile ≠ .nil) :
    advance env m rand = .next m rand := by
  cases m with
  | mk s c b w cl f =>
    cases c with
    | nil => simp at h
    | file r => simp [advance]
    | mfr c => simp [advance]

/-- The part-starting step on a leaf entry. -/
theorem startPart_leaf (name : List Byte) (reads : List ReadStep) (s c b w cl f) (rand : Nat) :
    startPart env (.mk s c b w cl f) (.leaf name reads) rand
      = match env.partErr (w.partBytes (partHeader (contentDisposition f name) octetStream)) with
        | some code => .fail (.other code) (.mk s (.file reads) b w cl f) rand
        | none => .next (.mk s (.file reads)
            (b ++ w.partBytes (partHeader (contentDisposition f name) octetStream))
            { w with lastpart := true } cl f) rand := by
  simp only [startPart, File.IsDirectory, File.reads, File.FileName, Writer.CreatePart,
    setCurrentFile_mk, form_mk, mpWriter_mk, buf_mk]
  cases h : env.partErr (w.partBytes (partHeader (contentDisposition f name) octetStream)) <;>
    simp [h]

/-- The part-starting step on a directory entry. -/
theorem startPart_dir (name : List Byte) (entries : Source) (s c b w cl f) (rand : Nat) :
    startPart env (.mk s c b w cl f) (.dir name entries) rand
      = match env.partErr (w.partBytes
            (partHeader (contentDisposition f name) (mixedType (env.boundary rand)))) with
        | some code => .fail (.other code)
            (.mk s (.mfr (NewMultiFileReader env entries false rand).1) b w cl f) (rand + 1)
        | none => .next (.mk s (.mfr (NewMultiFileReader env entries false rand).1)
            (b ++ w.partBytes
              (partHeader (contentDisposition f name) (mixedType (env.boundary rand))))
            { w with lastpart := true } cl f) (rand + 1) := by
  simp only [startPart, File.IsDirectory, File.entries, File.FileName, Writer.CreatePart,
    setCurrentFile_mk, form_mk, mpWriter_mk, buf_mk, NewMultiFileReader, currentFile_mk,
    Boundary_mk]
  cases h : env.partErr (w.partBytes
    (partHeader (contentDisposition f name) (mixedType (env.boundary rand)))) <;> simp [h]

/-- After the advance step of a reader that had no current file and was not
at its end, the header buffer is not empty and no current file of an earlier
part is left. -/
theorem advance_nil_buf_pos (m m1 : MultiFileReader) (rand r1 : Nat)
    (hcur : m.currentFile = .nil) (hne : ¬ (m.closed = true ∧ m.buf.length = 0))
    (h : advance env m rand = .next m1 r1) : 0 < m1.buf.length := by
  cases m with
  | mk s c b w cl f =>
    simp only [currentFile_mk] at hcur
    subst hcur
    simp only [closed_mk, buf_mk] at hne
    cases s with
    | eof =>
      rw [advance_nil_eof] at h
      cases h
      simp [closing_length]
    | nilFile rest =>
      rw [advance_nil_nilFile] at h
      cases h
      simp [closing_length]
    | fail e rest =>
      cases e with
      | EOF =>
        rw [advance_nil_failEOF] at h
        cases h
        simp [closing_length]
      | other code => rw [advance_nil_fail] at h; cases h
    | entry file rest =>
      rw [advance_nil_entry] at h
      by_cases hcl : cl = true
      · rw [if_pos hcl] at h
        cases h
        simp only [buf_mk]
        by_contra hb
        exact hne ⟨hcl, by omega⟩
      · rw [if_neg hcl] at h
        cases file with
        | leaf name reads =>
          rw [startPart_leaf] at h
          split at h
          · cases h
          · cases h
            have := partBytes_length_pos w (partHeader (contentDisposition f name) octetStream)
            simp only [buf_mk, List.length_append]
            omega
        | dir name entries =>
          rw [startPart_dir] at h
          split at h
          · cases h
          · cases h
            have := partBytes_length_pos w
              (partHeader (contentDisposition f name) (mixedType (env.boundary rand)))
            simp only [buf_mk, List.length_append]
            omega

/-- A `Read` call on a reader without a current file makes no nested call:
one unit of fuel is enough, and it never reads through a nil reader. -/
theorem Read_nil (fuel : Nat) (m : MultiFileReader) (p : List Byte) (rand : Nat)
    (hcur : m.currentFile = .nil) :
    Read env (fuel + 1) m p rand =
      if m.closed = true ∧ m.buf.length = 0 then
        some (.ret ⟨0, some .EOF, p, m, rand⟩)
      else
        match advance env m rand with
        | .panic => some .panic
        | .fail e mfr1 rand1 => some (.ret ⟨0, some e, p, mfr1, rand1⟩)
        | .next mfr1 rand1 =>
          some (.ret ⟨(bufRead mfr1.buf p).1, (bufRead mfr1.buf p).2.1,
            (bufRead mfr1.buf p).2.2.1, mfr1.setBuf (bufRead mfr1.buf p).2.2.2, rand1⟩) := by
  rw [Read_succ]
  split
  · rfl
  · rename_i hne
    cases hadv : advance env m rand with
    | panic => rfl
    | fail e m1 r1 => rfl
    | next m1 r1 =>
      simp only
      rw [if_pos (advance_nil_buf_pos env m m1 rand r1 hcur hne hadv)]

/-- `Read` always returns when given fuel equal to the depth of the reader;
by `Read_fuel_mono` any larger amount gives the same outcome. -/
theorem Read_fuel_enough : ∀ (n : Nat) (m : MultiFileReader) (p : List Byte) (rand : Nat),
    m.depth ≤ n → ∃ o, Read env n m p rand = some o := by
  intro n
  induction n with
  | zero => intro m p rand h; have := depth_pos m; omega
  | succ n ih =>
    intro m p rand h
    rw [Read_succ]
    split
    · exact ⟨_, rfl⟩
    · cases hadv : advance env m rand with
      | panic => exact ⟨_, rfl⟩
      | fail e m1 r1 => exact ⟨_, rfl⟩
      | next m1 r1 =>
        simp only
        split
        · exact ⟨_, rfl⟩
        · rename_i hne hb
          have hcurne : m.currentFile ≠ .nil := by
            intro hc
            exact hb (advance_nil_buf_pos env m m1 rand r1 hc hne hadv)
          rw [advance_cur env m rand hcurne] at hadv
          cases hadv
          cases m with
          | mk s c b w cl f =>
            cases c with
            | nil => simp at hcurne
            | file reads =>
              simp only [currentFile_mk]
              split
              · obtain ⟨k, rfl⟩ : ∃ k, n = k + 1 := ⟨n - 1, by simp at h; omega⟩
                rw [Read_nil env k _ _ _ (by simp)]
                split
                · exact ⟨_, rfl⟩
                · split <;> exact ⟨_, rfl⟩
              · exact ⟨_, rfl⟩
            | mfr c =>
              simp only [currentFile_mk]
              have hcd : c.depth ≤ n := by simp at h; omega
              obtain ⟨oc, hoc⟩ := ih c p rand hcd
              rw [hoc]
              cases oc with
              | panic => exact ⟨_, rfl⟩
              | ret r =>
                simp only
                split
                · obtain ⟨k, rfl⟩ : ∃ k, n = k + 1 :=
                    ⟨n - 1, by have := depth_pos c; omega⟩
                  rw [Read_nil env k _ _ _ (by simp)]
                  split
                  · exact ⟨_, rfl⟩
                  · split <;> exact ⟨_, rfl⟩
                · exact ⟨_, rfl⟩

/-- The delegated read from the header buffer never reports `io.EOF` when the
buffer holds bytes. -/
theorem bufRead_err (b p : List Byte) (h : 0 < b.length) : (bufRead b p).2.1 = none := by
  have hb : b.length ≠ 0 := by omega
  simp [bufRead, hb]

/-- `Read` reports `io.EOF` only through its first return: the reader is
closed with an empty header buffer, and the call changes nothing. -/
theorem Read_eof_inv : ∀ (fuel : Nat) (m : MultiFileReader) (p : List Byte) (rand : Nat)
    (r : ReadResult), Read env fuel m p rand = some (.ret r) → r.err = some .EOF →
    (m.closed = true ∧ m.buf.length = 0) ∧ r = ⟨0, some .EOF, p, m, rand⟩ := by
  intro fuel
  induction fuel with
  | zero => intro m p rand r h; simp [Read] at h
  | succ n ih =>
    intro m p rand r h he
    rw [Read_succ] at h
    split at h
    · rename_i hc
      simp only [Option.some.injEq, Outcome.ret.injEq] at h
      exact ⟨hc, h.symm⟩
    · rename_i hne
      exfalso
      cases hadv : advance env m rand with
      | panic => rw [hadv] at h; simp at h
      | fail e m1 r1 =>
        rw [hadv] at h
        simp only [Option.some.injEq, Outcome.ret.injEq] at h
        subst h
        simp only [Option.some.injEq] at he
        subst he
        -- the advance step returns only errors other than io.EOF
        cases m with
        | mk s c b w cl f =>
          cases c with
          | file reads => simp [advance] at hadv
          | mfr c => simp [advance] at hadv
          | nil =>
            cases s with
            | eof => rw [advance_nil_eof] at hadv; cases hadv
            | nilFile rest => rw [advance_nil_nilFile] at hadv; cases hadv
            | fail e rest =>
              cases e with
              | EOF => rw [advance_nil_failEOF] at hadv; cases hadv
              | other code => rw [advance_nil_fail] at hadv; cases hadv
            | entry file rest =>
              rw [advance_nil_entry] at hadv
              split at hadv
              · cases hadv
              · cases file with
                | leaf name reads =>
                  rw [startPart_leaf] at hadv
                  split at hadv <;> cases hadv
                | dir name entries =>
                  rw [startPart_dir] at hadv
                  split at hadv <;> cases hadv
      | next m1 r1 =>
        rw [hadv] at h
        simp only at h
        split at h
        · rename_i hb
          simp only [Option.some.injEq, Outcome.ret.injEq] at h
          subst h
          simp only [bufRead_err _ _ hb] at he
          cases he
        · rename_i hb
          have hcurne : m.currentFile ≠ .nil := by
            intro hc
            exact hb (advance_nil_buf_pos env m m1 rand r1 hc hne hadv)
          rw [advance_cur env m rand hcurne] at hadv
          cases hadv
          have hretry : ∀ (p2 : List Byte) (rand2 : Nat),
              Read env n (m.setCurrentFile .nil) p2 rand2 = some (.ret r) → False := by
            intro p2 rand2 h2
            have := (ih _ _ _ _ h2 he).1
            cases m with
            | mk s c b w cl f => exact hne (by simpa using this)
          cases hcur : m.currentFile with
          | nil => exact hcurne hcur
          | file reads =>
            rw [hcur] at h
            simp only at h
            split at h
            · exact hretry _ _ h
            · rename_i hne2
              simp only [Option.some.injEq, Outcome.ret.injEq] at h
              subst h
              exact hne2 he
          | mfr c =>
            rw [hcur] at h
            simp only at h
            cases hc : Read env n c p rand with
            | none => rw [hc] at h; simp at h
            | some oc =>
              rw [hc] at h
              cases oc with
              | panic => simp at h
              | ret rc =>
                simp only at h
                split at h
                · exact hretry _ _ h
                · rename_i hne2
                  simp only [Option.some.injEq, Outcome.ret.injEq] at h
                  subst h
                  exact hne2 he

/-! ## One call against the bytes owed -/

@[simp] theorem good_mk (s c b w cl f) :
    (MultiFileReader.mk s c b w cl f).good =
      (c.good &&
        (if cl then c.isNil && b.isEmpty else s.plain && (!c.isNil || b.isEmpty))) := by
  simp [MultiFileReader.good]
@[simp] theorem good_nil : Reader.nil.good = true := by simp [Reader.good]
@[simp] theorem good_file (r) : (Reader.file r).good = plainReads r := by simp [Reader.good]
@[simp] theorem good_mfr (m) : (Reader.mfr m).good = m.good := by simp [Reader.good]
@[simp] theorem fits_mk (k s c b w cl f) :
    (MultiFileReader.mk s c b w cl f).fits k
      = (decide (w.boundary.length + 8 ≤ k) && c.fits k) := by
  simp [MultiFileReader.fits]
@[simp] theorem fits_nil (k) : Reader.nil.fits k = true := by simp [Reader.fits]
@[simp] theorem fits_file (k r) : (Reader.file r).fits k = true := by simp [Reader.fits]
@[simp] theorem fits_mfr (k m) : (Reader.mfr m).fits k = m.fits k := by simp [Reader.fits]
@[simp] theorem stuck_mk (k s c b w cl f) :
    (MultiFileReader.mk s c b w cl f).stuck k =
      (if cl then c.isNil && !b.isEmpty && decide (k < w.boundary.length + 8) && s.dry
       else b.isEmpty && c.stuck k) := by
  simp [MultiFileReader.stuck]
@[simp] theorem stuck_nil (k) : Reader.nil.stuck k = false := by simp [Reader.stuck]
@[simp] theorem stuck_file (k r) : (Reader.file r).stuck k = false := by simp [Reader.stuck]
@[simp] theorem stuck_mfr (k m) : (Reader.mfr m).stuck k = m.stuck k := by simp [Reader.stuck]
@[simp] theorem pending_mk (s c b w cl f rand) :
    (MultiFileReader.mk s c b w cl f).pending env rand =
      if cl then (b, rand)
      else (b ++ (c.pending env rand).1 ++ (s.stream env w f (c.pending env rand).2).1,
            (s.stream env w f (c.pending env rand).2).2) := by
  simp [MultiFileReader.pending]
@[simp] theorem pending_nil (rand) : Reader.nil.pending env rand = ([], rand) := by
  simp [Reader.pending]
@[simp] theorem pending_file (r rand) :
    (Reader.file r).pending env rand = (scriptBytes r, rand) := by simp [Reader.pending]
@[simp] theorem pending_mfr (m rand) :
    (Reader.mfr m).pending env rand = m.pending env rand := by simp [Reader.pending]
@[simp] theorem isNil_nil : Reader.nil.isNil = true := rfl
@[simp] theorem isNil_file (r) : (Reader.file r).isNil = false := rfl
@[simp] theorem isNil_mfr (m) : (Reader.mfr m).isNil = false := rfl

theorem copy_length (p b : List Byte) : (copy p b).length = p.length := by
  simp [copy]; omega

theorem copy_take (p b : List Byte) :
    (copy p b).take (min p.length b.length) = b.take p.length := by
  simp [copy, List.take_append_eq_append_take, List.take_take]

theorem bufRead_pos (b p : List Byte) (h : 0 < b.length) :
    bufRead b p = (min p.length b.length, none, copy p b, b.drop p.length) := by
  have hb : b.length ≠ 0 := by omega
  simp [bufRead, hb]

@[simp] theorem stream_eof (w f rand) : Source.eof.stream env w f rand = (w.closing, rand) := by
  simp [Source.stream]
@[simp] theorem stream_nilFile (rest w f rand) :
    (Source.nilFile rest).stream env w f rand = (w.closing, rand) := by
  simp [Source.stream]
@[simp] theorem stream_fail (e rest w f rand) :
    (Source.fail e rest).stream env w f rand = (w.closing, rand) := by
  simp [Source.stream]
@[simp] theorem stream_entry (file rest w f rand) :
    (Source.entry file rest).stream env w f rand =
      (w.partBytes (partHeader (contentDisposition f file.FileName)
          (if file.IsDirectory then mixedType (env.boundary rand) else octetStream))
        ++ (file.body env rand).1
        ++ (rest.stream env { w with lastpart := true } f (file.body env rand).2).1,
       (rest.stream env { w with lastpart := true } f (file.body env rand).2).2) := by
  simp [Source.stream]
@[simp] theorem body_leaf (n r rand) : (File.leaf n r).body env rand = (scriptBytes r, rand) := by
  simp [File.body]
@[simp] theorem body_dir (n s rand) :
    (File.dir n s).body env rand = s.stream env ⟨env.boundary rand, false⟩ false (rand + 1) := by
  simp [File.body]
@[simp] theorem plain_eof : Source.eof.plain = true := by simp [Source.plain]
@[simp] theorem plain_nilFile (r) : (Source.nilFile r).plain = r.dry := by simp [Source.plain]
@[simp] theorem plain_failEOF (r) : (Source.fail .EOF r).plain = r.dry := by simp [Source.plain]
@[simp] theorem plain_fail (c r) : (Source.fail (.other c) r).plain = false := by
  simp [Source.plain]
@[simp] theorem plain_entry (f r) : (Source.entry f r).plain = (f.plain && r.plain) := by
  simp [Source.plain]
@[simp] theorem plain_leaf (n r) : (File.leaf n r).plain = plainReads r := by simp [File.plain]
@[simp] theorem plain_dir (n s) : (File.dir n s).plain = s.plain := by simp [File.plain]

/-- A call that reads from a non-empty header buffer hands out a prefix of
what is owed. -/
theorem step_buf (p : List Byte) (hp : 0 < p.length) (s c b w cl f) (rand : Nat)
    (hb : 0 < b.length)
    (hgood : (MultiFileReader.mk s c (b.drop p.length) w cl f).good = true) :
    Progress env ((MultiFileReader.mk s c b w cl f).pending env rand) p
      ⟨(bufRead b p).1, (bufRead b p).2.1, (bufRead b p).2.2.1,
        (MultiFileReader.mk s c b w cl f).setBuf (bufRead b p).2.2.2, rand⟩ := by
  rw [bufRead_pos _ _ hb]
  refine ⟨by simp [copy_length], rfl, ?_, ?_, ?_, ?_⟩
  · simp only; omega
  · simpa using hgood
  · simp only [pending_mk, setBuf_mk]
    rw [copy_take]
    cases cl <;> simp [← List.append_assoc]
  · simp only [pending_mk, setBuf_mk]
    cases cl <;> simp

/-- The call that queues the closing line: it hands the line out whole when
it fits in the caller's buffer, and leaves the reader caught when it does
not. -/
theorem step_closing (p : List Byte) (hp : 0 < p.length) (rest : Source) (hdry : rest.dry = true)
    (w : Writer) (f : Bool) (rand : Nat) :
    Progress env (w.closing, rand) p
      ⟨(bufRead w.closing p).1, (bufRead w.closing p).2.1, (bufRead w.closing p).2.2.1,
        (MultiFileReader.mk rest .nil w.closing { w with lastpart := false } true f).setBuf
          (bufRead w.closing p).2.2.2, rand⟩ ∨
    Stall p.length p
      ⟨(bufRead w.closing p).1, (bufRead w.closing p).2.1, (bufRead w.closing p).2.2.1,
        (MultiFileReader.mk rest .nil w.closing { w with lastpart := false } true f).setBuf
          (bufRead w.closing p).2.2.2, rand⟩ := by
  have hlen := closing_length w
  have hcl : 0 < w.closing.length := by omega
  by_cases hle : w.closing.length ≤ p.length
  · left
    have hdrop : w.closing.drop p.length = [] := List.drop_eq_nil_of_le hle
    have := step_buf env p hp rest .nil w.closing { w with lastpart := false } true f rand hcl
      (by simp [hdrop])
    simpa using this
  · right
    rw [bufRead_pos _ _ hcl]
    refine ⟨by simp [copy_length], rfl, ?_⟩
    have hd : w.closing.drop p.length ≠ [] := by
      intro h
      have := List.drop_eq_nil_iff.mp h
      omega
    simp only [setBuf_mk, stuck_mk, if_true, isNil_nil, Bool.true_and, Bool.and_eq_true,
      Bool.not_eq_true', List.isEmpty_eq_false, decide_eq_true_eq]
    exact ⟨⟨hd, by omega⟩, hdry⟩

/-- A `Read` call on a good reader between two parts: it queues the next
header block, or the closing line, and hands out bytes of it. -/
theorem step_nil (hnf : env.NoFault) (p : List Byte) (hk : 0 < p.length) (fuel : Nat)
    (s w f) (rand : Nat) (hgood : (MultiFileReader.mk s .nil [] w false f).good = true) :
    ∃ r, Read env (fuel + 1) (.mk s .nil [] w false f) p rand = some (.ret r) ∧
      (Progress env ((MultiFileReader.mk s .nil [] w false f).pending env rand) p r ∨
        Stall p.length p r) ∧
      ((∀ i, (env.boundary i).length + 8 ≤ p.length) →
        (MultiFileReader.mk s .nil [] w false f).fits p.length = true →
        r.mfr.fits p.length = true) := by
  simp only [good_mk, good_nil, isNil_nil, Bool.true_and, Bool.false_eq_true, if_false,
    Bool.not_true, Bool.false_or, List.isEmpty_nil, Bool.and_true] at hgood
  rw [Read_nil env fuel _ _ _ (by simp)]
  rw [if_neg (by simp)]
  cases s with
  | eof =>
    rw [advance_nil_eof]
    refine ⟨_, rfl, ?_, ?_⟩
    · simpa using step_closing env p hk .eof rfl w f rand
    · intro _ h; simpa using h
  | nilFile rest =>
    rw [advance_nil_nilFile]
    refine ⟨_, rfl, ?_, ?_⟩
    · simpa using step_closing env p hk rest (by simpa using hgood) w f rand
    · intro _ h; simpa using h
  | fail e rest =>
    cases e with
    | other code => simp at hgood
    | EOF =>
      rw [advance_nil_failEOF]
      refine ⟨_, rfl, ?_, ?_⟩
      · simpa using step_closing env p hk rest (by simpa using hgood) w f rand
      · intro _ h; simpa using h
  | entry file rest =>
    rw [advance_nil_entry, if_neg (by simp)]
    simp only [plain_entry, Bool.and_eq_true] at hgood
    cases file with
    | leaf name reads =>
      rw [startPart_leaf, hnf]
      refine ⟨_, rfl, Or.inl ?_, ?_⟩
      · simp only [plain_leaf] at hgood
        have := step_buf env p hk rest (.file reads)
          (w.partBytes (partHeader (contentDisposition f name) octetStream))
          { w with lastpart := true } false f rand (partBytes_length_pos _ _)
          (by simp [hgood.1, hgood.2])
        simpa [File.IsDirectory, File.FileName] using this
      · intro _ h; simpa using h
    | dir name entries =>
      rw [startPart_dir, hnf]
      refine ⟨_, rfl, Or.inl ?_, ?_⟩
      · simp only [plain_dir] at hgood
        have := step_buf env p hk rest (.mfr (NewMultiFileReader env entries false rand).1)
          (w.partBytes (partHeader (contentDisposition f name) (mixedType (env.boundary rand))))
          { w with lastpart := true } false f (rand + 1) (partBytes_length_pos _ _)
          (by simp [hgood.1, hgood.2, NewMultiFileReader])
        simpa [File.IsDirectory, File.FileName, NewMultiFileReader] using this
      · intro hfit h
        have := hfit rand
        simp only [fits_mk, fits_nil, Bool.and_true, decide_eq_true_eq] at h
        simp [NewMultiFileReader, h, this]

theorem copy_take_of_le (p b : List Byte) (h : b.length ≤ p.length) :
    (copy p b).take b.length = b := by
  have := copy_take p b
  rw [Nat.min_eq_right h] at this
  rw [this]
  exact List.take_of_length_le h

theorem copy_take_of_ge (p b : List Byte) (h : p.length ≤ b.length) :
    (copy p b).take p.length = b.take p.length := by
  have := copy_take p b
  rw [Nat.min_eq_left h] at this
  exact this

theorem plainReads_cons (s : ReadStep) (rest : List ReadStep) :
    plainReads (s :: rest) = true ↔ (s.bytes ≠ [] ∧ s.err = none) ∧ plainReads rest = true := by
  simp [plainReads, List.isEmpty_iff]

/-- A `Read` call on a good reader whose current file is a leaf and whose
header buffer is empty. -/
theorem step_file (hnf : env.NoFault) (p : List Byte) (hk : 0 < p.length) (fuel : Nat)
    (s reads w f) (rand : Nat)
    (hgood : (MultiFileReader.mk s (.file reads) [] w false f).good = true) :
    ∃ r, Read env (fuel + 2) (.mk s (.file reads) [] w false f) p rand = some (.ret r) ∧
      (Progress env ((MultiFileReader.mk s (.file reads) [] w false f).pending env rand) p r ∨
        Stall p.length p r) ∧
      ((∀ i, (env.boundary i).length + 8 ≤ p.length) →
        (MultiFileReader.mk s (.file reads) [] w false f).fits p.length = true →
        r.mfr.fits p.length = true) := by
  have hg := hgood
  simp only [good_mk, good_file, isNil_file, Bool.and_eq_true,
    Bool.false_eq_true, if_false, Bool.not_false, Bool.true_or, Bool.and_true] at hg
  obtain ⟨hr, hs⟩ := hg
  rw [Read_succ, if_neg (by simp), advance_cur env _ _ (by simp)]
  simp only [buf_mk, List.length_nil, Nat.lt_irrefl, if_false, currentFile_mk]
  cases reads with
  | nil =>
    simp only [fileRead, if_true, setCurrentFile_mk]
    obtain ⟨r, h1, h2, h3⟩ := step_nil env hnf p hk fuel s w f rand (by simp [hs])
    exact ⟨r, h1, by simpa [scriptBytes] using h2, fun hfit h => h3 hfit (by simpa using h)⟩
  | cons s0 rest =>
    rw [plainReads_cons] at hr
    obtain ⟨⟨hne, herr⟩, hrest⟩ := hr
    have hlen : 0 < s0.bytes.length := List.length_pos.mpr hne
    by_cases hfits : s0.bytes.length ≤ p.length
    · simp only [fileRead, if_pos hfits, herr]
      rw [if_neg (by simp)]
      refine ⟨_, rfl, Or.inl ⟨by simp [copy_length], rfl, hlen, ?_, ?_, ?_⟩, ?_⟩
      · simp [hrest, hs]
      · simp [copy_take_of_le _ _ hfits, scriptBytes]
      · simp
      · intro _ h; simpa using h
    · simp only [fileRead, if_neg hfits]
      rw [if_neg (by simp)]
      refine ⟨_, rfl, Or.inl ⟨by simp [copy_length], rfl, hk, ?_, ?_, ?_⟩, ?_⟩
      · have hd : s0.bytes.drop p.length ≠ [] := by
          intro h
          have := List.drop_eq_nil_iff.mp h
          omega
        simp only [setCurrentFile_mk, good_mk, good_file, isNil_file]
        have : plainReads (⟨s0.bytes.drop p.length, s0.err⟩ :: rest) = true := by
          rw [plainReads_cons]; exact ⟨⟨hd, herr⟩, hrest⟩
        simp [this, hs]
      · simp [copy_take_of_ge _ _ (Nat.le_of_not_le hfits), scriptBytes, ← List.append_assoc]
      · simp
      · intro _ h; simpa using h

/-- One `Read` call on a good reader with a non-empty buffer: it reports the
end of a stream that owes nothing, or hands out at least one byte of what is
owed and leaves a good reader, or leaves the reader caught behind a closing
line that does not fit. -/
theorem Read_step (hnf : env.NoFault) (p : List Byte) (hk : 0 < p.length) :
    ∀ (n : Nat) (m : MultiFileReader) (rand : Nat), m.depth ≤ n → m.good = true →
      ∃ r, Read env n m p rand = some (.ret r) ∧ StepOk env p.length m p rand r := by
  intro n
  induction n with
  | zero => intro m rand h; have := depth_pos m; omega
  | succ n ih =>
    intro m rand hd hgood
    cases m with
    | mk s c b w cl f =>
      have hg := hgood
      simp only [good_mk, Bool.and_eq_true] at hg
      obtain ⟨hc, hrest⟩ := hg
      cases cl with
      | true =>
        simp only [if_true, Bool.and_eq_true, List.isEmpty_iff] at hrest
        obtain ⟨hcn, hb⟩ := hrest
        subst hb
        cases c with
        | nil =>
          rw [Read_succ, if_pos (by simp)]
          exact ⟨_, rfl, Or.inl ⟨rfl, by simp⟩, fun _ h => h⟩
        | file r => simp at hcn
        | mfr c => simp at hcn
      | false =>
        simp only [Bool.false_eq_true, if_false, Bool.and_eq_true, Bool.or_eq_true,
          Bool.not_eq_true', List.isEmpty_iff] at hrest
        obtain ⟨hs, hcb⟩ := hrest
        by_cases hb : 0 < b.length
        · -- bytes of a header block are waiting
          have hcne : c ≠ .nil := by
            intro h
            subst h
            simp at hcb
            subst hcb
            simp at hb
          rw [Read_succ, if_neg (by simp), advance_cur env _ _ (by simpa using hcne)]
          simp only [buf_mk, if_pos hb]
          refine ⟨_, rfl, Or.inr (Or.inl ?_), ?_⟩
          · refine step_buf env p hk s c b w false f rand hb ?_
            have hcn : c.isNil = false := by
              cases c with
              | nil => exact absurd rfl hcne
              | file r => rfl
              | mfr c => rfl
            simp [hc, hs, hcn]
          · intro _ h; simpa using h
        · have hb0 : b = [] := List.length_eq_zero.mp (by omega)
          subst hb0
          cases c with
          | nil =>
            obtain ⟨r, h1, h2, h3⟩ := step_nil env hnf p hk n s w f rand hgood
            exact ⟨r, h1, Or.inr h2, h3⟩
          | file reads =>
            obtain ⟨n2, rfl⟩ : ∃ n2, n = n2 + 1 := ⟨n - 1, by simp at hd; omega⟩
            obtain ⟨r, h1, h2, h3⟩ := step_file env hnf p hk n2 s reads w f rand hgood
            exact ⟨r, h1, Or.inr h2, h3⟩
          | mfr c =>
            have hcd : c.depth ≤ n := by simp at hd; omega
            simp only [good_mfr] at hc
            obtain ⟨rc, hrc, hok, hfc⟩ := ih c rand hcd hc
            rw [Read_succ, if_neg (by simp), advance_cur env _ _ (by simp)]
            simp only [buf_mk, List.length_nil, Nat.lt_irrefl, if_false, currentFile_mk, hrc]
            rcases hok with ⟨hre, hpe⟩ | hprog | hstall
            · -- the nested reader is at its end: retry on the next entry
              subst hre
              simp only [if_true, setCurrentFile_mk]
              obtain ⟨n2, rfl⟩ : ∃ n2, n = n2 + 1 := ⟨n - 1, by have := depth_pos c; omega⟩
              obtain ⟨r, h1, h2, h3⟩ := step_nil env hnf p hk n2 s w f rand (by simp [hs])
              refine ⟨r, h1, Or.inr ?_, ?_⟩
              · simpa [hpe] using h2
              · intro hfit h
                refine h3 hfit ?_
                simp only [fits_mk, fits_mfr, Bool.and_eq_true] at h
                simp [h.1]
            · obtain ⟨hlen, herr, hwr, hgd, hp1, hp2⟩ := hprog
              rw [if_neg (by simp [herr])]
              refine ⟨_, rfl, Or.inr (Or.inl ⟨hlen, herr, hwr, ?_, ?_, ?_⟩), ?_⟩
              · simp [hgd, hs]
              · simp [hp1, hp2]
              · simp [hp2]
              · intro hfit h
                simp only [fits_mk, fits_mfr, Bool.and_eq_true] at h
                simp [h.1, hfc hfit h.2]
            · obtain ⟨hlen, herr, hst⟩ := hstall
              rw [if_neg (by simp [herr])]
              refine ⟨_, rfl, Or.inr (Or.inr ⟨hlen, herr, ?_⟩), ?_⟩
              · simp [hst]
              · intro hfit h
                simp only [fits_mk, fits_mfr, Bool.and_eq_true] at h
                simp [h.1, hfc hfit h.2]

/-- A reader that is caught stays caught: every further call with a buffer of
the same size returns bytes without error and never reaches the end. -/
theorem stuck_step (p : List Byte) (hk : 0 < p.length) :
    ∀ (n : Nat) (m : MultiFileReader) (rand : Nat), m.depth ≤ n → m.stuck p.length = true →
      ∃ r, Read env n m p rand = some (.ret r) ∧ Stall p.length p r := by
  intro n
  induction n with
  | zero => intro m rand h; have := depth_pos m; omega
  | succ n ih =>
    intro m rand hd hst
    cases m with
    | mk s c b w cl f =>
      simp only [stuck_mk] at hst
      cases cl with
      | true =>
        simp only [if_true, Bool.and_eq_true, Bool.not_eq_true', decide_eq_true_eq,
          List.isEmpty_eq_false] at hst
        obtain ⟨⟨⟨hcn, hb⟩, hw⟩, hdry⟩ := hst
        cases c with
        | file r => simp at hcn
        | mfr c => simp at hcn
        | nil =>
          have hbl : 0 < b.length := List.length_pos.mpr hb
          rw [Read_nil env n _ _ _ (by simp), if_neg (by intro h; simp at h; exact hb h)]
          have hlen := closing_length w
          have key : ∀ rest : Source, rest.dry = true →
              Stall p.length p
                ⟨(bufRead (b ++ w.closing) p).1, (bufRead (b ++ w.closing) p).2.1,
                  (bufRead (b ++ w.closing) p).2.2.1,
                  (MultiFileReader.mk rest .nil (b ++ w.closing)
                    { w with lastpart := false } true f).setBuf
                    (bufRead (b ++ w.closing) p).2.2.2, rand⟩ := by
            intro rest hrest
            rw [bufRead_pos _ _ (by simp; omega)]
            refine ⟨by simp [copy_length], rfl, ?_⟩
            have hd : (b ++ w.closing).drop p.length ≠ [] := by
              intro h
              have := List.drop_eq_nil_iff.mp h
              simp at this
              omega
            simp only [setBuf_mk, stuck_mk, if_true, isNil_nil, Bool.true_and, Bool.and_eq_true,
              Bool.not_eq_true', List.isEmpty_eq_false, decide_eq_true_eq]
            exact ⟨⟨hd, hw⟩, hrest⟩
          cases s with
          | eof => rw [advance_nil_eof]; exact ⟨_, rfl, key .eof rfl⟩
          | nilFile rest =>
            rw [advance_nil_nilFile]
            exact ⟨_, rfl, key rest (by simpa [Source.dry] using hdry)⟩
          | fail e rest =>
            cases e with
            | other code => simp [Source.dry] at hdry
            | EOF =>
              rw [advance_nil_failEOF]
              exact ⟨_, rfl, key rest (by simpa [Source.dry] using hdry)⟩
          | entry file rest => simp [Source.dry] at hdry
      | false =>
        simp only [Bool.false_eq_true, if_false, Bool.and_eq_true, List.isEmpty_iff] at hst
        obtain ⟨hb, hc⟩ := hst
        subst hb
        cases c with
        | nil => simp at hc
        | file r => simp at hc
        | mfr c =>
          simp only [stuck_mfr] at hc
          have hcd : c.depth ≤ n := by simp at hd; omega
          obtain ⟨rc, hrc, hlen, herr, hst⟩ := ih c rand hcd hc
          rw [Read_succ, if_neg (by simp), advance_cur env _ _ (by simp)]
          simp only [buf_mk, List.length_nil, Nat.lt_irrefl, if_false, currentFile_mk, hrc]
          rw [if_neg (by simp [herr])]
          exact ⟨_, rfl, hlen, herr, by simp [hst]⟩

/-- A caught reader is never read to its end. -/
theorem readAll_stuck : ∀ (calls : Nat) (m : MultiFileReader) (p : List Byte) (rand : Nat),
    0 < p.length → m.stuck p.length = true → readAll env calls m p rand = .unfinished := by
  intro calls
  induction calls with
  | zero => intro m p rand _ _; rfl
  | succ n ih =>
    intro m p rand hk hst
    obtain ⟨r, hr, hlen, herr, hst2⟩ := stuck_step env p hk m.depth m rand (Nat.le_refl _) hst
    simp only [readAll, hr, herr]
    rw [ih r.mfr r.p r.rand (by omega) (by rw [hlen]; exact hst2)]
    rfl

/-- No reader is both caught and such that all its closing lines fit. -/
theorem stuck_fits_false (k : Nat) : ∀ (n : Nat) (m : MultiFileReader), m.depth ≤ n →
    m.stuck k = true → m.fits k = true → False := by
  intro n
  induction n with
  | zero => intro m h; have := depth_pos m; omega
  | succ n ih =>
    intro m hd hst hf
    cases m with
    | mk s c b w cl f =>
      simp only [stuck_mk] at hst
      simp only [fits_mk, Bool.and_eq_true, decide_eq_true_eq] at hf
      cases cl with
      | true =>
        simp only [if_true, Bool.and_eq_true, decide_eq_true_eq] at hst
        omega
      | false =>
        simp only [Bool.false_eq_true, if_false, Bool.and_eq_true] at hst
        cases c with
        | nil => simp at hst
        | file r => simp at hst
        | mfr c =>
          simp only [stuck_mfr, fits_mfr] at hst hf
          exact ih c (by simp at hd; omega) hst.2 hf.2

/-- Reading a good reader with a buffer of any positive size either never
ends or ends with exactly the bytes owed. -/
theorem readAll_any (hnf : env.NoFault) :
    ∀ (calls : Nat) (m : MultiFileReader) (p : List Byte) (rand : Nat), 0 < p.length →
      m.good = true →
      readAll env calls m p rand = .unfinished ∨
        readAll env calls m p rand = .eof (m.pending env rand).1 := by
  intro calls
  induction calls with
  | zero => intro m p rand _ _; exact Or.inl rfl
  | succ n ih =>
    intro m p rand hk hgood
    obtain ⟨r, hr, hok, _⟩ := Read_step env hnf p hk m.depth m rand (Nat.le_refl _) hgood
    simp only [readAll, hr]
    rcases hok with ⟨hre, hpe⟩ | ⟨hl, herr, hwr, hgd, hp1, hp2⟩ | ⟨hl, herr, hst⟩
    · subst hre
      right
      simp [hpe]
    · simp only [herr]
      rcases ih r.mfr r.p r.rand (by omega) hgd with h | h
      · left; rw [h]; rfl
      · right; rw [h, hp1]; rfl
    · simp only [herr]
      left
      rw [readAll_stuck env n r.mfr r.p r.rand (by omega) (by rw [hl]; exact hst)]
      rfl

/-- Reading a good reader to the end with buffers every closing line fits in
yields exactly the bytes it owes, within one call per byte owed plus one. -/
theorem readAll_fit (hnf : env.NoFault) (k : Nat)
    (hfit : ∀ i, (env.boundary i).length + 8 ≤ k) :
    ∀ (calls : Nat) (m : MultiFileReader) (p : List Byte) (rand : Nat), p.length = k →
      m.good = true → m.fits k = true → (m.pending env rand).1.length < calls →
      readAll env calls m p rand = .eof (m.pending env rand).1 := by
  intro calls
  induction calls with
  | zero => intro m p rand _ _ _ h; omega
  | succ n ih =>
    intro m p rand hp hgood hfits hlen
    have hk : 0 < p.length := by have := hfit 0; omega
    obtain ⟨r, hr, hok, hf⟩ := Read_step env hnf p hk m.depth m rand (Nat.le_refl _) hgood
    rw [hp] at hf
    simp only [readAll, hr]
    rcases hok with ⟨hre, hpe⟩ | ⟨hl, herr, hwr, hgd, hp1, hp2⟩ | ⟨hl, herr, hst⟩
    · subst hre
      simp [hpe]
    · simp only [herr]
      have hchunk : 0 < (r.p.take r.written).length := by
        simp only [List.length_take]; omega
      have hlt : (r.mfr.pending env r.rand).1.length < n := by
        have := congrArg List.length hp1
        simp only [List.length_append] at this
        omega
      rw [ih r.mfr r.p r.rand (by omega) hgd (hf hfit hfits) hlt, hp1]
      rfl
    · exfalso
      rw [hp] at hst
      exact stuck_fits_false k _ r.mfr (Nat.le_refl _) hst (hf hfit hfits)


/-! ## File trees: the stream read equals the wire format -/

theorem scriptBytes_leafScript (c : List Byte) : scriptBytes (leafScript c) = c := by
  cases c <;> simp [leafScript, scriptBytes]

theorem plainReads_leafScript (c : List Byte) : plainReads (leafScript c) = true := by
  cases c <;> simp [leafScript, plainReads]

mutual
theorem Tree.toFile_plain : ∀ t : Tree, t.toFile.plain = true
  | .leaf name content => by simp [Tree.toFile, plainReads_leafScript]
  | .dir name children => by simp [Tree.toFile, Forest.toSource_plain children]
theorem Forest.toSource_plain : ∀ t : Forest, t.toSource.plain = true
  | .nil => by simp [Forest.toSource]
  | .cons t rest => by
    simp [Forest.toSource, Tree.toFile_plain t, Forest.toSource_plain rest]
end

theorem partBytes_eq_partHead (w : Writer) (form : Bool) (name : List Byte) :
    (w.partBytes (partHeader (contentDisposition form name) octetStream)
        = partHead w.boundary (!w.lastpart) form name none) ∧
    ∀ b, w.partBytes (partHeader (contentDisposition form name) (mixedType b))
        = partHead w.boundary (!w.lastpart) form name (some b) := by
  cases w with
  | mk b lp =>
    cases lp <;> cases form <;>
      simp [Writer.partBytes, partHeader, contentDisposition, octetStream, mixedType, partHead,
        Writer.delimiter, headerLine, delimiterLine, dispositionLine, typeLine, crlf]

theorem closing_eq_closingLine (w : Writer) : w.closing = closingLine w.boundary := by
  simp [Writer.closing, closingLine, crlf]

mutual
theorem Tree.part_eq_wire (w : Writer) (form : Bool) : ∀ (t : Tree) (rand : Nat),
    (w.partBytes (partHeader (contentDisposition form t.toFile.FileName)
        (if t.toFile.IsDirectory then mixedType (env.boundary rand) else octetStream))
      ++ (t.toFile.body env rand).1, (t.toFile.body env rand).2)
      = t.wire env w.boundary (!w.lastpart) form rand
  | .leaf name content, rand => by
    simp [Tree.toFile, Tree.wire, File.FileName, File.IsDirectory, scriptBytes_leafScript,
      (partBytes_eq_partHead w form name).1]
  | .dir name children, rand => by
    have := Forest.stream_eq_wire ⟨env.boundary rand, false⟩ false children (rand + 1)
    simp only [Bool.not_false] at this
    simp [Tree.toFile, Tree.wire, File.FileName, File.IsDirectory,
      (partBytes_eq_partHead w form name).2, this]
theorem Forest.stream_eq_wire (w : Writer) (form : Bool) : ∀ (t : Forest) (rand : Nat),
    t.toSource.stream env w form rand = t.wire env w.boundary (!w.lastpart) form rand
  | .nil, rand => by simp [Forest.toSource, Forest.wire, closing_eq_closingLine]
  | .cons t rest, rand => by
    have h1 := Tree.part_eq_wire w form t rand
    have h2 := Forest.stream_eq_wire { w with lastpart := true } form rest
      (t.toFile.body env rand).2
    simp only [Bool.not_true] at h2
    have h1a := congrArg Prod.fst h1
    have h1b := congrArg Prod.snd h1
    simp only at h1a h1b
    simp only [Forest.toSource, stream_entry, Forest.wire, h2]
    rw [← h1a, ← h1b]
end

/-- The reader built over a file tree is a good state, and it owes exactly
the wire format of the tree. -/
theorem newReader_good (t : Forest) (form : Bool) (rand : Nat) :
    (newReader env t form rand).good = true ∧
      ((newReader env t form rand).pending env (rand + 1)).1 = encode env t form rand := by
  have := Forest.stream_eq_wire env ⟨env.boundary rand, false⟩ form t (rand + 1)
  simp only [Bool.not_false] at this
  simp [newReader, NewMultiFileReader, encode, Forest.toSource_plain t, this]

theorem newReader_fits (t : Forest) (form : Bool) (rand k : Nat)
    (hfit : ∀ i, (env.boundary i).length + 8 ≤ k) :
    (newReader env t form rand).fits k = true := by
  simp [newReader, NewMultiFileReader, hfit rand]

/-- The reader over the empty tree never reaches its end when read with a
buffer shorter than its closing line. -/
theorem readAll_empty_short (form : Bool) (rand : Nat) (p : List Byte) (hp : 0 < p.length)
    (hshort : p.length < (env.boundary rand).length + 8) (src : Source) (hsrc : src.dry = true) :
    ∀ calls, readAll env calls (NewMultiFileReader env src form rand).1 p (rand + 1)
      = .unfinished := by
  intro calls
  cases calls with
  | zero => rfl
  | succ n =>
    have hgood : (MultiFileReader.mk src .nil [] ⟨env.boundary rand, false⟩ false form).good
        = true := by
      cases src with
      | eof => simp
      | nilFile r => simpa [Source.dry] using hsrc
      | entry f r => simp [Source.dry] at hsrc
      | fail e r =>
        cases e with
        | EOF => simpa [Source.dry] using hsrc
        | other c => simp [Source.dry] at hsrc
    have hcl := closing_length ⟨env.boundary rand, false⟩
    have hpos : 0 < (Writer.closing ⟨env.boundary rand, false⟩).length := by omega
    have hd : (Writer.closing ⟨env.boundary rand, false⟩).drop p.length ≠ [] := by
      intro h
      have := List.drop_eq_nil_iff.mp h
      simp only at hcl
      omega
    have key : ∀ rest : Source, rest.dry = true →
        (readAll env n ((MultiFileReader.mk rest .nil (Writer.closing ⟨env.boundary rand, false⟩)
            ⟨env.boundary rand, false⟩ true form).setBuf
            (bufRead (Writer.closing ⟨env.boundary rand, false⟩) p).2.2.2)
          (bufRead (Writer.closing ⟨env.boundary rand, false⟩) p).2.2.1 (rand + 1)).prepend
          ((bufRead (Writer.closing ⟨env.boundary rand, false⟩) p).2.2.1.take
            (bufRead (Writer.closing ⟨env.boundary rand, false⟩) p).1) = .unfinished := by
      intro rest hrest
      rw [bufRead_pos _ _ hpos]
      rw [readAll_stuck env n _ _ _ (by simp [copy_length]; exact hp)]
      · rfl
      · simp only [setBuf_mk, stuck_mk, if_true, isNil_nil, Bool.true_and, Bool.and_eq_true,
          Bool.not_eq_true', List.isEmpty_eq_false, decide_eq_true_eq, copy_length]
        exact ⟨⟨hd, hshort⟩, hrest⟩
    simp only [readAll, NewMultiFileReader, depth_mk, depth_nil]
    rw [Read_nil env 0 _ _ _ (by simp), if_neg (by simp)]
    cases src with
    | eof =>
      rw [advance_nil_eof]
      simp only [List.nil_append, buf_mk, bufRead_err _ _ hpos]
      exact key .eof rfl
    | nilFile r =>
      rw [advance_nil_nilFile]
      simp only [List.nil_append, buf_mk, bufRead_err _ _ hpos]
      exact key r (by simpa [Source.dry] using hsrc)
    | entry f r => simp [Source.dry] at hsrc
    | fail e r =>
      cases e with
      | other c => simp [Source.dry] at hsrc
      | EOF =>
        rw [advance_nil_failEOF]
        simp only [List.nil_append, buf_mk, bufRead_err _ _ hpos]
        exact key r (by simpa [Source.dry] using hsrc)

/-- Every stream ends with the closing line of its own boundary. -/
theorem Forest.wire_ends_closing (b : List Byte) (form : Bool) :
    ∀ (t : Forest) (first : Bool) (rand : Nat),
      ∃ pre, (t.wire env b first form rand).1 = pre ++ closingLine b
  | .nil, first, rand => ⟨[], by simp [Forest.wire]⟩
  | .cons t rest, first, rand => by
    obtain ⟨pre, h⟩ := Forest.wire_ends_closing b form rest false (t.wire env b first form rand).2
    exact ⟨(t.wire env b first form rand).1 ++ pre, by simp [Forest.wire, h]⟩

/-- Reading the reader built over a file tree with buffers every closing line
fits in yields the wire format of the tree. -/
theorem readAll_newReader (hnf : env.NoFault) (t : Forest) (form : Bool) (rand : Nat)
    (p : List Byte) (hfit : ∀ i, (env.boundary i).length + 8 ≤ p.length) (calls : Nat)
    (hc : (encode env t form rand).length < calls) :
    readAll env calls (newReader env t form rand) p (rand + 1) = .eof (encode env t form rand) := by
  obtain ⟨hg, hpend⟩ := newReader_good env t form rand
  rw [← hpend]
  exact readAll_fit env hnf p.length hfit calls _ p (rand + 1) rfl hg
    (newReader_fits env t form rand _ hfit) (by rw [hpend]; exact hc)

end Basic

/-! ## The decoder inverts the wire format -/

theorem strip_append (pre t : List Byte) : strip pre (pre ++ t) = some t := by
  have : pre.isPrefixOf (pre ++ t) = true := by
    rw [List.isPrefixOf_iff_prefix]; exact List.prefix_append pre t
  simp [strip, this]

theorem takeWhile_stop (q : Byte → Bool) (ch : Byte) (hq : q ch = false) :
    ∀ (name more : List Byte), name.all q = true →
      (name ++ ch :: more).takeWhile q = name ∧ (name ++ ch :: more).dropWhile q = ch :: more
  | [], more, _ => by simp [List.takeWhile, List.dropWhile, hq]
  | c :: name, more, h => by
    simp only [List.all_cons, Bool.and_eq_true] at h
    have ih := takeWhile_stop q ch hq name more h.2
    simp [List.takeWhile, List.dropWhile, h.1, ih.1, ih.2]

theorem takeWhile_all (q : Byte → Bool) : ∀ (l : List Byte), l.all q = true →
    l.takeWhile q = l ∧ l.dropWhile q = []
  | [], _ => by simp
  | c :: l, h => by
    simp only [List.all_cons, Bool.and_eq_true] at h
    have ih := takeWhile_all q l h.2
    simp [List.takeWhile, List.dropWhile, h.1, ih.1, ih.2]

theorem isPrefixOf_append_of_le : ∀ (pat l more : List Byte), pat.length ≤ l.length →
    pat.isPrefixOf (l ++ more) = pat.isPrefixOf l
  | [], l, more, _ => by simp [List.isPrefixOf]
  | a :: pat, [], more, h => by simp at h
  | a :: pat, x :: l, more, h => by
    have ih := isPrefixOf_append_of_le pat l more (by simpa using h)
    simp only [List.cons_append, List.isPrefixOf]
    rw [← ih]
    rfl

theorem cut_noEarly (pat more : List Byte) : ∀ body : List Byte, noEarly pat body = true →
    cut pat (body ++ pat ++ more) = some (body, pat ++ more)
  | [], _ => by
    have hp : pat.isPrefixOf (pat ++ more) = true := by
      rw [List.isPrefixOf_iff_prefix]; exact List.prefix_append pat more
    cases h : pat ++ more with
    | nil =>
      rw [h] at hp
      simp [cut, h, hp]
    | cons c s =>
      rw [h] at hp
      simp [cut, h, hp]
  | c :: s, h => by
    simp only [noEarly, Bool.and_eq_true, Bool.not_eq_true'] at h
    have h1 : pat.isPrefixOf (c :: (s ++ pat ++ more)) = false := by
      have := isPrefixOf_append_of_le pat (c :: s ++ pat) more (by simp; omega)
      simp only [List.cons_append, List.append_assoc] at this ⊢
      rw [this]
      simpa using h.1
    have ih := cut_noEarly pat more s h.2
    simp only [List.cons_append, List.append_assoc] at ih h1 ⊢
    rw [cut, if_neg (by rw [h1]; simp), ih]

/-- No line break begins inside a line without a carriage return. -/
theorem noEarly_crlf : ∀ l : List Byte, l.all (fun c => c != '\r') = true →
    noEarly ['\r', '\n'] l = true
  | [], _ => rfl
  | c :: s, h => by
    simp only [List.all_cons, Bool.and_eq_true, bne_iff_ne, ne_eq] at h
    have ih := noEarly_crlf s (by simpa using h.2)
    have hc : ('\r' == c) = false := by
      simp only [beq_eq_false_iff_ne, ne_eq]
      exact fun e => h.1 e.symm
    simp [noEarly, ih, List.isPrefixOf, hc]

theorem cutLine_append (l more : List Byte) (h : l.all (fun c => c != '\r') = true) :
    cutLine (l ++ '\r' :: '\n' :: more) = some (l, more) := by
  have := cut_noEarly ['\r', '\n'] more l (noEarly_crlf l h)
  simp only [List.append_assoc, List.cons_append, List.nil_append] at this
  have hs : "\r\n".toList = ['\r', '\n'] := rfl
  simp only [cutLine, hs, this]
  rfl

theorem cutLine_empty (more : List Byte) : cutLine ('\r' :: '\n' :: more) = some ([], more) :=
  cutLine_append [] more rfl

theorem headerLines_succ (fuel : Nat) (s : List Byte) :
    headerLines (fuel + 1) s =
      match cutLine s with
      | none => none
      | some r =>
        if r.1.isEmpty then some ([], r.2)
        else
          match headerLines fuel r.2 with
          | none => none
          | some t => some (r.1 :: t.1, t.2) := rfl

/-- A header block of two lines is read as those two lines. -/
theorem headerLines_two (k : Nat) (l1 l2 more : List Byte)
    (h1 : l1.all (fun c => c != '\r') = true) (h2 : l2.all (fun c => c != '\r') = true)
    (n1 : l1 ≠ []) (n2 : l2 ≠ []) :
    headerLines (k + 3) (l1 ++ '\r' :: '\n' :: (l2 ++ '\r' :: '\n' :: '\r' :: '\n' :: more))
      = some ([l1, l2], more) := by
  have e1 : l1.isEmpty = false := by simpa using n1
  have e2 : l2.isEmpty = false := by simpa using n2
  rw [headerLines_succ, cutLine_append _ _ h1]
  simp only [e1, Bool.false_eq_true, if_false]
  rw [headerLines_succ, cutLine_append _ _ h2]
  simp only [e2, Bool.false_eq_true, if_false]
  rw [headerLines_succ, cutLine_empty]
  simp

theorem quoted_cons (c : Byte) (s : List Byte) :
    quoted (c :: s) =
      if c = '"' then some ([], s)
      else if c = '\r' ∨ c = '\n' then none
      else if c = '\\' then
        match s with
        | [] => none
        | d :: s2 =>
          match quoted s2 with
          | none => none
          | some r => some (d :: r.1, r.2)
      else
        match quoted s with
        | none => none
        | some r => some (c :: r.1, r.2) := by
  rw [quoted.eq_def]

theorem quoted_name : ∀ (name rest : List Byte), nameOk name = true →
    quoted (name ++ '"' :: rest) = some (name, rest)
  | [], rest, _ => by simp [quoted_cons]
  | c :: name, rest, h => by
    simp only [nameOk, List.all_cons, Bool.and_eq_true, bne_iff_ne, ne_eq] at h
    have ih := quoted_name name rest (by simpa [nameOk] using h.2)
    simp [quoted_cons, h.1, ih]

theorem alnum_ne (c ch : Byte) (hc : c.isAlphanum = true) (hch : ch.isAlphanum = false) :
    c ≠ ch := by
  intro e
  rw [e, hch] at hc
  cases hc

theorem params_succ (fuel : Nat) (s : List Byte) :
    params (fuel + 1) s =
      if s.isEmpty then some []
      else
        match strip "; ".toList s with
        | none => none
        | some s1 =>
          match strip "=".toList (s1.dropWhile (fun c => c != '=')) with
          | none => none
          | some s2 =>
            match strip "\"".toList s2 with
            | some s3 =>
              match quoted s3 with
              | none => none
              | some r =>
                match params fuel r.2 with
                | none => none
                | some ps => some ((s1.takeWhile (fun c => c != '='), r.1) :: ps)
            | none =>
              if (s2.takeWhile Char.isAlphanum).isEmpty then none
              else
                match params fuel (s2.dropWhile Char.isAlphanum) with
                | none => none
                | some ps =>
                  some ((s1.takeWhile (fun c => c != '='), s2.takeWhile Char.isAlphanum)
                    :: ps) :=
  rfl

/-- The parameters of the `Content-Disposition` value in either wording. -/
theorem fieldParams_disposition (form : Bool) (name : List Byte) (h : nameOk name = true) :
    ∃ ps, fieldParams (dispositionValue form name) = some ps ∧
      param "filename".toList ps = some name := by
  have hq := quoted_name name [] h
  cases form with
  | true =>
    refine ⟨[("name".toList, "file".toList), ("filename".toList, name)], ?_, by simp [param]⟩
    simp [fieldParams, dispositionValue, params_succ, strip, List.isPrefixOf, List.dropWhile,
      List.takeWhile, quoted_cons, hq]
  | false =>
    refine ⟨[("filename".toList, name)], ?_, by simp [param]⟩
    simp [fieldParams, dispositionValue, params_succ, strip, List.isPrefixOf, List.dropWhile,
      List.takeWhile, quoted_cons, hq]

theorem nameOk_cr (name : List Byte) (h : nameOk name = true) :
    name.all (fun c => c != '\r') = true := by
  simp only [nameOk, List.all_eq_true, Bool.and_eq_true, bne_iff_ne, ne_eq] at h ⊢
  exact fun c hc => (h c hc).1.2

theorem alnum_cr (tok : List Byte) (h : tok.all Char.isAlphanum = true) :
    tok.all (fun c => c != '\r') = true := by
  simp only [List.all_eq_true, bne_iff_ne, ne_eq] at h ⊢
  exact fun c hc => alnum_ne c '\r' (h c hc) (by decide)

/-- The two header lines of a part and the bytes around them. -/
theorem partHead_lines (b : List Byte) (first form : Bool) (name : List Byte)
    (nested : Option (List Byte)) (more : List Byte) :
    partHead b first form name nested ++ more =
      delimiterLine b first ++
        (("Content-Disposition: ".toList ++ dispositionValue form name) ++ '\r' :: '\n' ::
          (("Content-Type: ".toList ++ typeValue nested) ++ '\r' :: '\n' :: '\r' :: '\n' ::
            more)) := by
  cases nested <;> cases form <;>
    simp [partHead, dispositionLine, typeLine, dispositionValue, typeValue]

theorem dispositionLine_cr (form : Bool) (name : List Byte) (h : nameOk name = true) :
    ("Content-Disposition: ".toList ++ dispositionValue form name).all (fun c => c != '\r')
      = true := by
  have := nameOk_cr name h
  cases form <;> simp [dispositionValue, List.all_append, this]

theorem typeLine_cr (nested : Option (List Byte))
    (h : ∀ tok, nested = some tok → tok.all Char.isAlphanum = true) :
    ("Content-Type: ".toList ++ typeValue nested).all (fun c => c != '\r') = true := by
  cases nested with
  | none => simp [typeValue]
  | some tok =>
    have := alnum_cr tok (h tok rfl)
    simp [typeValue, List.all_append, this]

theorem fieldValue_disposition (form : Bool) (name : List Byte) (l2 : List Byte) :
    fieldValue "Content-Disposition".toList
        ["Content-Disposition: ".toList ++ dispositionValue form name, l2]
      = some (dispositionValue form name) := by
  have e : "Content-Disposition".toList ++ ": ".toList = "Content-Disposition: ".toList := rfl
  simp only [fieldValue, e, strip_append]

theorem fieldValue_type (form : Bool) (name : List Byte) (nested : Option (List Byte)) :
    fieldValue "Content-Type".toList
        ["Content-Disposition: ".toList ++ dispositionValue form name,
          "Content-Type: ".toList ++ typeValue nested]
      = some (typeValue nested) := by
  have e : "Content-Type".toList ++ ": ".toList = "Content-Type: ".toList := rfl
  have h1 : strip "Content-Type: ".toList
      ("Content-Disposition: ".toList ++ dispositionValue form name) = none := by
    simp [strip, List.isPrefixOf]
  simp only [fieldValue, e, h1, strip_append]

theorem fileName_lines (form : Bool) (name : List Byte) (l2 : List Byte)
    (h : nameOk name = true) :
    fileName ["Content-Disposition: ".toList ++ dispositionValue form name, l2] = some name := by
  obtain ⟨ps, h1, h2⟩ := fieldParams_disposition form name h
  simp only [fileName, fieldValue_disposition, h1, h2]

theorem strip_quote_alnum (tok : List Byte) (h : tok.all Char.isAlphanum = true) :
    strip "\"".toList tok = none := by
  cases tok with
  | nil => simp [strip, List.isPrefixOf]
  | cons c t =>
    simp only [List.all_cons, Bool.and_eq_true] at h
    have hc : ('"' == c) = false := by
      simp only [beq_eq_false_iff_ne, ne_eq]
      exact fun e => alnum_ne c '"' h.1 (by decide) e.symm
    simp [strip, List.isPrefixOf, hc]

theorem nestedBoundary_leaf (form : Bool) (name : List Byte) :
    nestedBoundary ["Content-Disposition: ".toList ++ dispositionValue form name,
      "Content-Type: ".toList ++ typeValue none] = some none := by
  simp only [nestedBoundary, fieldValue_type]
  simp [typeValue, List.takeWhile]

/-- One parameter written without quotes is read as it stands. -/
theorem params_token (k : Nat) (key tok : List Byte)
    (hkey : key.all (fun c => c != '=') = true) (htok : tok.all Char.isAlphanum = true)
    (hne2 : tok.isEmpty = false) :
    params (k + 2) ("; ".toList ++ (key ++ '=' :: tok)) = some [(key, tok)] := by
  have hq : (fun c : Byte => c != '=') '=' = false := by decide
  have htw := takeWhile_stop (fun c : Byte => c != '=') '=' hq key tok hkey
  have ht := takeWhile_all Char.isAlphanum tok htok
  have he : strip "=".toList ('=' :: tok) = some tok := strip_append "=".toList tok
  have hne : ("; ".toList ++ (key ++ '=' :: tok)).isEmpty = false := rfl
  have hnil : params (k + 1) [] = some [] := rfl
  rw [params_succ, hne]
  simp only [Bool.false_eq_true, if_false, strip_append, htw.1, htw.2, he,
    strip_quote_alnum tok htok, ht.1, ht.2, hnil, hne2]

theorem nestedBoundary_dir (form : Bool) (name tok : List Byte)
    (h : tok.all Char.isAlphanum = true) (hne : tok.isEmpty = false) :
    nestedBoundary ["Content-Disposition: ".toList ++ dispositionValue form name,
      "Content-Type: ".toList ++ typeValue (some tok)] = some (some tok) := by
  have hv : typeValue (some tok)
      = "multipart/mixed".toList ++ ';' :: (" ".toList ++ ("boundary".toList ++ '=' :: tok)) :=
    rfl
  have hq : (fun c : Byte => c != ';') ';' = false := by decide
  have htw := takeWhile_stop (fun c : Byte => c != ';') ';' hq "multipart/mixed".toList
    (" ".toList ++ ("boundary".toList ++ '=' :: tok)) (by decide)
  obtain ⟨k, hk⟩ : ∃ k, (typeValue (some tok)).length + 1 = k + 2 :=
    ⟨(typeValue (some tok)).length - 1, by rw [hv]; simp⟩
  have hp : fieldParams (typeValue (some tok)) = some [("boundary".toList, tok)] := by
    rw [fieldParams, hk, hv, htw.2]
    exact params_token k "boundary".toList tok (by decide) h hne
  simp only [nestedBoundary, fieldValue_type, hp]
  rw [hv, htw.1]
  simp [param]

theorem wire_ne_closing (b : List Byte) (first : Bool) (more : List Byte) :
    (delimiterLine b first ++ "Content-Disposition: ".toList) ++ more ≠ closingLine b := by
  cases first with
  | true => simp [delimiterLine, closingLine]
  | false =>
    intro h
    have h2 : ("\r\n--".toList ++ b) ++ ("\r\n".toList ++ "Content-Disposition: ".toList ++ more)
        = ("\r\n--".toList ++ b) ++ "--\r\n".toList := by
      have h3 : closingLine b = ("\r\n--".toList ++ b) ++ "--\r\n".toList := by
        simp [closingLine]
      rw [← h3, ← h]
      simp [delimiterLine]
    have := List.append_cancel_left h2
    simp at this

theorem Forest.wire_starts (env : Env) (b : List Byte) (form : Bool) (t : Forest) (rand : Nat) :
    ∃ more, (t.wire env b false form rand).1 = ("\r\n--".toList ++ b) ++ more := by
  cases t with
  | nil => exact ⟨"--\r\n".toList, by simp [Forest.wire, closingLine]⟩
  | cons t rest =>
    cases t with
    | leaf name content =>
      exact ⟨_, by simp [Forest.wire, Tree.wire, partHead, delimiterLine]; rfl⟩
    | dir name children =>
      exact ⟨_, by simp [Forest.wire, Tree.wire, partHead, delimiterLine]; rfl⟩

theorem Forest.wire_snd (env : Env) : ∀ (t : Forest) (b : List Byte) (first form : Bool)
    (rand : Nat), (t.wire env b first form rand).2 = t.next rand
  | .nil, b, first, form, rand => by simp [Forest.wire, Forest.next]
  | .cons (.leaf name content) rest, b, first, form, rand => by
    simp [Forest.wire, Tree.wire, Forest.next, Tree.next, Forest.wire_snd env rest]
  | .cons (.dir name children) rest, b, first, form, rand => by
    simp [Forest.wire, Tree.wire, Forest.next, Tree.next, Forest.wire_snd env rest,
      Forest.wire_snd env children]

theorem decodeParts_succ (b : List Byte) (fuel : Nat) (first : Bool) (input : List Byte) :
    decodeParts b (fuel + 1) first input =
    if input = closingLine b then some .nil
    else
      match strip (delimiterLine b first) input with
      | none => none
      | some s1 =>
        match headerLines s1.length s1 with
        | none => none
        | some hd =>
          match cut ("\r\n--".toList ++ b) hd.2 with
          | none => none
          | some br =>
            match fileName hd.1 with
            | none => none
            | some name =>
              match nestedBoundary hd.1 with
              | none => none
              | some none =>
                match decodeParts b fuel false br.2 with
                | none => none
                | some tail => some (.cons (.leaf name br.1) tail)
              | some (some tok) =>
                match decodeParts tok fuel true br.1 with
                | none => none
                | some children =>
                  match decodeParts b fuel false br.2 with
                  | none => none
                  | some tail => some (.cons (.dir name children) tail) := rfl

/-- The decoder reads the head of a part written for a name that can be
quoted as it stands: it finds the two header lines and the bytes after the
empty line. -/
theorem decode_head (b : List Byte) (first form : Bool) (name : List Byte)
    (nested : Option (List Byte)) (more : List Byte) (hname : nameOk name = true)
    (htok : ∀ tok, nested = some tok → tok.all Char.isAlphanum = true) :
    partHead b first form name nested ++ more ≠ closingLine b ∧
    ∃ s1, strip (delimiterLine b first) (partHead b first form name nested ++ more) = some s1 ∧
      headerLines s1.length s1
        = some (["Content-Disposition: ".toList ++ dispositionValue form name,
            "Content-Type: ".toList ++ typeValue nested], more) := by
  rw [partHead_lines]
  constructor
  · have := wire_ne_closing b first (dispositionValue form name ++ '\r' :: '\n' ::
      (("Content-Type: ".toList ++ typeValue nested) ++ '\r' :: '\n' :: '\r' :: '\n' :: more))
    simpa [List.append_assoc] using this
  · refine ⟨_, strip_append _ _, ?_⟩
    have hlen : 3 ≤ (("Content-Disposition: ".toList ++ dispositionValue form name) ++
        '\r' :: '\n' :: (("Content-Type: ".toList ++ typeValue nested) ++
          '\r' :: '\n' :: '\r' :: '\n' :: more)).length := by
      simp only [List.length_append, List.length_cons]; omega
    obtain ⟨k, hk⟩ := Nat.exists_eq_add_of_le hlen
    rw [hk, Nat.add_comm 3 k]
    exact headerLines_two k _ _ more (dispositionLine_cr form name hname)
      (typeLine_cr nested htok) (by simp) (by simp)

/-- Decoding the wire format of a safe tree gives the tree back. -/
theorem decodeParts_wire (env : Env) : ∀ (t : Forest) (b : List Byte) (first form : Bool)
    (rand fuel : Nat), t.safe env b rand = true → t.size ≤ fuel →
    decodeParts b fuel first (t.wire env b first form rand).1 = some t
  | .nil, b, first, form, rand, fuel, _, hf => by
    obtain ⟨n, rfl⟩ : ∃ n, fuel = n + 1 := ⟨fuel - 1, by simp [Forest.size] at hf; omega⟩
    simp [decodeParts_succ, Forest.wire]
  | .cons (.leaf name content) rest, b, first, form, rand, fuel, hs, hf => by
    obtain ⟨n, rfl⟩ : ∃ n, fuel = n + 1 := ⟨fuel - 1, by simp [Forest.size] at hf; omega⟩
    simp only [Forest.safe, Tree.safe, Tree.next, Bool.and_eq_true] at hs
    obtain ⟨⟨hname, hbody⟩, hrest⟩ := hs
    have ih := decodeParts_wire env rest b false form rand n hrest
      (by simp [Forest.size] at hf; omega)
    obtain ⟨more, hmore⟩ := Forest.wire_starts env b form rest rand
    obtain ⟨hne, s1, hs1, hl⟩ := decode_head b first form name none
      (content ++ (rest.wire env b false form rand).1) hname (by intro tok h; cases h)
    have hcut := cut_noEarly ("\r\n--".toList ++ b) more content hbody
    simp only [Forest.wire, Tree.wire, List.append_assoc]
    rw [decodeParts_succ, if_neg hne, hs1]
    simp only [hl]
    rw [hmore, ← List.append_assoc, hcut]
    simp only [fileName_lines form name _ hname, nestedBoundary_leaf]
    rw [← hmore, ih]
  | .cons (.dir name children) rest, b, first, form, rand, fuel, hs, hf => by
    obtain ⟨n, rfl⟩ : ∃ n, fuel = n + 1 := ⟨fuel - 1, by simp [Forest.size] at hf; omega⟩
    simp only [Forest.safe, Tree.safe, Tree.next, Bool.and_eq_true] at hs
    obtain ⟨⟨⟨⟨hname, htok0⟩, hch⟩, hbody⟩, hrest⟩ := hs
    simp only [tokenOk, Bool.and_eq_true, Bool.not_eq_true'] at htok0
    obtain ⟨htne, htok⟩ := htok0
    have hnext := Forest.wire_snd env children (env.boundary rand) true false (rand + 1)
    have ihc := decodeParts_wire env children (env.boundary rand) true false (rand + 1) n hch
      (by simp [Forest.size, Tree.size] at hf; omega)
    have ih := decodeParts_wire env rest b false form (children.next (rand + 1)) n hrest
      (by simp [Forest.size] at hf; omega)
    obtain ⟨more, hmore⟩ := Forest.wire_starts env b form rest (children.next (rand + 1))
    obtain ⟨hne, s1, hs1, hl⟩ := decode_head b first form name (some (env.boundary rand))
      ((children.wire env (env.boundary rand) true false (rand + 1)).1 ++
        (rest.wire env b false form (children.next (rand + 1))).1) hname
      (by intro tok h; cases h; exact htok)
    have hcut := cut_noEarly ("\r\n--".toList ++ b) more
      (children.wire env (env.boundary rand) true false (rand + 1)).1 hbody
    simp only [Forest.wire, Tree.wire, List.append_assoc, hnext]
    rw [decodeParts_succ, if_neg hne, hs1]
    simp only [hl]
    rw [hmore, ← List.append_assoc, hcut]
    simp only [fileName_lines form name _ hname, nestedBoundary_dir form name _ htok htne]
    rw [← hmore, ih, ihc]

theorem Forest.size_le_wire (env : Env) : ∀ (t : Forest) (b : List Byte) (first form : Bool)
    (rand : Nat), t.size ≤ (t.wire env b first form rand).1.length
  | .nil, b, first, form, rand => by simp [Forest.wire, Forest.size, closingLine]
  | .cons (.leaf name content) rest, b, first, form, rand => by
    have := Forest.size_le_wire env rest b false form rand
    simp [Forest.wire, Tree.wire, Forest.size, Tree.size, partHead, delimiterLine]
    omega
  | .cons (.dir name children) rest, b, first, form, rand => by
    have h1 := Forest.size_le_wire env children (env.boundary rand) true false (rand + 1)
    have h2 := Forest.size_le_wire env rest b false form
      (children.wire env (env.boundary rand) true false (rand + 1)).2
    simp [Forest.wire, Tree.wire, Forest.size, Tree.size, partHead, delimiterLine]
    omega

/-- Decoding the stream of a tree that can be sent gives the tree back. -/
theorem decode_encode (env : Env) (t : Forest) (form : Bool) (rand : Nat)
    (hs : t.safe env (env.boundary rand) (rand + 1) = true) :
    decode (env.boundary rand) (encode env t form rand) = some t :=
  decodeParts_wire env t (env.boundary rand) true form (rand + 1) _ hs
    (Forest.size_le_wire env t (env.boundary rand) true form (rand + 1))
/-! ## Case analysis of one call, and what every call preserves -/

/-- What the advance step does on a reader without a current file. -/
theorem advance_nil_cases (env : Env) (s : Source) (b : List Byte) (w : Writer) (cl f : Bool)
    (rand : Nat) :
    (∃ rest, s.NextFile.2.2 = rest ∧
      advance env (.mk s .nil b w cl f) rand
        = .next (.mk rest .nil (b ++ w.closing) { w with lastpart := false } true f) rand) ∨
    (∃ code rest, s = .fail (.other code) rest ∧
      advance env (.mk s .nil b w cl f) rand = .fail (.other code) (.mk rest .nil b w cl f) rand) ∨
    (∃ file rest, s = .entry file rest ∧ cl = true ∧
      advance env (.mk s .nil b w cl f) rand = .next (.mk rest .nil b w true f) rand) ∨
    (∃ file rest code, s = .entry file rest ∧ cl = false ∧
      env.partErr (partBlock env w f file rand) = some code ∧
      advance env (.mk s .nil b w cl f) rand
        = .fail (.other code) (.mk rest (entryReader env file rand).1 b w false f)
            (entryReader env file rand).2) ∨
    (∃ file rest, s = .entry file rest ∧ cl = false ∧
      env.partErr (partBlock env w f file rand) = none ∧
      advance env (.mk s .nil b w cl f) rand
        = .next (.mk rest (entryReader env file rand).1 (b ++ partBlock env w f file rand)
            { w with lastpart := true } false f) (entryReader env file rand).2) := by
  cases s with
  | eof => exact Or.inl ⟨_, rfl, advance_nil_eof env b w cl f rand⟩
  | nilFile rest => exact Or.inl ⟨_, rfl, advance_nil_nilFile env rest b w cl f rand⟩
  | fail e rest =>
    cases e with
    | EOF => exact Or.inl ⟨_, rfl, advance_nil_failEOF env rest b w cl f rand⟩
    | other code => exact Or.inr (Or.inl ⟨code, rest, rfl, advance_nil_fail env code rest b w cl f rand⟩)
  | entry file rest =>
    rw [advance_nil_entry]
    cases cl with
    | true => exact Or.inr (Or.inr (Or.inl ⟨file, rest, rfl, rfl, by simp⟩))
    | false =>
      rw [if_neg Bool.false_ne_true]
      cases file with
      | leaf name reads =>
        rw [startPart_leaf]
        cases h : env.partErr (w.partBytes (partHeader (contentDisposition f name) octetStream)) with
        | some code =>
          exact Or.inr (Or.inr (Or.inr (Or.inl ⟨_, rest, code, rfl, rfl,
            by simpa [partBlock, File.IsDirectory, File.FileName] using h, rfl⟩)))
        | none =>
          exact Or.inr (Or.inr (Or.inr (Or.inr ⟨_, rest, rfl, rfl,
            by simpa [partBlock, File.IsDirectory, File.FileName] using h, rfl⟩)))
      | dir name entries =>
        rw [startPart_dir]
        cases h : env.partErr (w.partBytes
            (partHeader (contentDisposition f name) (mixedType (env.boundary rand)))) with
        | some code =>
          exact Or.inr (Or.inr (Or.inr (Or.inl ⟨_, rest, code, rfl, rfl,
            by simpa [partBlock, File.IsDirectory, File.FileName] using h, rfl⟩)))
        | none =>
          exact Or.inr (Or.inr (Or.inr (Or.inr ⟨_, rest, rfl, rfl,
            by simpa [partBlock, File.IsDirectory, File.FileName] using h, rfl⟩)))

/-- One unfolding of `Read` on a reader that has a current file: the advance
step does nothing. -/
theorem Read_cur (env : Env) (fuel : Nat) (m : MultiFileReader) (p : List Byte) (rand : Nat)
    (hcur : m.currentFile ≠ .nil) :
    Read env (fuel + 1) m p rand =
      if m.closed = true ∧ m.buf.length = 0 then
        some (.ret ⟨0, some .EOF, p, m, rand⟩)
      else if 0 < m.buf.length then
        some (.ret ⟨(bufRead m.buf p).1, (bufRead m.buf p).2.1,
          (bufRead m.buf p).2.2.1, m.setBuf (bufRead m.buf p).2.2.2, rand⟩)
      else
        match m.currentFile with
        | .nil => some .panic
        | .file reads =>
          if (fileRead reads p).2.1 = some .EOF then
            Read env fuel (m.setCurrentFile .nil) (fileRead reads p).2.2.1 rand
          else
            some (.ret ⟨(fileRead reads p).1, (fileRead reads p).2.1,
              (fileRead reads p).2.2.1,
              m.setCurrentFile (.file (fileRead reads p).2.2.2), rand⟩)
        | .mfr c =>
          match Read env fuel c p rand with
          | none => none
          | some .panic => some .panic
          | some (.ret r) =>
            if r.err = some .EOF then
              Read env fuel (m.setCurrentFile .nil) r.p r.rand
            else
              some (.ret ⟨r.written, r.err, r.p,
                m.setCurrentFile (.mfr r.mfr), r.rand⟩) := by
  rw [Read_succ, advance_cur env m rand hcur]

/-- Induction over the calls one `Read` call makes.  To show a property `Q` of
every outcome it suffices to show it for the first return (line 40), for the
returns of the advance step, for a read from the header buffer, and for the
read of the current file of a reader that is not closed and has an empty
header buffer: a leaf or a nested reader, with or without the retry. -/
theorem Read_ind (env : Env) (Q : MultiFileReader → List Byte → Nat → Outcome → Prop)
    (h_eof : ∀ m p rand, m.closed = true ∧ m.buf.length = 0 →
      Q m p rand (.ret ⟨0, some .EOF, p, m, rand⟩))
    (h_panic : ∀ m p rand, ¬ (m.closed = true ∧ m.buf.length = 0) →
      advance env m rand = .panic → Q m p rand .panic)
    (h_fail : ∀ m p rand e m1 r1, ¬ (m.closed = true ∧ m.buf.length = 0) →
      advance env m rand = .fail e m1 r1 → Q m p rand (.ret ⟨0, some e, p, m1, r1⟩))
    (h_buf : ∀ m p rand m1 r1, ¬ (m.closed = true ∧ m.buf.length = 0) →
      advance env m rand = .next m1 r1 → 0 < m1.buf.length →
      Q m p rand (.ret ⟨min p.length m1.buf.length, none, copy p m1.buf,
        m1.setBuf (m1.buf.drop p.length), r1⟩))
    (h_file : ∀ s reads w f p rand, (fileRead reads p).2.1 ≠ some .EOF →
      Q (.mk s (.file reads) [] w false f) p rand
        (.ret ⟨(fileRead reads p).1, (fileRead reads p).2.1, (fileRead reads p).2.2.1,
          .mk s (.file (fileRead reads p).2.2.2) [] w false f, rand⟩))
    (h_file_retry : ∀ s reads w f p rand o, (fileRead reads p).2.1 = some .EOF →
      Q (.mk s .nil [] w false f) (fileRead reads p).2.2.1 rand o →
      Q (.mk s (.file reads) [] w false f) p rand o)
    (h_mfr_panic : ∀ s c w f p rand, Q c p rand .panic →
      Q (.mk s (.mfr c) [] w false f) p rand .panic)
    (h_mfr : ∀ s c w f p rand rc, Q c p rand (.ret rc) → rc.err ≠ some .EOF →
      Q (.mk s (.mfr c) [] w false f) p rand
        (.ret ⟨rc.written, rc.err, rc.p, .mk s (.mfr rc.mfr) [] w false f, rc.rand⟩))
    (h_mfr_retry : ∀ s c w f p rand rc o, Q c p rand (.ret rc) → rc.err = some .EOF →
      Q (.mk s .nil [] w false f) rc.p rc.rand o →
      Q (.mk s (.mfr c) [] w false f) p rand o) :
    ∀ (fuel : Nat) (m : MultiFileReader) (p : List Byte) (rand : Nat) (o : Outcome),
      Read env fuel m p rand = some o → Q m p rand o := by
  intro fuel
  induction fuel with
  | zero => intro m p rand o h; simp [Read] at h
  | succ n ih =>
    intro m p rand o h
    rw [Read_succ] at h
    split at h
    · rename_i hc
      cases h
      exact h_eof m p rand hc
    · rename_i hne
      cases hadv : advance env m rand with
      | panic => rw [hadv] at h; cases h; exact h_panic m p rand hne hadv
      | fail e m1 r1 => rw [hadv] at h; cases h; exact h_fail m p rand e m1 r1 hne hadv
      | next m1 r1 =>
        rw [hadv] at h
        simp only at h
        split at h
        · rename_i hb
          rw [bufRead_pos _ _ hb] at h
          cases h
          exact h_buf m p rand m1 r1 hne hadv hb
        · rename_i hb
          have hcurne : m.currentFile ≠ .nil := by
            intro hc
            exact hb (advance_nil_buf_pos env m m1 rand r1 hc hne hadv)
          rw [advance_cur env m rand hcurne] at hadv
          cases hadv
          cases m with
          | mk s c b w cl f =>
            have hb0 : b = [] := List.length_eq_zero.mp (by simpa using hb)
            subst hb0
            have hcl : cl = false := by
              cases cl with
              | false => rfl
              | true => exact absurd ⟨rfl, rfl⟩ hne
            subst hcl
            cases c with
            | nil => exact absurd rfl hcurne
            | file reads =>
              simp only [currentFile_mk] at h
              split at h
              · rename_i he
                exact h_file_retry s reads w f p rand o he (ih _ _ _ _ h)
              · rename_i he
                cases h
                exact h_file s reads w f p rand he
            | mfr c =>
              simp only [currentFile_mk] at h
              cases hcr : Read env n c p rand with
              | none => rw [hcr] at h; simp at h
              | some oc =>
                rw [hcr] at h
                cases oc with
                | panic => cases h; exact h_mfr_panic s c w f p rand (ih _ _ _ _ hcr)
                | ret rc =>
                  simp only at h
                  split at h
                  · rename_i he
                    exact h_mfr_retry s c w f p rand rc o (ih _ _ _ _ hcr) he (ih _ _ _ _ h)
                  · rename_i he
                    cases h
                    exact h_mfr s c w f p rand rc (ih _ _ _ _ hcr) he

/-- What the advance step leaves of the reader it was given: the boundary
token and the form flag, always. -/
theorem advance_frame (env : Env) (m : MultiFileReader) (rand : Nat) :
    (∀ m1 r1, advance env m rand = .next m1 r1 →
      m1.Boundary = m.Boundary ∧ m1.form = m.form) ∧
    (∀ e m1 r1, advance env m rand = .fail e m1 r1 →
      m1.Boundary = m.Boundary ∧ m1.form = m.form) := by
  cases m with
  | mk s c b w cl f =>
    by_cases hc : c = .nil
    · subst hc
      constructor
      · intro m1 r1 h
        rcases advance_nil_cases env s b w cl f rand with
          ⟨rest, _, hadv⟩ | ⟨code, rest, _, hadv⟩ | ⟨file, rest, _, _, hadv⟩ |
          ⟨file, rest, code, _, _, _, hadv⟩ | ⟨file, rest, _, _, _, hadv⟩ <;>
        · rw [hadv] at h
          cases h <;> exact ⟨rfl, rfl⟩
      · intro e m1 r1 h
        rcases advance_nil_cases env s b w cl f rand with
          ⟨rest, _, hadv⟩ | ⟨code, rest, _, hadv⟩ | ⟨file, rest, _, _, hadv⟩ |
          ⟨file, rest, code, _, _, _, hadv⟩ | ⟨file, rest, _, _, _, hadv⟩ <;>
        · rw [hadv] at h
          cases h <;> exact ⟨rfl, rfl⟩
    · rw [advance_cur env _ rand (by simpa using hc)]
      constructor
      · intro m1 r1 h; cases h; exact ⟨rfl, rfl⟩
      · intro e m1 r1 h; cases h

/-- `Read` changes neither the boundary token nor the form flag. -/
theorem Read_frame (env : Env) (fuel : Nat) (m : MultiFileReader) (p : List Byte)
    (rand : Nat) (r : ReadResult) (h : Read env fuel m p rand = some (.ret r)) :
    r.mfr.Boundary = m.Boundary ∧ r.mfr.form = m.form := by
  have := Read_ind env
    (fun m _ _ o => ∀ r, o = .ret r → r.mfr.Boundary = m.Boundary ∧ r.mfr.form = m.form)
    (by intro m p rand _ r hr; cases hr; exact ⟨rfl, rfl⟩)
    (by intro m p rand _ _ r hr; cases hr)
    (by intro m p rand e m1 r1 _ hadv r hr; cases hr
        exact (advance_frame env m rand).2 e m1 r1 hadv)
    (by intro m p rand m1 r1 _ hadv _ r hr; cases hr
        have := (advance_frame env m rand).1 m1 r1 hadv
        cases m1; simpa using this)
    (by intro s reads w f p rand _ r hr; cases hr; exact ⟨rfl, rfl⟩)
    (by intro s reads w f p rand o _ ih r hr; exact ih r hr)
    (by intro s c w f p rand _ r hr; cases hr)
    (by intro s c w f p rand rc _ _ r hr; cases hr; exact ⟨rfl, rfl⟩)
    (by intro s c w f p rand rc o _ _ ih r hr; exact ih r hr)
    fuel m p rand (.ret r) h
  exact this r rfl

@[simp] theorem tidy_mk (s c b w cl f) :
    (MultiFileReader.mk s c b w cl f).tidy = ((!cl || c.isNil) && c.tidy) := by
  simp [MultiFileReader.tidy]
@[simp] theorem tidy_nil : Reader.nil.tidy = true := by simp [Reader.tidy]
@[simp] theorem tidy_file (r) : (Reader.file r).tidy = true := by simp [Reader.tidy]
@[simp] theorem tidy_mfr (m) : (Reader.mfr m).tidy = m.tidy := by simp [Reader.tidy]

@[simp] theorem entryReader_tidy (env : Env) (file : File) (rand : Nat) :
    (entryReader env file rand).1.tidy = true := by
  cases file <;> simp [entryReader, File.IsDirectory, NewMultiFileReader]
@[simp] theorem entryReader_isNil (env : Env) (file : File) (rand : Nat) :
    (entryReader env file rand).1.isNil = false := by
  cases file <;> simp [entryReader, File.IsDirectory]

/-- The advance step never dereferences a nil value. -/
theorem advance_ne_panic (env : Env) (m : MultiFileReader) (rand : Nat) :
    advance env m rand ≠ .panic := by
  cases m with
  | mk s c b w cl f =>
    by_cases hc : c = .nil
    · subst hc
      rcases advance_nil_cases env s b w cl f rand with
        ⟨rest, _, hadv⟩ | ⟨code, rest, _, hadv⟩ | ⟨file, rest, _, _, hadv⟩ |
        ⟨file, rest, code, _, _, _, hadv⟩ | ⟨file, rest, _, _, _, hadv⟩ <;>
      · rw [hadv]; simp
    · rw [advance_cur env _ rand (by simpa using hc)]; simp

/-- The advance step keeps a tidy reader tidy. -/
theorem advance_tidy (env : Env) (m : MultiFileReader) (rand : Nat) (ht : m.tidy = true) :
    (∀ m1 r1, advance env m rand = .next m1 r1 → m1.tidy = true) ∧
    (∀ e m1 r1, advance env m rand = .fail e m1 r1 → m1.tidy = true) := by
  cases m with
  | mk s c b w cl f =>
    by_cases hc : c = .nil
    · subst hc
      constructor
      · intro m1 r1 h
        rcases advance_nil_cases env s b w cl f rand with
          ⟨rest, _, hadv⟩ | ⟨code, rest, _, hadv⟩ | ⟨file, rest, _, _, hadv⟩ |
          ⟨file, rest, code, _, _, _, hadv⟩ | ⟨file, rest, _, _, _, hadv⟩ <;>
        · rw [hadv] at h
          cases h <;> simp
      · intro e m1 r1 h
        rcases advance_nil_cases env s b w cl f rand with
          ⟨rest, _, hadv⟩ | ⟨code, rest, _, hadv⟩ | ⟨file, rest, _, _, hadv⟩ |
          ⟨file, rest, code, _, _, _, hadv⟩ | ⟨file, rest, _, _, _, hadv⟩ <;>
        · rw [hadv] at h
          cases h <;> simp
    · rw [advance_cur env _ rand (by simpa using hc)]
      constructor
      · intro m1 r1 h; cases h; exact ht
      · intro e m1 r1 h; cases h

/-- `Read` never dereferences a nil value, in any state. -/
theorem Read_ne_panic (env : Env) (fuel : Nat) (m : MultiFileReader) (p : List Byte)
    (rand : Nat) : Read env fuel m p rand ≠ some .panic := by
  intro h
  have := Read_ind env (fun _ _ _ o => o ≠ .panic)
    (by intro m p rand _; simp)
    (by intro m p rand _ hadv; exact absurd hadv (advance_ne_panic env m rand))
    (by intro m p rand e m1 r1 _ _; simp)
    (by intro m p rand m1 r1 _ _ _; simp)
    (by intro s reads w f p rand _; simp)
    (by intro s reads w f p rand o _ ih; exact ih)
    (by intro s c w f p rand ih; exact absurd rfl ih)
    (by intro s c w f p rand rc _ _; simp)
    (by intro s c w f p rand rc o _ _ ih; exact ih)
    fuel m p rand .panic h
  exact this rfl

/-- `Read` keeps a tidy reader tidy. -/
theorem Read_tidy (env : Env) (fuel : Nat) (m : MultiFileReader) (p : List Byte)
    (rand : Nat) (r : ReadResult) (ht : m.tidy = true)
    (h : Read env fuel m p rand = some (.ret r)) : r.mfr.tidy = true := by
  have := Read_ind env (fun m _ _ o => m.tidy = true → ∀ r, o = .ret r → r.mfr.tidy = true)
    (by intro m p rand _ ht r hr; cases hr; exact ht)
    (by intro m p rand _ _ _ r hr; cases hr)
    (by intro m p rand e m1 r1 _ hadv ht r hr; cases hr
        exact (advance_tidy env m rand ht).2 e m1 r1 hadv)
    (by intro m p rand m1 r1 _ hadv _ ht r hr; cases hr
        have := (advance_tidy env m rand ht).1 m1 r1 hadv
        cases m1; simpa using this)
    (by intro s reads w f p rand _ _ r hr; cases hr; simp)
    (by intro s reads w f p rand o _ ih _ r hr; exact ih (by simp) r hr)
    (by intro s c w f p rand _ _ r hr; cases hr)
    (by intro s c w f p rand rc ih _ ht r hr; cases hr
        have := ih (by simpa using ht) rc rfl
        simpa using this)
    (by intro s c w f p rand rc o _ _ ih _ r hr; exact ih (by simp) r hr)
    fuel m p rand (.ret r) h
  exact this ht r rfl

@[simp] theorem bound_mk (s c b w cl f) :
    (MultiFileReader.mk s c b w cl f).bound = max s.height c.bound + 1 := by
  simp [MultiFileReader.bound]
@[simp] theorem bound_nil : Reader.nil.bound = 0 := by simp [Reader.bound]
@[simp] theorem bound_file (r) : (Reader.file r).bound = 1 := by simp [Reader.bound]
@[simp] theorem bound_mfr (m) : (Reader.mfr m).bound = m.bound := by simp [Reader.bound]
@[simp] theorem height_eof : Source.eof.height = 0 := by simp [Source.height]
@[simp] theorem height_entry (f r) : (Source.entry f r).height = max f.height r.height := by
  simp [Source.height]
@[simp] theorem height_nilFile (r) : (Source.nilFile r).height = r.height := by
  simp [Source.height]
@[simp] theorem height_fail (e r) : (Source.fail e r).height = r.height := by
  simp [Source.height]
@[simp] theorem height_leaf (n r) : (File.leaf n r).height = 1 := by simp [File.height]
@[simp] theorem height_dir (n s) : (File.dir n s).height = s.height + 1 := by
  simp [File.height]

mutual
theorem MultiFileReader.depth_le_bound : ∀ m : MultiFileReader, m.depth ≤ m.bound
  | .mk s c b w cl f => by
    have := Reader.depth_le_bound_reader c
    simp only [depth_mk, bound_mk]
    omega
theorem Reader.depth_le_bound_reader : ∀ c : Reader, c.depth ≤ c.bound
  | .nil => by simp
  | .file r => by simp
  | .mfr m => by simpa using MultiFileReader.depth_le_bound m
end

theorem entryReader_bound (env : Env) (file : File) (rand : Nat) :
    (entryReader env file rand).1.bound = file.height := by
  cases file <;> simp [entryReader, File.IsDirectory, NewMultiFileReader, File.entries]

theorem NextFile_height (s : Source) : s.NextFile.2.2.height ≤ s.height := by
  cases s <;> simp [Source.NextFile]

/-- The advance step does not raise the bound. -/
theorem advance_bound (env : Env) (m : MultiFileReader) (rand : Nat) :
    (∀ m1 r1, advance env m rand = .next m1 r1 → m1.bound ≤ m.bound) ∧
    (∀ e m1 r1, advance env m rand = .fail e m1 r1 → m1.bound ≤ m.bound) := by
  cases m with
  | mk s c b w cl f =>
    by_cases hc : c = .nil
    · subst hc
      have hnf := NextFile_height s
      constructor
      · intro m1 r1 h
        rcases advance_nil_cases env s b w cl f rand with
          ⟨rest, hr, hadv⟩ | ⟨code, rest, hs, hadv⟩ | ⟨file, rest, hs, _, hadv⟩ |
          ⟨file, rest, code, hs, _, _, hadv⟩ | ⟨file, rest, hs, _, _, hadv⟩
        · rw [hadv] at h; cases h; subst hr; simp; omega
        · rw [hadv] at h; cases h
        · rw [hadv] at h; cases h; subst hs; simp
        · rw [hadv] at h; cases h
        · rw [hadv] at h; cases h; subst hs; simp [entryReader_bound]; omega
      · intro e m1 r1 h
        rcases advance_nil_cases env s b w cl f rand with
          ⟨rest, hr, hadv⟩ | ⟨code, rest, hs, hadv⟩ | ⟨file, rest, hs, _, hadv⟩ |
          ⟨file, rest, code, hs, _, _, hadv⟩ | ⟨file, rest, hs, _, _, hadv⟩
        · rw [hadv] at h; cases h
        · rw [hadv] at h; cases h; subst hs; simp
        · rw [hadv] at h; cases h
        · rw [hadv] at h; cases h; subst hs; simp [entryReader_bound]; omega
        · rw [hadv] at h; cases h
    · rw [advance_cur env _ rand (by simpa using hc)]
      constructor
      · intro m1 r1 h; cases h; exact Nat.le_refl _
      · intro e m1 r1 h; cases h

/-- `Read` does not raise the bound. -/
theorem Read_bound (env : Env) (fuel : Nat) (m : MultiFileReader) (p : List Byte)
    (rand : Nat) (r : ReadResult) (h : Read env fuel m p rand = some (.ret r)) :
    r.mfr.bound ≤ m.bound := by
  have := Read_ind env (fun m _ _ o => ∀ r, o = .ret r → r.mfr.bound ≤ m.bound)
    (by intro m p rand _ r hr; cases hr; exact Nat.le_refl _)
    (by intro m p rand _ _ r hr; cases hr)
    (by intro m p rand e m1 r1 _ hadv r hr; cases hr
        exact (advance_bound env m rand).2 e m1 r1 hadv)
    (by intro m p rand m1 r1 _ hadv _ r hr; cases hr
        have := (advance_bound env m rand).1 m1 r1 hadv
        cases m1; simpa using this)
    (by intro s reads w f p rand _ r hr; cases hr; simp)
    (by intro s reads w f p rand o _ ih r hr
        have := ih r hr
        simp only [bound_mk, bound_nil, bound_file] at this ⊢
        omega)
    (by intro s c w f p rand _ r hr; cases hr)
    (by intro s c w f p rand rc ih _ r hr; cases hr
        have := ih rc rfl
        simp only [bound_mk, bound_mfr]
        omega)
    (by intro s c w f p rand rc o _ _ ih r hr
        have := ih r hr
        simp only [bound_mk, bound_nil, bound_mfr] at this ⊢
        omega)
    fuel m p rand (.ret r) h
  exact this r rfl

mutual
theorem Tree.toFile_height : ∀ t : Tree, t.toFile.height = t.height
  | .leaf name content => by simp [Tree.toFile, Tree.height]
  | .dir name children => by simp [Tree.toFile, Tree.height, Forest.toSource_height children]
theorem Forest.toSource_height : ∀ t : Forest, t.toSource.height = t.height
  | .nil => by simp [Forest.toSource, Forest.height]
  | .cons t rest => by
    simp [Forest.toSource, Forest.height, Tree.toFile_height t, Forest.toSource_height rest]
end

@[simp] theorem lively_mk (s c b w cl f) :
    (MultiFileReader.mk s c b w cl f).lively = (s.lively && c.lively) := by
  simp [MultiFileReader.lively]
@[simp] theorem lively_nil : Reader.nil.lively = true := by simp [Reader.lively]
@[simp] theorem lively_file (r) : (Reader.file r).lively = livelyReads r := by
  simp [Reader.lively]
@[simp] theorem lively_mfr (m) : (Reader.mfr m).lively = m.lively := by simp [Reader.lively]
@[simp] theorem lively_eof : Source.eof.lively = true := by simp [Source.lively]
@[simp] theorem lively_entry (f r) : (Source.entry f r).lively = (f.lively && r.lively) := by
  simp [Source.lively]
@[simp] theorem lively_nilFile (r) : (Source.nilFile r).lively = r.lively := by
  simp [Source.lively]
@[simp] theorem lively_fail (e r) : (Source.fail e r).lively = r.lively := by
  simp [Source.lively]
@[simp] theorem lively_leaf (n r) : (File.leaf n r).lively = livelyReads r := by
  simp [File.lively]
@[simp] theorem lively_dir (n s) : (File.dir n s).lively = s.lively := by simp [File.lively]

theorem entryReader_lively (env : Env) (file : File) (rand : Nat) :
    (entryReader env file rand).1.lively = file.lively := by
  cases file <;> simp [entryReader, File.IsDirectory, NewMultiFileReader, File.entries,
    File.reads]

theorem NextFile_lively (s : Source) (h : s.lively = true) : s.NextFile.2.2.lively = true := by
  cases s <;> simp_all [Source.NextFile]

/-- The advance step keeps the scripts still to be read. -/
theorem advance_lively (env : Env) (m : MultiFileReader) (rand : Nat) (hl : m.lively = true) :
    (∀ m1 r1, advance env m rand = .next m1 r1 → m1.lively = true) ∧
    (∀ e m1 r1, advance env m rand = .fail e m1 r1 → m1.lively = true) := by
  cases m with
  | mk s c b w cl f =>
    by_cases hc : c = .nil
    · subst hc
      simp only [lively_mk, lively_nil, Bool.and_true] at hl
      have hnf := NextFile_lively s hl
      constructor
      · intro m1 r1 h
        rcases advance_nil_cases env s b w cl f rand with
          ⟨rest, hr, hadv⟩ | ⟨code, rest, hs, hadv⟩ | ⟨file, rest, hs, _, hadv⟩ |
          ⟨file, rest, code, hs, _, _, hadv⟩ | ⟨file, rest, hs, _, _, hadv⟩
        · rw [hadv] at h; cases h; subst hr; simpa using hnf
        · rw [hadv] at h; cases h
        · rw [hadv] at h; cases h; subst hs; simp at hl; simp [hl.2]
        · rw [hadv] at h; cases h
        · rw [hadv] at h; cases h; subst hs; simp at hl
          simp [entryReader_lively, hl.1, hl.2]
      · intro e m1 r1 h
        rcases advance_nil_cases env s b w cl f rand with
          ⟨rest, hr, hadv⟩ | ⟨code, rest, hs, hadv⟩ | ⟨file, rest, hs, _, hadv⟩ |
          ⟨file, rest, code, hs, _, _, hadv⟩ | ⟨file, rest, hs, _, _, hadv⟩
        · rw [hadv] at h; cases h
        · rw [hadv] at h; cases h; subst hs; simpa using hl
        · rw [hadv] at h; cases h
        · rw [hadv] at h; cases h; subst hs; simp at hl
          simp [entryReader_lively, hl.1, hl.2]
        · rw [hadv] at h; cases h
    · rw [advance_cur env _ rand (by simpa using hc)]
      constructor
      · intro m1 r1 h; cases h; exact hl
      · intro e m1 r1 h; cases h

theorem fileRead_length (reads : List ReadStep) (p : List Byte) :
    (fileRead reads p).2.2.1.length = p.length := by
  cases reads with
  | nil => rfl
  | cons s rest =>
    simp only [fileRead]
    split <;> simp [copy_length]

/-- A lively script hands out at least one byte whenever it reports no
error, and stays lively. -/
theorem fileRead_lively (reads : List ReadStep) (p : List Byte) (hp : 0 < p.length)
    (hl : livelyReads reads = true) :
    livelyReads (fileRead reads p).2.2.2 = true ∧
    ((fileRead reads p).2.1 = none → 0 < (fileRead reads p).1) := by
  cases reads with
  | nil => simp [fileRead, livelyReads]
  | cons s rest =>
    simp only [livelyReads, List.all_cons, Bool.and_eq_true, Bool.not_eq_true',
      Bool.and_eq_false_iff] at hl
    obtain ⟨hs, hrest⟩ := hl
    simp only [fileRead]
    split
    · refine ⟨by simpa [livelyReads] using hrest, ?_⟩
      intro he
      simp only at he
      rcases hs with hs | hs
      · simp only [List.isEmpty_eq_false] at hs
        exact List.length_pos.mpr hs
      · simp [he] at hs
    · rename_i hnot
      refine ⟨?_, fun _ => hp⟩
      have hd : s.bytes.drop p.length ≠ [] := by
        intro h
        have := List.drop_eq_nil_iff.mp h
        omega
      simp only [livelyReads, List.all_cons, Bool.and_eq_true, Bool.not_eq_true',
        Bool.and_eq_false_iff, List.isEmpty_eq_false]
      exact ⟨Or.inl hd, by simpa [livelyReads] using hrest⟩

/-- A `Read` call on a reader all of whose leaves have lively scripts, with a
buffer that is not empty: the buffer keeps its length, the scripts stay
lively, and a call that reports no error has handed out at least one byte. -/
theorem Read_lively (env : Env) (fuel : Nat) (m : MultiFileReader) (p : List Byte)
    (rand : Nat) (r : ReadResult) (hp : 0 < p.length) (hl : m.lively = true)
    (h : Read env fuel m p rand = some (.ret r)) :
    r.p.length = p.length ∧ r.mfr.lively = true ∧ (r.err = none → 0 < r.written) := by
  have := Read_ind env
    (fun m p _ o => 0 < p.length → m.lively = true → ∀ r, o = .ret r →
      r.p.length = p.length ∧ r.mfr.lively = true ∧ (r.err = none → 0 < r.written))
    (by intro m p rand _ _ hl r hr; cases hr; exact ⟨rfl, hl, by simp⟩)
    (by intro m p rand _ _ _ _ r hr; cases hr)
    (by intro m p rand e m1 r1 _ hadv _ hl r hr; cases hr
        exact ⟨rfl, (advance_lively env m rand hl).2 e m1 r1 hadv, by simp⟩)
    (by intro m p rand m1 r1 _ hadv hb hp hl r hr; cases hr
        have := (advance_lively env m rand hl).1 m1 r1 hadv
        refine ⟨copy_length _ _, ?_, fun _ => ?_⟩
        · cases m1; simpa using this
        · simp only; omega)
    (by intro s reads w f p rand _ hp hl r hr; cases hr
        simp only [lively_mk, lively_file, Bool.and_eq_true] at hl
        have := fileRead_lively reads p hp hl.2
        exact ⟨fileRead_length reads p, by simp [hl.1, this.1], this.2⟩)
    (by intro s reads w f p rand o _ ih hp hl r hr
        simp only [lively_mk, lively_file, Bool.and_eq_true] at hl
        have := ih (by rw [fileRead_length]; exact hp) (by simp [hl.1]) r hr
        rw [fileRead_length] at this
        exact this)
    (by intro s c w f p rand _ _ _ r hr; cases hr)
    (by intro s c w f p rand rc ih _ hp hl r hr; cases hr
        simp only [lively_mk, lively_mfr, Bool.and_eq_true] at hl
        have := ih hp hl.2 rc rfl
        exact ⟨this.1, by simp [hl.1, this.2.1], this.2.2⟩)
    (by intro s c w f p rand rc o ihc _ ih hp hl r hr
        simp only [lively_mk, lively_mfr, Bool.and_eq_true] at hl
        have hc := ihc hp hl.2 rc rfl
        have := ih (by rw [hc.1]; exact hp) (by simp [hl.1]) r hr
        rw [hc.1] at this
        exact this)
    fuel m p rand (.ret r) h
  exact this hp hl r rfl

/-- What the advance step queues on a reader that is open, has no current
file and an empty header buffer: the closing line, or the header block of the
next entry, whose reader becomes the current file. -/
theorem advance_open (env : Env) (s : Source) (w : Writer) (f : Bool) (rand : Nat)
    (m1 : MultiFileReader) (r1 : Nat)
    (h : advance env (.mk s .nil [] w false f) rand = .next m1 r1) :
    (m1.closed = true ∧ m1.currentFile = .nil ∧ m1.buf = w.closing) ∨
    (∃ file rest, s = .entry file rest ∧ m1.closed = false ∧
      m1.currentFile = (entryReader env file rand).1 ∧
      m1.buf = partBlock env w f file rand) := by
  rcases advance_nil_cases env s [] w false f rand with
    ⟨rest, hr, hadv⟩ | ⟨code, rest, hs, hadv⟩ | ⟨file, rest, hs, hcl, hadv⟩ |
    ⟨file, rest, code, hs, _, _, hadv⟩ | ⟨file, rest, hs, _, _, hadv⟩
  · rw [hadv] at h; cases h; exact Or.inl ⟨rfl, rfl, by simp⟩
  · rw [hadv] at h; cases h
  · cases hcl
  · rw [hadv] at h; cases h
  · rw [hadv] at h; cases h; exact Or.inr ⟨file, rest, hs, rfl, rfl, by simp⟩

@[simp] theorem mixedBelow_mk (s c b w cl f) :
    (MultiFileReader.mk s c b w cl f).mixedBelow = c.mixed := by
  simp [MultiFileReader.mixedBelow]
@[simp] theorem mixed_nil : Reader.nil.mixed = true := by simp [Reader.mixed]
@[simp] theorem mixed_file (r) : (Reader.file r).mixed = true := by simp [Reader.mixed]
@[simp] theorem mixed_mfr (m) : (Reader.mfr m).mixed = (!m.form && m.mixedBelow) := by
  simp [Reader.mixed]

@[simp] theorem entryReader_mixed (env : Env) (file : File) (rand : Nat) :
    (entryReader env file rand).1.mixed = true := by
  cases file <;> simp [entryReader, File.IsDirectory, NewMultiFileReader]

/-- The advance step keeps the form flags of the nested readers off. -/
theorem advance_mixed (env : Env) (m : MultiFileReader) (rand : Nat)
    (hm : m.mixedBelow = true) :
    (∀ m1 r1, advance env m rand = .next m1 r1 → m1.mixedBelow = true) ∧
    (∀ e m1 r1, advance env m rand = .fail e m1 r1 → m1.mixedBelow = true) := by
  cases m with
  | mk s c b w cl f =>
    by_cases hc : c = .nil
    · subst hc
      constructor
      · intro m1 r1 h
        rcases advance_nil_cases env s b w cl f rand with
          ⟨rest, _, hadv⟩ | ⟨code, rest, _, hadv⟩ | ⟨file, rest, _, _, hadv⟩ |
          ⟨file, rest, code, _, _, _, hadv⟩ | ⟨file, rest, _, _, _, hadv⟩ <;>
        · rw [hadv] at h
          cases h <;> simp
      · intro e m1 r1 h
        rcases advance_nil_cases env s b w cl f rand with
          ⟨rest, _, hadv⟩ | ⟨code, rest, _, hadv⟩ | ⟨file, rest, _, _, hadv⟩ |
          ⟨file, rest, code, _, _, _, hadv⟩ | ⟨file, rest, _, _, _, hadv⟩ <;>
        · rw [hadv] at h
          cases h <;> simp
    · rw [advance_cur env _ rand (by simpa using hc)]
      constructor
      · intro m1 r1 h; cases h; exact hm
      · intro e m1 r1 h; cases h

/-- `Read` keeps the form flag, and keeps the form flags of the nested readers
off. -/
theorem Read_mixed (env : Env) (fuel : Nat) (m : MultiFileReader) (p : List Byte)
    (rand : Nat) (r : ReadResult) (h : Read env fuel m p rand = some (.ret r)) :
    r.mfr.form = m.form ∧ (m.mixedBelow = true → r.mfr.mixedBelow = true) := by
  have := Read_ind env
    (fun m _ _ o => ∀ r, o = .ret r →
      r.mfr.form = m.form ∧ (m.mixedBelow = true → r.mfr.mixedBelow = true))
    (by intro m p rand _ r hr; cases hr; exact ⟨rfl, fun h => h⟩)
    (by intro m p rand _ _ r hr; cases hr)
    (by intro m p rand e m1 r1 _ hadv r hr; cases hr
        exact ⟨((advance_frame env m rand).2 e m1 r1 hadv).2,
          fun hm => (advance_mixed env m rand hm).2 e m1 r1 hadv⟩)
    (by intro m p rand m1 r1 _ hadv _ r hr; cases hr
        have h1 := ((advance_frame env m rand).1 m1 r1 hadv).2
        refine ⟨by cases m1; simpa using h1, fun hm => ?_⟩
        have h2 := (advance_mixed env m rand hm).1 m1 r1 hadv
        cases m1; simpa using h2)
    (by intro s reads w f p rand _ r hr; cases hr; simp)
    (by intro s reads w f p rand o _ ih r hr
        have := ih r hr
        exact ⟨this.1, fun _ => this.2 (by simp)⟩)
    (by intro s c w f p rand _ r hr; cases hr)
    (by intro s c w f p rand rc ih _ r hr; cases hr
        have := ih rc rfl
        refine ⟨rfl, fun hm => ?_⟩
        simp only [mixedBelow_mk, mixed_mfr, Bool.and_eq_true, Bool.not_eq_true'] at hm ⊢
        exact ⟨by rw [this.1]; exact hm.1, this.2 hm.2⟩)
    (by intro s c w f p rand rc o _ _ ih r hr
        have := ih r hr
        exact ⟨this.1, fun _ => this.2 (by simp)⟩)
    fuel m p rand (.ret r) h
  exact this r rfl

/-- While the header buffer holds bytes and a current file is set, the calls
of a caller's loop hand out the header buffer from its start and touch
nothing else. -/
theorem readN_header (env : Env) : ∀ (j : Nat) (m : MultiFileReader) (p : List Byte)
    (rand : Nat), 0 < p.length → m.currentFile ≠ .nil →
    j * p.length < m.buf.length + p.length →
    readN env j m p rand
      = (m.buf.take (j * p.length), m.setBuf (m.buf.drop (j * p.length))) := by
  intro j
  induction j with
  | zero =>
    intro m p rand _ _ _
    cases m
    simp [readN]
  | succ n ih =>
    intro m p rand hp hcur hlt
    have hb : 0 < m.buf.length := by
      rcases Nat.eq_zero_or_pos m.buf.length with h0 | h0
      · rw [h0] at hlt
        have : p.length ≤ (n + 1) * p.length := Nat.le_mul_of_pos_left _ (by omega)
        omega
      · exact h0
    obtain ⟨d, hd⟩ : ∃ d, m.depth = d + 1 := ⟨m.depth - 1, by have := depth_pos m; omega⟩
    have hread : Read env m.depth m p rand
        = some (.ret ⟨min p.length m.buf.length, none, copy p m.buf,
            m.setBuf (m.buf.drop p.length), rand⟩) := by
      rw [hd, Read_cur env d m p rand hcur, if_neg (by omega), if_pos hb, bufRead_pos _ _ hb]
    simp only [readN, hread]
    have hnext := ih (m.setBuf (m.buf.drop p.length)) (copy p m.buf) rand
      (by rw [copy_length]; exact hp)
      (by cases m; simpa using hcur)
      (by
        cases m with
        | mk s c b w cl f =>
          simp only [setBuf_mk, buf_mk, List.length_drop, copy_length] at hlt ⊢
          have : (n + 1) * p.length = n * p.length + p.length := by ring
          omega)
    rw [hnext]
    cases m with
    | mk s c b w cl f =>
      simp only [setBuf_mk, buf_mk, copy_length, copy_take, List.drop_drop]
      have h1 : (n + 1) * p.length = p.length + n * p.length := by ring
      rw [h1, List.take_add]

/-- The advance step never reopens a closed reader. -/
theorem advance_closed (env : Env) (m : MultiFileReader) (rand : Nat) (hcl : m.closed = true) :
    (∀ m1 r1, advance env m rand = .next m1 r1 → m1.closed = true) ∧
    (∀ e m1 r1, advance env m rand = .fail e m1 r1 → m1.closed = true) := by
  cases m with
  | mk s c b w cl f =>
    simp only [closed_mk] at hcl
    subst hcl
    by_cases hc : c = .nil
    · subst hc
      constructor
      · intro m1 r1 h
        rcases advance_nil_cases env s b w true f rand with
          ⟨rest, _, hadv⟩ | ⟨code, rest, _, hadv⟩ | ⟨file, rest, _, _, hadv⟩ |
          ⟨file, rest, code, _, hcl, _, hadv⟩ | ⟨file, rest, _, hcl, _, hadv⟩ <;>
        first
        | (rw [hadv] at h; cases h <;> rfl)
        | exact absurd hcl (by simp)
      · intro e m1 r1 h
        rcases advance_nil_cases env s b w true f rand with
          ⟨rest, _, hadv⟩ | ⟨code, rest, _, hadv⟩ | ⟨file, rest, _, _, hadv⟩ |
          ⟨file, rest, code, _, hcl, _, hadv⟩ | ⟨file, rest, _, hcl, _, hadv⟩ <;>
        first
        | (rw [hadv] at h; cases h <;> rfl)
        | exact absurd hcl (by simp)
    · rw [advance_cur env _ rand (by simpa using hc)]
      constructor
      · intro m1 r1 h; cases h; rfl
      · intro e m1 r1 h; cases h

/-- A call of `Read` never reopens a closed reader. -/
theorem Read_closed (env : Env) (fuel : Nat) (m : MultiFileReader) (p : List Byte) (rand : Nat)
    (r : ReadResult) (hcl : m.closed = true) (h : Read env fuel m p rand = some (.ret r)) :
    r.mfr.closed = true := by
  have key := Read_ind env
    (fun m _ _ o => m.closed = true → ∀ r, o = .ret r → r.mfr.closed = true)
    (by intro m p rand _ hcl r hr; cases hr; exact hcl)
    (by intro m p rand _ _ _ r hr; cases hr)
    (by
      intro m p rand e m1 r1 _ hadv hcl r hr
      cases hr
      exact (advance_closed env m rand hcl).2 e m1 r1 hadv)
    (by
      intro m p rand m1 r1 _ hadv _ hcl r hr
      cases hr
      have := (advance_closed env m rand hcl).1 m1 r1 hadv
      cases m1
      simpa using this)
    (by intro s reads w f p rand _ hcl; simp at hcl)
    (by intro s reads w f p rand o _ _ hcl; simp at hcl)
    (by intro s c w f p rand _ hcl; simp at hcl)
    (by intro s c w f p rand rc _ _ hcl; simp at hcl)
    (by intro s c w f p rand rc o _ _ _ hcl; simp at hcl)
    fuel m p rand (.ret r) h
  exact key hcl r rfl

/-! ## Buffers shorter than a closing line -/

@[simp] theorem running_mk (s c b w cl f) :
    (MultiFileReader.mk s c b w cl f).running = (!cl && c.running) := by
  simp [MultiFileReader.running]
@[simp] theorem running_nil : Reader.nil.running = true := by simp [Reader.running]
@[simp] theorem running_file (r) : (Reader.file r).running = true := by simp [Reader.running]
@[simp] theorem running_mfr (m) : (Reader.mfr m).running = m.running := by
  simp [Reader.running]
@[simp] theorem short_mk (k s c b w cl f) :
    (MultiFileReader.mk s c b w cl f).short k
      = (decide (k < w.boundary.length + 8) && c.short k) := by
  simp [MultiFileReader.short]
@[simp] theorem short_nil (k) : Reader.nil.short k = true := by simp [Reader.short]
@[simp] theorem short_file (k r) : (Reader.file r).short k = true := by simp [Reader.short]
@[simp] theorem short_mfr (k m) : (Reader.mfr m).short k = m.short k := by simp [Reader.short]

@[simp] theorem entryReader_running (env : Env) (file : File) (rand : Nat) :
    (entryReader env file rand).1.running = true := by
  cases file <;> simp [entryReader, File.IsDirectory, NewMultiFileReader]

theorem entryReader_short (env : Env) (k : Nat) (hk : ∀ i, k < (env.boundary i).length + 8)
    (file : File) (rand : Nat) : (entryReader env file rand).1.short k = true := by
  cases file <;> simp [entryReader, File.IsDirectory, NewMultiFileReader, hk]

/-- The advance step on an open good reader in a fault-free environment: it
does nothing when a current file is set, it queues the closing line over a
source that is exhausted for good, or it starts the part of the next entry. -/
theorem advance_good (env : Env) (hnf : env.NoFault) (s : Source) (c : Reader) (b : List Byte)
    (w : Writer) (f : Bool) (rand : Nat)
    (hg : (MultiFileReader.mk s c b w false f).good = true) :
    (c ≠ .nil ∧ advance env (.mk s c b w false f) rand = .next (.mk s c b w false f) rand) ∨
    (∃ rest, rest.dry = true ∧ c = .nil ∧ b = [] ∧
      advance env (.mk s c b w false f) rand
        = .next (.mk rest .nil w.closing { w with lastpart := false } true f) rand) ∨
    (∃ file rest, s = .entry file rest ∧ c = .nil ∧ b = [] ∧
      advance env (.mk s c b w false f) rand
        = .next (.mk rest (entryReader env file rand).1 (partBlock env w f file rand)
            { w with lastpart := true } false f) (entryReader env file rand).2) := by
  by_cases hc : c = .nil
  · subst hc
    simp only [good_mk, good_nil, Bool.true_and, Bool.false_eq_true, if_false, isNil_nil,
      Bool.not_true, Bool.false_or, Bool.and_eq_true, List.isEmpty_iff] at hg
    obtain ⟨hpl, hb⟩ := hg
    subst hb
    right
    cases s with
    | eof => exact Or.inl ⟨.eof, rfl, rfl, rfl, by rw [advance_nil_eof]; rfl⟩
    | nilFile rest =>
      exact Or.inl ⟨rest, by simpa using hpl, rfl, rfl, by rw [advance_nil_nilFile]; rfl⟩
    | fail e rest =>
      cases e with
      | EOF =>
        exact Or.inl ⟨rest, by simpa using hpl, rfl, rfl, by rw [advance_nil_failEOF]; rfl⟩
      | other code => simp at hpl
    | entry file rest =>
      refine Or.inr ⟨file, rest, rfl, rfl, rfl, ?_⟩
      rw [advance_nil_entry, if_neg (by simp)]
      cases file with
      | leaf name reads =>
        rw [startPart_leaf, hnf]
        rfl
      | dir name entries =>
        rw [startPart_dir, hnf]
        rfl
  · exact Or.inl ⟨hc, advance_cur env _ rand (by simpa using hc)⟩

/-- One `Read` call on a good reader none of whose closing lines fits in the
caller's buffer: it never reports `io.EOF`, and it leaves a reader that is
again open at every level, or one that is caught. -/
theorem Read_short (env : Env) (hnf : env.NoFault) (fuel : Nat) (m : MultiFileReader)
    (p : List Byte) (rand : Nat) (r : ReadResult)
    (hk : ∀ i, p.length < (env.boundary i).length + 8)
    (hg : m.good = true) (hrun : m.running = true) (hsh : m.short p.length = true)
    (h : Read env fuel m p rand = some (.ret r)) :
    r.p.length = p.length ∧ r.err ≠ some .EOF ∧
    ((r.mfr.running = true ∧ r.mfr.short p.length = true) ∨ r.mfr.stuck p.length = true) := by
  have key := Read_ind env
    (fun m p _ o => (∀ i, p.length < (env.boundary i).length + 8) → m.good = true →
      m.running = true → m.short p.length = true → ∀ r, o = .ret r →
      r.p.length = p.length ∧ r.err ≠ some .EOF ∧
      ((r.mfr.running = true ∧ r.mfr.short p.length = true) ∨ r.mfr.stuck p.length = true))
    (by
      intro m p rand hc _ _ hrun _ r _
      cases m with
      | mk s c b w cl f =>
        simp only [closed_mk] at hc
        simp [hc.1] at hrun)
    (by intro m p rand _ _ _ _ _ _ r hr; cases hr)
    (by
      intro m p rand e m1 r1 _ hadv _ hg hrun _ r _
      cases m with
      | mk s c b w cl f =>
        have hcl : cl = false := by
          cases cl with
          | false => rfl
          | true => simp at hrun
        subst hcl
        rcases advance_good env hnf s c b w f rand hg with
          ⟨_, ha⟩ | ⟨rest, _, _, _, ha⟩ | ⟨file, rest, _, _, _, ha⟩ <;>
        · rw [ha] at hadv
          cases hadv)
    (by
      intro m p rand m1 r1 _ hadv hb hk hg hrun hsh r hr
      cases hr
      refine ⟨copy_length _ _, by simp, ?_⟩
      cases m with
      | mk s c b w cl f =>
        have hcl : cl = false := by
          cases cl with
          | false => rfl
          | true => simp at hrun
        subst hcl
        simp only [running_mk, Bool.not_false, Bool.true_and] at hrun
        simp only [short_mk, Bool.and_eq_true, decide_eq_true_eq] at hsh
        rcases advance_good env hnf s c b w f rand hg with
          ⟨_, ha⟩ | ⟨rest, hdry, _, _, ha⟩ | ⟨file, rest, _, _, _, ha⟩
        · rw [ha] at hadv
          cases hadv
          left
          simp [hrun, hsh.1, hsh.2]
        · rw [ha] at hadv
          cases hadv
          right
          have hlen := closing_length w
          have hne : List.drop p.length w.closing ≠ [] := by
            intro h0
            have := List.drop_eq_nil_iff.mp h0
            omega
          simp [hdry, hsh.1, hne]
        · rw [ha] at hadv
          cases hadv
          left
          simp [hsh.1, entryReader_short env p.length hk])
    (by
      intro s reads w f p rand hne _ _ _ hsh r hr
      cases hr
      simp only [short_mk, Bool.and_eq_true, decide_eq_true_eq] at hsh
      exact ⟨fileRead_length reads p, hne, Or.inl ⟨by simp, by simp [hsh.1]⟩⟩)
    (by
      intro s reads w f p rand o _ ih hk hg _ hsh r hr
      simp only [short_mk, Bool.and_eq_true, decide_eq_true_eq] at hsh
      simp only [good_mk, good_file, Bool.false_eq_true, if_false, Bool.and_eq_true] at hg
      have := ih (by rw [fileRead_length]; exact hk) (by simp [hg.2.1])
        (by simp) (by rw [fileRead_length]; simp [hsh.1]) r hr
      rw [fileRead_length] at this
      exact this)
    (by intro s c w f p rand _ _ _ _ _ r hr; cases hr)
    (by
      intro s c w f p rand rc ih hne hk hg hrun hsh r hr
      cases hr
      simp only [short_mk, Bool.and_eq_true, decide_eq_true_eq, short_mfr] at hsh
      simp only [good_mk, good_mfr, Bool.false_eq_true, if_false, Bool.and_eq_true] at hg
      simp only [running_mk, running_mfr, Bool.not_false, Bool.true_and] at hrun
      obtain ⟨h1, _, h3⟩ := ih hk hg.1 hrun hsh.2 rc rfl
      refine ⟨h1, hne, ?_⟩
      rcases h3 with ⟨ha, hb⟩ | hst
      · exact Or.inl ⟨by simp [ha], by simp [hsh.1, hb]⟩
      · exact Or.inr (by simp [hst]))
    (by
      intro s c w f p rand rc o ihc he _ hk hg hrun hsh r _
      simp only [short_mk, Bool.and_eq_true, decide_eq_true_eq, short_mfr] at hsh
      simp only [good_mk, good_mfr, Bool.false_eq_true, if_false, Bool.and_eq_true] at hg
      simp only [running_mk, running_mfr, Bool.not_false, Bool.true_and] at hrun
      exact absurd he (ihc hk hg.1 hrun hsh.2 rc rfl).2.1)
    fuel m p rand (.ret r) h
  exact key hk hg hrun hsh r rfl

/-- The states of a run read with buffers of `k` bytes when no closing line
fits in `k` bytes: good and open at every level, or caught. -/
theorem Read_jam (env : Env) (hnf : env.NoFault) (p : List Byte) (hp : 0 < p.length)
    (hk : ∀ i, p.length < (env.boundary i).length + 8) (n : Nat) (m : MultiFileReader)
    (rand : Nat) (hd : m.depth ≤ n)
    (hj : (m.good = true ∧ m.running = true ∧ m.short p.length = true) ∨
      m.stuck p.length = true) :
    ∃ r, Read env n m p rand = some (.ret r) ∧ r.err = none ∧ r.p.length = p.length ∧
      ((r.mfr.good = true ∧ r.mfr.running = true ∧ r.mfr.short p.length = true) ∨
        r.mfr.stuck p.length = true) := by
  rcases hj with ⟨hg, hrun, hsh⟩ | hst
  · obtain ⟨r, hr, hok, _⟩ := Read_step env hnf p hp n m rand hd hg
    obtain ⟨hlen, hne, hres⟩ := Read_short env hnf n m p rand r hk hg hrun hsh hr
    refine ⟨r, hr, ?_, hlen, ?_⟩
    · rcases hok with ⟨hre, _⟩ | ⟨_, herr, _⟩ | ⟨_, herr, _⟩
      · subst hre
        simp at hne
      · exact herr
      · exact herr
    · rcases hok with ⟨hre, _⟩ | ⟨_, _, _, hgd, _⟩ | ⟨_, _, hst⟩
      · subst hre
        simp at hne
      · rcases hres with ⟨ha, hb⟩ | hst
        · exact Or.inl ⟨hgd, ha, hb⟩
        · exact Or.inr hst
      · exact Or.inr hst
  · obtain ⟨r, hr, hlen, herr, hst2⟩ := stuck_step env p hp n m rand hd hst
    exact ⟨r, hr, herr, hlen, Or.inr hst2⟩

/-- With a buffer shorter than every closing line no good reader is ever read
to its end: every call returns bytes without error, however many are
made. -/
theorem readAll_short (env : Env) (hnf : env.NoFault) :
    ∀ (calls : Nat) (m : MultiFileReader) (p : List Byte) (rand : Nat), 0 < p.length →
      (∀ i, p.length < (env.boundary i).length + 8) →
      ((m.good = true ∧ m.running = true ∧ m.short p.length = true) ∨
        m.stuck p.length = true) →
      readAll env calls m p rand = .unfinished := by
  intro calls
  induction calls with
  | zero => intro m p rand _ _ _; rfl
  | succ n ih =>
    intro m p rand hp hk hj
    obtain ⟨r, hr, herr, hlen, hj2⟩ := Read_jam env hnf p hp hk m.depth m rand (Nat.le_refl _) hj
    simp only [readAll, hr, herr]
    rw [ih r.mfr r.p r.rand (by omega) (by rw [hlen]; exact hk) (by rw [hlen]; exact hj2)]
    rfl

theorem afterDir_dry (s : Source) (h : s.dry = true) : s.afterDir = none := by
  cases s with
  | eof => rfl
  | nilFile rest => rfl
  | fail e rest => rfl
  | entry file rest => simp [Source.dry] at h

/-- One call on a reader whose current file is a nested reader, with a buffer
shorter than every closing line: the source is untouched and the current
file is still a nested reader with the same token. -/
theorem Read_nested_keep (env : Env) (hnf : env.NoFault) (s : Source) (w : Writer) (f : Bool)
    (c : MultiFileReader) (b p : List Byte) (rand : Nat) (r : ReadResult) (hp : 0 < p.length)
    (hk : ∀ i, p.length < (env.boundary i).length + 8)
    (hj : ((MultiFileReader.mk s (.mfr c) b w false f).good = true ∧
          (MultiFileReader.mk s (.mfr c) b w false f).running = true ∧
          (MultiFileReader.mk s (.mfr c) b w false f).short p.length = true) ∨
        (MultiFileReader.mk s (.mfr c) b w false f).stuck p.length = true)
    (hr : Read env (MultiFileReader.mk s (.mfr c) b w false f).depth
      (.mk s (.mfr c) b w false f) p rand = some (.ret r)) :
    ∃ c2 b2, r.mfr = .mk s (.mfr c2) b2 w false f ∧ c2.Boundary = c.Boundary := by
  obtain ⟨d, hd⟩ : ∃ d, (MultiFileReader.mk s (.mfr c) b w false f).depth = d + 1 :=
    ⟨_, (Nat.succ_pred_eq_of_pos (depth_pos _)).symm⟩
  rw [hd, Read_cur env d _ p rand (by simp), if_neg (by simp)] at hr
  split at hr
  · cases hr
    exact ⟨c, _, rfl, rfl⟩
  · simp only [currentFile_mk] at hr
    cases hcr : Read env d c p rand with
    | none => rw [hcr] at hr; simp at hr
    | some oc =>
      rw [hcr] at hr
      cases oc with
      | panic => simp at hr
      | ret rc =>
        simp only at hr
        split at hr
        · rename_i he
          have hb0 : b = [] := by
            rename_i hb
            exact List.length_eq_zero.mp (by simpa using hb)
          subst hb0
          have hjc : (c.good = true ∧ c.running = true ∧ c.short p.length = true) ∨
              c.stuck p.length = true := by
            rcases hj with ⟨hg, hrun, hsh⟩ | hst
            · simp only [good_mk, good_mfr, Bool.false_eq_true, if_false,
                Bool.and_eq_true] at hg
              simp only [running_mk, running_mfr, Bool.not_false, Bool.true_and] at hrun
              simp only [short_mk, short_mfr, Bool.and_eq_true] at hsh
              exact Or.inl ⟨hg.1, hrun, hsh.2⟩
            · simp only [stuck_mk, stuck_mfr, Bool.false_eq_true, if_false,
                Bool.and_eq_true] at hst
              exact Or.inr hst.2
          have hdc : c.depth ≤ d := by simp at hd; omega
          obtain ⟨rc2, hrc2, herr2, _⟩ := Read_jam env hnf p hp hk d c rand hdc hjc
          rw [hcr] at hrc2
          cases hrc2
          rw [herr2] at he
          cases he
        · cases hr
          exact ⟨rc.mfr, _, rfl, (Read_frame env d c p rand rc hcr).1⟩

/-- With a buffer shorter than every closing line, a reader whose current
file is a nested reader keeps it for ever: after any number of calls the
source is as it was, the current file is still a nested reader and the
reader is still open. -/
theorem readN_nested (env : Env) (hnf : env.NoFault) (s : Source) (w : Writer) (f : Bool) :
    ∀ (n : Nat) (c : MultiFileReader) (b p : List Byte) (rand : Nat), 0 < p.length →
      (∀ i, p.length < (env.boundary i).length + 8) →
      (((MultiFileReader.mk s (.mfr c) b w false f).good = true ∧
          (MultiFileReader.mk s (.mfr c) b w false f).running = true ∧
          (MultiFileReader.mk s (.mfr c) b w false f).short p.length = true) ∨
        (MultiFileReader.mk s (.mfr c) b w false f).stuck p.length = true) →
      ∃ c2 b2, (readN env n (.mk s (.mfr c) b w false f) p rand).2
        = .mk s (.mfr c2) b2 w false f ∧ c2.Boundary = c.Boundary := by
  intro n
  induction n with
  | zero => intro c b p rand _ _ _; exact ⟨c, b, rfl, rfl⟩
  | succ n ih =>
    intro c b p rand hp hk hj
    obtain ⟨r, hr, herr, hlen, hj2⟩ := Read_jam env hnf p hp hk _
      (.mk s (.mfr c) b w false f) rand (Nat.le_refl _) hj
    obtain ⟨c2, b2, hs2, hb2⟩ := Read_nested_keep env hnf s w f c b p rand r hp hk hj hr
    simp only [readN, hr, herr]
    rw [hs2] at hj2 ⊢
    obtain ⟨c3, b3, h3, hb3⟩ := ih c2 b2 r.p r.rand (by omega) (by rw [hlen]; exact hk)
      (by rw [hlen]; exact hj2)
    exact ⟨c3, b3, h3, by rw [hb3, hb2]⟩

theorem newReader_jam (env : Env) (t : Forest) (form : Bool) (rand k : Nat)
    (hk : ∀ i, k < (env.boundary i).length + 8) :
    (newReader env t form rand).good = true ∧ (newReader env t form rand).running = true ∧
      (newReader env t form rand).short k = true :=
  ⟨(newReader_good env t form rand).1, by simp [newReader, NewMultiFileReader],
    by simp [newReader, NewMultiFileReader, hk]⟩

/-- With a buffer shorter than every closing line, a reader over a tree whose
first entry is a directory never gets past that directory: after any number
of calls the later entries are still in the source, the current file is
still the nested reader with the token drawn for it, and the reader is
open. -/
theorem readN_dir_first (env : Env) (hnf : env.NoFault) (name : List Byte)
    (children rest : Forest) (form : Bool) (rand : Nat) (p : List Byte) (hp : 0 < p.length)
    (hk : ∀ i, p.length < (env.boundary i).length + 8) (n : Nat) :
    ∃ c b, (readN env (n + 1) (newReader env (.cons (.dir name children) rest) form rand) p
        (rand + 1)).2
      = .mk rest.toSource (.mfr c) b ⟨env.boundary rand, true⟩ false form ∧
      c.Boundary = env.boundary (rand + 1) := by
  obtain ⟨r, hr, herr, hlen, hj⟩ := Read_jam env hnf p hp hk _
    (newReader env (.cons (.dir name children) rest) form rand) (rand + 1) (Nat.le_refl _)
    (Or.inl (newReader_jam env _ form rand p.length hk))
  have hshape : ∃ b, r.mfr = .mk rest.toSource
      (.mfr (NewMultiFileReader env children.toSource false (rand + 1)).1) b
      ⟨env.boundary rand, true⟩ false form := by
    have hd : (newReader env (.cons (.dir name children) rest) form rand).depth = 0 + 1 := rfl
    rw [hd, Read_nil env 0 (newReader env (.cons (.dir name children) rest) form rand) p
      (rand + 1) rfl, if_neg (by simp [newReader, NewMultiFileReader])] at hr
    have hadv : advance env (newReader env (.cons (.dir name children) rest) form rand)
        (rand + 1)
        = .next (.mk rest.toSource
            (.mfr (NewMultiFileReader env children.toSource false (rand + 1)).1)
            ([] ++ (⟨env.boundary rand, false⟩ : Writer).partBytes
              (partHeader (contentDisposition form name)
                (mixedType (env.boundary (rand + 1)))))
            ⟨env.boundary rand, true⟩ false form) (rand + 2) := by
      simp only [newReader, NewMultiFileReader, Forest.toSource, Tree.toFile]
      rw [advance_nil_entry, if_neg (by simp), startPart_dir, hnf]
      rfl
    rw [hadv] at hr
    simp only at hr
    cases hr
    exact ⟨_, rfl⟩
  obtain ⟨b, hs⟩ := hshape
  simp only [readN, hr, herr]
  rw [hs] at hj ⊢
  obtain ⟨c2, b2, h2, hb2⟩ := readN_nested env hnf rest.toSource ⟨env.boundary rand, true⟩ form n
    _ b r.p r.rand (by omega) (by rw [hlen]; exact hk) (by rw [hlen]; exact hj)
  exact ⟨c2, b2, h2, by rw [hb2]; rfl⟩

/-- One call on an open good reader without a current file, in a fault-free
environment: the entries after the first directory of its source are still
waiting afterwards. -/
theorem Read_waiting_nil (env : Env) (hnf : env.NoFault) (later s : Source) (w : Writer)
    (f : Bool) (p : List Byte) (rand fuel : Nat) (r : ReadResult)
    (hg : (MultiFileReader.mk s .nil [] w false f).good = true)
    (hw : s.afterDir = some later)
    (hr : Read env fuel (.mk s .nil [] w false f) p rand = some (.ret r)) :
    r.mfr.waiting later := by
  cases fuel with
  | zero => simp [Read] at hr
  | succ n =>
    rw [Read_nil env n (.mk s .nil [] w false f) p rand rfl, if_neg (by simp)] at hr
    rcases advance_good env hnf s .nil [] w f rand hg with
      ⟨hc, _⟩ | ⟨rest, hdry, _, _, ha⟩ | ⟨file, rest, hs, _, _, ha⟩
    · exact absurd rfl hc
    · cases s with
      | eof => simp [Source.afterDir] at hw
      | nilFile rest => simp [Source.afterDir] at hw
      | fail e rest => simp [Source.afterDir] at hw
      | entry file rest2 =>
        rw [advance_nil_entry, if_neg (by simp)] at ha
        cases file with
        | leaf name reads => rw [startPart_leaf, hnf] at ha; cases ha
        | dir name entries => rw [startPart_dir, hnf] at ha; cases ha
    · subst hs
      rw [ha] at hr
      simp only at hr
      cases hr
      cases file with
      | leaf name reads =>
        right
        simp only [Source.afterDir] at hw
        exact ⟨by simp [entryReader, File.IsDirectory], by simpa using hw⟩
      | dir name entries =>
        left
        simp only [Source.afterDir, Option.some.injEq] at hw
        exact ⟨_, by simp [entryReader, File.IsDirectory]; rfl, by simpa using hw⟩

/-- One call with a buffer shorter than every closing line keeps the entries
after the first directory waiting, and leaves the reader open. -/
theorem Read_waiting (env : Env) (hnf : env.NoFault) (later : Source) (p : List Byte)
    (hp : 0 < p.length) (hk : ∀ i, p.length < (env.boundary i).length + 8)
    (m : MultiFileReader) (rand : Nat) (r : ReadResult)
    (hj : (m.good = true ∧ m.running = true ∧ m.short p.length = true) ∨
      m.stuck p.length = true)
    (hw : m.waiting later)
    (hr : Read env m.depth m p rand = some (.ret r)) :
    r.mfr.waiting later := by
  cases m with
  | mk s c b w cl f =>
    rcases hw with ⟨c0, hc0, hs0⟩ | ⟨hnm, hs0⟩
    · simp only [currentFile_mk] at hc0
      simp only [files_mk] at hs0
      subst hc0
      have hcl : cl = false := by
        cases cl with
        | false => rfl
        | true =>
          rcases hj with ⟨_, hrun, _⟩ | hst
          · simp at hrun
          · simp at hst
      subst hcl
      obtain ⟨c2, b2, h2, _⟩ := Read_nested_keep env hnf s w f c0 b p rand r hp hk hj hr
      rw [h2]
      exact Or.inl ⟨c2, rfl, hs0⟩
    · simp only [currentFile_mk, ne_eq] at hnm
      simp only [files_mk] at hs0
      have hg : (MultiFileReader.mk s c b w cl f).good = true ∧ cl = false := by
        rcases hj with ⟨hg, hrun, _⟩ | hst
        · refine ⟨hg, ?_⟩
          cases cl with
          | false => rfl
          | true => simp at hrun
        · exfalso
          cases cl with
          | true =>
            simp only [stuck_mk, if_true, Bool.and_eq_true] at hst
            rw [afterDir_dry s hst.2] at hs0
            cases hs0
          | false =>
            cases c with
            | nil => simp at hst
            | file reads => simp at hst
            | mfr c1 => exact hnm c1 rfl
      obtain ⟨hg, hcl⟩ := hg
      subst hcl
      cases c with
      | mfr c1 => exact absurd rfl (hnm c1)
      | nil =>
        have hb : b = [] := by
          have h0 := hg
          simp at h0
          exact h0.2
        subst hb
        exact Read_waiting_nil env hnf later s w f p rand _ r hg hs0 hr
      | file reads =>
        have hd : (MultiFileReader.mk s (.file reads) b w false f).depth = 1 + 1 := by simp
        rw [hd, Read_cur env 1 _ p rand (by simp), if_neg (by simp)] at hr
        split at hr
        · cases hr
          exact Or.inr ⟨by simp, hs0⟩
        · rename_i hb
          have hb0 : b = [] := List.length_eq_zero.mp (by simpa using hb)
          subst hb0
          simp only [currentFile_mk] at hr
          split at hr
          · have hg2 : (MultiFileReader.mk s .nil [] w false f).good = true := by
              simp only [good_mk, good_file, Bool.false_eq_true, if_false,
                Bool.and_eq_true] at hg
              simp [hg.2.1]
            exact Read_waiting_nil env hnf later s w f _ rand 1 r hg2 hs0 hr
          · cases hr
            exact Or.inr ⟨by simp, hs0⟩

/-- A reader that still has entries waiting is not closed. -/
theorem waiting_open (later : Source) (k : Nat) (m : MultiFileReader)
    (hj : (m.good = true ∧ m.running = true ∧ m.short k = true) ∨ m.stuck k = true)
    (hw : m.waiting later) : m.closed = false := by
  cases m with
  | mk s c b w cl f =>
    cases cl with
    | false => rfl
    | true =>
      exfalso
      rcases hj with ⟨_, hrun, _⟩ | hst
      · simp at hrun
      · simp only [stuck_mk, if_true, Bool.and_eq_true] at hst
        rcases hw with ⟨c0, hc0, _⟩ | ⟨_, hs0⟩
        · simp only [currentFile_mk] at hc0
          subst hc0
          simp at hst
        · simp only [files_mk] at hs0
          rw [afterDir_dry s hst.2] at hs0
          cases hs0

/-- With a buffer shorter than every closing line, the entries after the
first directory of a tree are never asked for, however many calls are made,
and the reader is never closed. -/
theorem readN_waiting (env : Env) (hnf : env.NoFault) (later : Source) :
    ∀ (n : Nat) (m : MultiFileReader) (p : List Byte) (rand : Nat), 0 < p.length →
      (∀ i, p.length < (env.boundary i).length + 8) →
      ((m.good = true ∧ m.running = true ∧ m.short p.length = true) ∨
        m.stuck p.length = true) →
      m.waiting later →
      (readN env n m p rand).2.waiting later ∧ (readN env n m p rand).2.closed = false := by
  intro n
  induction n with
  | zero => intro m p rand _ _ hj hw; exact ⟨hw, waiting_open later p.length m hj hw⟩
  | succ n ih =>
    intro m p rand hp hk hj hw
    obtain ⟨r, hr, herr, hlen, hj2⟩ := Read_jam env hnf p hp hk m.depth m rand (Nat.le_refl _) hj
    have hw2 := Read_waiting env hnf later p hp hk m rand r hj hw hr
    simp only [readN, hr, herr]
    exact ih r.mfr r.p r.rand (by omega) (by rw [hlen]; exact hk) (by rw [hlen]; exact hj2) hw2

/-! ## The stream of a read that ends -/

/-- Stream layout when the read ends: for every finite file tree, reading the
reader built over it with a buffer of any positive size never yields
anything but the wire format `encode` of the tree (the part of each entry
in source order, head before body, a directory's body being the complete
nested stream, then the closing line), and it does yield it, within one call
per byte plus one, as soon as every closing line fits in the buffer. -/
theorem stream_layout_fit (env : Env) (hnf : env.NoFault) (t : Forest) (form : Bool)
    (rand : Nat) (p : List Byte) (hp : 0 < p.length) :
    (∀ calls, readAll env calls (newReader env t form rand) p (rand + 1) = .unfinished ∨
        readAll env calls (newReader env t form rand) p (rand + 1)
          = .eof (encode env t form rand)) ∧
    ((∀ i, (env.boundary i).length + 8 ≤ p.length) →
      ∀ calls, (encode env t form rand).length < calls →
        readAll env calls (newReader env t form rand) p (rand + 1)
          = .eof (encode env t form rand)) := by
  obtain ⟨hg, hpend⟩ := newReader_good env t form rand
  constructor
  · intro calls
    rw [← hpend]
    exact readAll_any env hnf calls _ p (rand + 1) hp hg
  · intro hfit calls hc
    rw [← hpend]
    exact readAll_fit env hnf p.length hfit calls _ p (rand + 1) rfl hg
      (newReader_fits env t form rand _ hfit) (by rw [hpend]; exact hc)

set_option maxRecDepth 100000 in
/-- The stream of the tree `[fileA, dirB{fileC}, fileD]` under two-byte
tokens, read with a sixteen-byte buffer: the parts come in the order fileA,
dirB (with fileC as its only nested part, closed by the nested closing
line), fileD. -/
theorem stream_layout_fit_example :
    envEx.NoFault ∧ 0 < (buffer 16).length ∧
    readAll envEx 600 (newReader envEx treeABCD true 0) (buffer 16) 1 = .eof
      ("--B0\r\nContent-Disposition: form-data; name=\"file\"; filename=\"fileA\"\r\n"
        ++ "Content-Type: application/octet-stream\r\n\r\nhello"
        ++ "\r\n--B0\r\nContent-Disposition: form-data; name=\"file\"; filename=\"dirB\"\r\n"
        ++ "Content-Type: multipart/mixed; boundary=B1\r\n\r\n"
        ++ "--B1\r\nContent-Disposition: file; filename=\"fileC\"\r\n"
        ++ "Content-Type: application/octet-stream\r\n\r\nxy"
        ++ "\r\n--B1--\r\n"
        ++ "\r\n--B0\r\nContent-Disposition: form-data; name=\"file\"; filename=\"fileD\"\r\n"
        ++ "Content-Type: application/octet-stream\r\n\r\n"
        ++ "\r\n--B0--\r\n").toList := by
  refine ⟨fun _ => rfl, by decide, ?_⟩
  rw [(stream_layout_fit envEx (fun _ => rfl) treeABCD true 0 (buffer 16) (by decide)).2
    (by intro i; simp [envEx, buffer]) 600 (by decide)]
  decide

/-- The boundary of a nested stream: when the advance step starts the part of
a directory, the boundary parameter written into the `Content-Type` field is
the `Boundary()` of the nested reader it has just stored in `currentFile`;
the stream of that nested reader is the stream of the directory's children
delimited by that very token and ending with that token's closing line; and
the parent emits the head of the part, then that nested stream complete, and
only then the parts of the later entries and its own closing line.  A read
with a buffer of any positive size that ends yields exactly these streams,
and the read of the parent does end when every closing line fits in the
buffer. -/
theorem nested_boundary_fit (env : Env) (hnf : env.NoFault) (name : List Byte)
    (children rest : Forest) (w : Writer) (form : Bool) (rand : Nat) (p : List Byte)
    (hp : 0 < p.length) :
    ∃ child m1,
      advance env (.mk (Forest.cons (.dir name children) rest).toSource .nil [] w false form)
        rand = .next m1 (rand + 1) ∧
      m1.currentFile = .mfr child ∧
      m1.buf = partHead w.boundary (!w.lastpart) form name (some child.Boundary) ∧
      (∃ pre, (children.wire env child.Boundary true false (rand + 1)).1
          = pre ++ closingLine child.Boundary) ∧
      (∀ calls, readAll env calls child p (rand + 1) = .unfinished ∨
        readAll env calls child p (rand + 1)
          = .eof (children.wire env child.Boundary true false (rand + 1)).1) ∧
      (∀ calls,
        readAll env calls
            (.mk (Forest.cons (.dir name children) rest).toSource .nil [] w false form) p rand
          = .unfinished ∨
        readAll env calls
            (.mk (Forest.cons (.dir name children) rest).toSource .nil [] w false form) p rand
          = .eof (partHead w.boundary (!w.lastpart) form name (some child.Boundary)
              ++ (children.wire env child.Boundary true false (rand + 1)).1
              ++ (rest.wire env w.boundary false form
                  (children.wire env child.Boundary true false (rand + 1)).2).1)) ∧
      ((∀ i, (env.boundary i).length + 8 ≤ p.length) → w.boundary.length + 8 ≤ p.length →
        ∀ calls,
        (partHead w.boundary (!w.lastpart) form name (some child.Boundary)
          ++ (children.wire env child.Boundary true false (rand + 1)).1
          ++ (rest.wire env w.boundary false form
              (children.wire env child.Boundary true false (rand + 1)).2).1).length < calls →
        readAll env calls
            (.mk (Forest.cons (.dir name children) rest).toSource .nil [] w false form) p rand
          = .eof (partHead w.boundary (!w.lastpart) form name (some child.Boundary)
              ++ (children.wire env child.Boundary true false (rand + 1)).1
              ++ (rest.wire env w.boundary false form
                  (children.wire env child.Boundary true false (rand + 1)).2).1)) := by
  have hb : (newReader env children false rand).Boundary = env.boundary rand := rfl
  have hgood : (MultiFileReader.mk (Forest.cons (.dir name children) rest).toSource .nil []
      w false form).good = true := by
    simp [Forest.toSource_plain]
  have hpend : ((MultiFileReader.mk (Forest.cons (.dir name children) rest).toSource .nil []
      w false form).pending env rand).1
      = partHead w.boundary (!w.lastpart) form name (some (env.boundary rand))
        ++ (children.wire env (env.boundary rand) true false (rand + 1)).1
        ++ (rest.wire env w.boundary false form
            (children.wire env (env.boundary rand) true false (rand + 1)).2).1 := by
    have := Forest.stream_eq_wire env w form (Forest.cons (.dir name children) rest) rand
    simp [this, Forest.wire, Tree.wire]
  refine ⟨newReader env children false rand,
    .mk rest.toSource (.mfr (newReader env children false rand))
      ([] ++ w.partBytes
        (partHeader (contentDisposition form name) (mixedType (env.boundary rand))))
      { w with lastpart := true } false form, ?_, rfl, ?_, ?_, ?_, ?_, ?_⟩
  · simp only [Forest.toSource, Tree.toFile]
    rw [advance_nil_entry, if_neg (by simp), startPart_dir, hnf]
    rfl
  · have := (partBytes_eq_partHead w form name).2 (env.boundary rand)
    simp [this, newReader, NewMultiFileReader]
  · exact Forest.wire_ends_closing env _ false children true (rand + 1)
  · intro calls
    obtain ⟨hg, hpc⟩ := newReader_good env children false rand
    rw [hb]
    have := readAll_any env hnf calls (newReader env children false rand) p (rand + 1) hp hg
    rw [hpc] at this
    exact this
  · intro calls
    rw [hb, ← hpend]
    exact readAll_any env hnf calls _ p rand hp hgood
  · intro hfit hw calls hc
    rw [hb] at hc ⊢
    have hfits : (MultiFileReader.mk (Forest.cons (.dir name children) rest).toSource .nil []
        w false form).fits p.length = true := by
      simp [hw]
    have := readAll_fit env hnf p.length hfit calls _ p rand rfl hgood hfits
      (by rw [hpend]; exact hc)
    rw [this, hpend]

/-- The part of the directory `dirB{fileC}` followed by `fileD`, inside a
form-data reader with token `B0` that has already sent a part: the nested
reader gets the token `B1`, which is the one the header names. -/
theorem nested_boundary_fit_example :
    envEx.NoFault ∧ 0 < (buffer 16).length ∧
    ∃ child m1,
      advance envEx (.mk (Forest.cons (.dir "dirB".toList
          (.cons (.leaf "fileC".toList "xy".toList) .nil))
          (.cons (.leaf "fileD".toList []) .nil)).toSource .nil [] ⟨"B0".toList, true⟩ false
          true) 1 = .next m1 2 ∧
      m1.currentFile = .mfr child ∧
      m1.buf = partHead "B0".toList false true "dirB".toList (some child.Boundary) := by
  refine ⟨fun _ => rfl, by decide, ?_⟩
  obtain ⟨child, m1, h1, h2, h3, _⟩ := nested_boundary_fit envEx (fun _ => rfl) "dirB".toList
    (.cons (.leaf "fileC".toList "xy".toList) .nil) (.cons (.leaf "fileD".toList []) .nil)
    ⟨"B0".toList, true⟩ true 1 (buffer 16) (by decide)
  exact ⟨child, m1, h1, h2, h3⟩

/-! ## Properties of the reader -/

/-- C5. Exhaustion idempotence: whenever a `Read` call reports `io.EOF`, the
reader was closed with an empty header buffer, the call returned 0 bytes and
changed neither the caller's buffer nor the reader, and every later call, on
any buffer, again returns 0 bytes and `io.EOF` and changes nothing. -/
theorem C5_exhaustion_idempotent (env : Env) (fuel : Nat) (m : MultiFileReader)
    (p : List Byte) (rand : Nat) (r : ReadResult)
    (h : Read env fuel m p rand = some (.ret r)) (he : r.err = some .EOF) :
    (m.closed = true ∧ m.buf = []) ∧
    r.written = 0 ∧ r.p = p ∧ r.mfr = m ∧ r.rand = rand ∧
    ∀ (fuel2 : Nat) (p2 : List Byte) (rand2 : Nat),
      Read env (fuel2 + 1) r.mfr p2 rand2 = some (.ret ⟨0, some .EOF, p2, r.mfr, rand2⟩) := by
  obtain ⟨⟨hc, hb⟩, hr⟩ := Read_eof_inv env fuel m p rand r h he
  subst hr
  refine ⟨⟨hc, List.length_eq_zero.mp hb⟩, rfl, rfl, rfl, rfl, ?_⟩
  intro fuel2 p2 rand2
  rw [Read_succ, if_pos ⟨hc, hb⟩]

/-- C5, run on the reader over the empty tree after its closing line has been
drained: the call reports `io.EOF`, and so does every later one. -/
theorem C5_exhaustion_idempotent_witness :
    Read envEx 1 mfrEnd (buffer 4) 1 = some (.ret ⟨0, some .EOF, buffer 4, mfrEnd, 1⟩) ∧
    ∀ (fuel2 : Nat) (p2 : List Byte) (rand2 : Nat),
      Read envEx (fuel2 + 1) mfrEnd p2 rand2 = some (.ret ⟨0, some .EOF, p2, mfrEnd, rand2⟩) :=
  ⟨rfl, (C5_exhaustion_idempotent envEx 1 mfrEnd (buffer 4) 1
    ⟨0, some .EOF, buffer 4, mfrEnd, 1⟩ rfl rfl).2.2.2.2.2⟩

/-- C6. Part header content: when `Read` starts the part of an entry and
`CreatePart` succeeds, the bytes the advance step appends to the header
buffer are the boundary line of this reader's token (`--b\r\n` for the first
part, `\r\n--b\r\n` afterwards), the `Content-Disposition` field in the
form-data or the file wording with the entry's name, the `Content-Type` field
(`multipart/mixed` with the boundary of the nested reader now held in
`currentFile` for a directory, `application/octet-stream` for a leaf), and an
empty line, nothing else; and the call hands out the first bytes of the
header buffer and keeps the rest. -/
theorem C6_part_header (env : Env) (hok : env.NoFault) (file : File) (rest : Source)
    (b : List Byte) (w : Writer) (form : Bool) (rand : Nat) (fuel : Nat) (p : List Byte) :
    ∃ m1 r1 r, advance env (.mk (.entry file rest) .nil b w false form) rand = .next m1 r1 ∧
      (file.IsDirectory = true → ∃ c, m1.currentFile = .mfr c) ∧
      m1.buf = b ++
        ((if w.lastpart then "\r\n".toList else []) ++ "--".toList ++ w.boundary ++ "\r\n".toList
        ++ "Content-Disposition: ".toList
        ++ (if form then "form-data; name=\"file\"; filename=\"".toList ++ file.FileName
              ++ "\"".toList
            else "file; filename=\"".toList ++ file.FileName ++ "\"".toList)
        ++ "\r\n".toList
        ++ "Content-Type: ".toList
        ++ (if file.IsDirectory then "multipart/mixed; boundary=".toList ++ m1.childBoundary
            else "application/octet-stream".toList)
        ++ "\r\n".toList
        ++ "\r\n".toList) ∧
      Read env (fuel + 1) (.mk (.entry file rest) .nil b w false form) p rand = some (.ret r) ∧
      r.err = none ∧ r.p.take r.written ++ r.mfr.buf = m1.buf := by
  have hread : ∀ (m1 : MultiFileReader) (r1 : Nat), 0 < m1.buf.length →
      advance env (.mk (.entry file rest) .nil b w false form) rand = .next m1 r1 →
      ∃ r, Read env (fuel + 1) (.mk (.entry file rest) .nil b w false form) p rand
          = some (.ret r) ∧ r.err = none ∧ r.p.take r.written ++ r.mfr.buf = m1.buf := by
    intro m1 r1 hpos hadv
    rw [Read_nil env fuel _ _ _ (by simp), if_neg (by simp), hadv]
    refine ⟨_, rfl, ?_, ?_⟩
    · simp only [bufRead_err _ _ hpos]
    · cases m1 with
      | mk s1 c1 b1 w1 cl1 f1 =>
        simp only [buf_mk] at hpos ⊢
        rw [bufRead_pos _ _ hpos]
        simp only [setBuf_mk, buf_mk, copy_take, List.take_append_drop]
  rw [advance_nil_entry, if_neg (by simp)] at hread ⊢
  cases file with
  | leaf name reads =>
    rw [startPart_leaf, hok] at hread ⊢
    obtain ⟨r, hr⟩ := hread _ _ (by simp [Writer.partBytes, crlf]) rfl
    refine ⟨_, _, r, rfl, by simp [File.IsDirectory], ?_, hr⟩
    cases form <;>
      simp [Writer.partBytes, partHeader, contentDisposition, octetStream, Writer.delimiter,
        headerLine, crlf, File.IsDirectory, File.FileName]
  | dir name entries =>
    rw [startPart_dir, hok] at hread ⊢
    obtain ⟨r, hr⟩ := hread _ _ (by simp [Writer.partBytes, crlf]) rfl
    refine ⟨_, _, r, rfl, fun _ => ⟨_, rfl⟩, ?_, hr⟩
    cases form <;>
      simp [Writer.partBytes, partHeader, contentDisposition, mixedType, Writer.delimiter,
        headerLine, crlf, File.IsDirectory, File.FileName, MultiFileReader.childBoundary,
        NewMultiFileReader]

/-- C6, run on a fresh form-data reader whose first entry is the directory
`dirB`: the block queued names the nested reader's token `B1`. -/
theorem C6_part_header_witness :
    envEx.NoFault ∧
    ∃ m1 r1, advance envEx (.mk (.entry (.dir "dirB".toList .eof) .eof) .nil []
        ⟨"B0".toList, false⟩ false true) 1 = .next m1 r1 ∧
      m1.childBoundary = "B1".toList ∧
      m1.buf = ("--B0\r\nContent-Disposition: form-data; name=\"file\"; filename=\"dirB\"\r\n"
        ++ "Content-Type: multipart/mixed; boundary=B1\r\n\r\n").toList := by
  refine ⟨fun _ => rfl, ?_⟩
  obtain ⟨m1, r1, r, h1, h2, h3, _⟩ := C6_part_header envEx (fun _ => rfl)
    (.dir "dirB".toList .eof) .eof [] ⟨"B0".toList, false⟩ true 1 0 (buffer 16)
  refine ⟨m1, r1, h1, ?_, ?_⟩
  · rw [advance_nil_entry, if_neg (by simp), startPart_dir] at h1
    cases h1
    rfl
  · rw [h3]
    have hb : m1.childBoundary = "B1".toList := by
      rw [advance_nil_entry, if_neg (by simp), startPart_dir] at h1
      cases h1
      rfl
    rw [hb]
    decide

/-- C8. Content-read failure is propagated: when the header buffer is empty
and the read of the current file (a leaf, or a nested reader, which may
itself be relaying from any depth) returns `n` bytes and an error other than
`io.EOF`, the call returns that count and that error, the caller's buffer is
as the current file left it, `closed` stays false, the current file stays
set and nothing is queued in the header buffer. -/
theorem C8_content_failure_propagated (env : Env) (p : List Byte) (s : Source) (w : Writer)
    (f : Bool) (rand : Nat) (e : Error) (he : e ≠ .EOF) :
    (∀ (fuel : Nat) (reads : List ReadStep), (fileRead reads p).2.1 = some e →
      Read env (fuel + 1) (.mk s (.file reads) [] w false f) p rand =
        some (.ret ⟨(fileRead reads p).1, some e, (fileRead reads p).2.2.1,
          .mk s (.file (fileRead reads p).2.2.2) [] w false f, rand⟩)) ∧
    (∀ (fuel : Nat) (c : MultiFileReader) (rc : ReadResult),
      Read env fuel c p rand = some (.ret rc) → rc.err = some e →
      Read env (fuel + 1) (.mk s (.mfr c) [] w false f) p rand =
        some (.ret ⟨rc.written, some e, rc.p, .mk s (.mfr rc.mfr) [] w false f, rc.rand⟩)) := by
  constructor
  · intro fuel reads h
    rw [Read_succ, if_neg (by simp), advance_cur env _ _ (by simp)]
    simp only [buf_mk, List.length_nil, Nat.lt_irrefl, if_false, currentFile_mk]
    rw [if_neg (by rw [h]; simpa using he), h]
    rfl
  · intro fuel c rc hc hrc
    rw [Read_succ, if_neg (by simp), advance_cur env _ _ (by simp)]
    simp only [buf_mk, List.length_nil, Nat.lt_irrefl, if_false, currentFile_mk, hc]
    rw [if_neg (by rw [hrc]; simpa using he), hrc]
    rfl

/-- C8, run two levels deep: the leaf inside the nested reader hands out `ab`
and fails with code 5; the outer call returns 2 bytes and that error, with
both readers still open, their current files set and their header buffers
empty. -/
theorem C8_content_failure_propagated_witness :
    Error.other 5 ≠ Error.EOF ∧
    Read envEx 2 mfrFailing (buffer 4) 2 = some (.ret ⟨2, some (.other 5), "abxx".toList,
      .mk .eof (.mfr (.mk .eof (.file []) [] ⟨"B1".toList, true⟩ false false))
        [] ⟨"B0".toList, true⟩ false true, 2⟩) := by
  refine ⟨by decide, ?_⟩
  have h := C8_content_failure_propagated envEx (buffer 4) .eof ⟨"B0".toList, true⟩ true 2
    (.other 5) (by decide)
  have h1 := (C8_content_failure_propagated envEx (buffer 4) .eof ⟨"B1".toList, true⟩ false 2
    (.other 5) (by decide)).1 0 [⟨"ab".toList, some (.other 5)⟩] rfl
  exact h.2 1 _ _ h1 rfl

/-- C9. Entry-advance failure is propagated: when no current file is set, the
reader is not at its end, and `NextFile` returns an error other than
`io.EOF`, the call returns 0 bytes and that error; the caller's buffer,
`closed`, the header buffer, the (unset) current file, the writer and the
boundary counter are as before, and only the source has moved on. -/
theorem C9_advance_failure_propagated (env : Env) (fuel : Nat) (m : MultiFileReader)
    (p : List Byte) (rand : Nat) (file : Option File) (e : Error) (rest : Source)
    (hcur : m.currentFile = .nil) (hne : ¬ (m.closed = true ∧ m.buf.length = 0))
    (hnf : m.files.NextFile = (file, some e, rest)) (he : e ≠ .EOF) :
    Read env (fuel + 1) m p rand = some (.ret ⟨0, some e, p, m.setFiles rest, rand⟩) ∧
    (m.setFiles rest).closed = m.closed ∧ (m.setFiles rest).buf = m.buf ∧
    (m.setFiles rest).currentFile = m.currentFile ∧
    (m.setFiles rest).mpWriter = m.mpWriter := by
  cases m with
  | mk s c b w cl f =>
    simp only [currentFile_mk] at hcur
    subst hcur
    refine ⟨?_, rfl, rfl, rfl, rfl⟩
    rw [Read_nil env fuel _ _ _ (by simp), if_neg hne]
    cases s with
    | eof => simp [Source.NextFile] at hnf; exact absurd hnf.2.1.symm he
    | nilFile r => simp [Source.NextFile] at hnf
    | entry fl r => simp [Source.NextFile] at hnf
    | fail e2 r =>
      simp only [Source.NextFile, files_mk, Prod.mk.injEq, Option.some.injEq] at hnf
      obtain ⟨_, h2, h3⟩ := hnf
      subst h2 h3
      cases e2 with
      | EOF => exact absurd rfl he
      | other code => rw [advance_nil_fail]; rfl

/-- C9, run on a fresh reader whose source fails with code 3 on its first
`NextFile`. -/
theorem C9_advance_failure_propagated_witness :
    Read envEx 1 (.mk (.fail (.other 3) .eof) .nil [] ⟨"B0".toList, false⟩ false true)
        (buffer 4) 1
      = some (.ret ⟨0, some (.other 3), buffer 4,
          .mk .eof .nil [] ⟨"B0".toList, false⟩ false true, 1⟩) :=
  (C9_advance_failure_propagated envEx 0
    (.mk (.fail (.other 3) .eof) .nil [] ⟨"B0".toList, false⟩ false true) (buffer 4) 1 none
    (.other 3) .eof rfl (by simp) rfl (by decide)).1

/-- C1. Chunk-size independence fails for small buffers: with tokens of the
length `multipart.NewWriter` draws, reading the reader over the empty tree
with a buffer of 1 or of 3 bytes never reaches the end of the stream, however
many calls are made, while a buffer of 4096 bytes yields the closing line and
then `io.EOF`. -/
theorem C1_small_buffer_never_ends :
    (∀ calls, readAll envHex calls (newReader envHex .nil true 0) (buffer 1) 1 = .unfinished) ∧
    (∀ calls, readAll envHex calls (newReader envHex .nil true 0) (buffer 3) 1 = .unfinished) ∧
    readAll envHex 100 (newReader envHex .nil true 0) (buffer 4096) 1
      = .eof (closingLine (envHex.boundary 0)) := by
  refine ⟨?_, ?_, ?_⟩
  · exact readAll_empty_short envHex true 0 (buffer 1) (by simp [buffer])
      (by simp [buffer, envHex]) .eof rfl
  · exact readAll_empty_short envHex true 0 (buffer 3) (by simp [buffer])
      (by simp [buffer, envHex]) .eof rfl
  · have hfit : ∀ i, (envHex.boundary i).length + 8 ≤ 4096 := by intro i; simp [envHex]
    obtain ⟨hg, hpend⟩ := newReader_good envHex .nil true 0
    have := readAll_fit envHex (fun _ => rfl) 4096 hfit 100 (newReader envHex .nil true 0)
      (buffer 4096) 1 (List.length_replicate 4096 'x') hg (newReader_fits envHex .nil true 0 4096 hfit)
      (by rw [hpend]; simp [encode, Forest.wire, closingLine, envHex])
    rw [this, hpend]
    rfl

/-- C4. The empty tree read with a one-byte buffer: whether the source
signals exhaustion by `io.EOF` or by a nil file with a nil error, the stream
never ends.  On the reader with token `B0` the first call hands out the first
byte of the closing line; the second call asks the source again, queues the
closing line a second time behind the nine bytes still waiting, and hands
out the next byte. -/
theorem C4_empty_tree_small_buffer :
    (∀ calls, readAll envHex calls (NewMultiFileReader envHex .eof true 0).1 (buffer 1) 1
      = .unfinished) ∧
    (∀ calls, readAll envHex calls (NewMultiFileReader envHex (.nilFile .eof) true 0).1
      (buffer 1) 1 = .unfinished) ∧
    Read envEx 1 (NewMultiFileReader envEx .eof true 0).1 (buffer 1) 1
      = some (.ret ⟨1, none, "\r".toList,
          .mk .eof .nil "\n--B0--\r\n".toList ⟨"B0".toList, false⟩ true true, 1⟩) ∧
    Read envEx 1 (.mk .eof .nil "\n--B0--\r\n".toList ⟨"B0".toList, false⟩ true true)
        "\r".toList 1
      = some (.ret ⟨1, none, "\n".toList,
          .mk .eof .nil "--B0--\r\n\r\n--B0--\r\n".toList ⟨"B0".toList, false⟩ true true,
          1⟩) := by
  refine ⟨?_, ?_, by rfl, by rfl⟩
  · exact readAll_empty_short envHex true 0 (buffer 1) (by simp [buffer])
      (by simp [buffer, envHex]) .eof rfl
  · exact readAll_empty_short envHex true 0 (buffer 1) (by simp [buffer])
      (by simp [buffer, envHex]) (.nilFile .eof) rfl

/-- C3. The stream layout is lost with a small buffer: with tokens of the
length `multipart.NewWriter` draws, the reader over the tree
`[fileA, dirB{fileC}, fileD]` read with a buffer of 16 bytes never reaches
the end of its stream, however many calls are made: no call reports an
error or `io.EOF`; after any number of calls the reader is not closed and
`fileD` has not been asked for (it is what is left of the source while the
nested reader of `dirB` is the current file, and what follows `dirB` in the
source before that).  The same read with a buffer of 67 bytes never ends
either.  With a buffer of 68 bytes, the length of a closing line, the read
ends with the stream in the layout the tree is to be sent in. -/
theorem C3_small_buffer_no_layout :
    (∀ calls, readAll envHex calls (newReader envHex treeABCD true 0) (buffer 16) 1
      = .unfinished) ∧
    (∀ n, (readN envHex n (newReader envHex treeABCD true 0) (buffer 16) 1).2.waiting
        (Forest.cons (.leaf "fileD".toList []) .nil).toSource ∧
      (readN envHex n (newReader envHex treeABCD true 0) (buffer 16) 1).2.closed = false) ∧
    (∀ calls, readAll envHex calls (newReader envHex treeABCD true 0) (buffer 67) 1
      = .unfinished) ∧
    readAll envHex ((encode envHex treeABCD true 0).length + 1)
        (newReader envHex treeABCD true 0) (buffer 68) 1
      = .eof (encode envHex treeABCD true 0) := by
  have hk : ∀ i, (buffer 16).length < (envHex.boundary i).length + 8 := by
    intro i; simp [buffer, envHex]
  refine ⟨?_, ?_, ?_, ?_⟩
  · intro calls
    exact readAll_short envHex (fun _ => rfl) calls _ (buffer 16) 1 (by simp [buffer]) hk
      (Or.inl (newReader_jam envHex treeABCD true 0 _ hk))
  · intro n
    exact readN_waiting envHex (fun _ => rfl) _ n _ (buffer 16) 1 (by simp [buffer]) hk
      (Or.inl (newReader_jam envHex treeABCD true 0 _ hk))
      (Or.inr ⟨(by intro c h; cases h), rfl⟩)
  · intro calls
    have hk2 : ∀ i, (buffer 67).length < (envHex.boundary i).length + 8 := by
      intro i; simp [buffer, envHex]
    exact readAll_short envHex (fun _ => rfl) calls _ (buffer 67) 1 (by simp [buffer]) hk2
      (Or.inl (newReader_jam envHex treeABCD true 0 _ hk2))
  · exact readAll_newReader envHex (fun _ => rfl) treeABCD true 0 (buffer 68)
      (by intro i; simp [buffer, envHex]) ((encode envHex treeABCD true 0).length + 1)
      (Nat.lt_add_one _)

/-- C7. The nested stream is never complete with a small buffer: with tokens
of the length `multipart.NewWriter` draws, the reader over the tree
`[dirB{fileC}, fileD]` read with a buffer of 16 bytes never leaves the part
of `dirB`.  After any number of calls the current file is still the nested
reader, whose `Boundary()` is the token written into the header of the part,
`fileD` is still in the source and the reader is not closed; and no call
reports an error or `io.EOF`. -/
theorem C7_nested_stream_never_complete :
    (∀ n, ∃ c b,
      (readN envHex (n + 1) (newReader envHex treeBD true 0) (buffer 16) 1).2
        = .mk (Forest.cons (.leaf "fileD".toList []) .nil).toSource (.mfr c) b
            ⟨envHex.boundary 0, true⟩ false true ∧
      c.Boundary = envHex.boundary 1) ∧
    (∀ calls, readAll envHex calls (newReader envHex treeBD true 0) (buffer 16) 1
      = .unfinished) := by
  have hk : ∀ i, (buffer 16).length < (envHex.boundary i).length + 8 := by
    intro i; simp [buffer, envHex]
  constructor
  · intro n
    exact readN_dir_first envHex (fun _ => rfl) "dirB".toList
      (.cons (.leaf "fileC".toList "xy".toList) .nil) (.cons (.leaf "fileD".toList []) .nil)
      true 0 (buffer 16) (by simp [buffer]) hk n
  · intro calls
    exact readAll_short envHex (fun _ => rfl) calls _ (buffer 16) 1 (by simp [buffer]) hk
      (Or.inl (newReader_jam envHex treeBD true 0 _ hk))

set_option maxRecDepth 100000 in
/-- C2 fails as stated: file names are written into the header unescaped, so
the tree `treeQuote`, whose one leaf has a double quote and a line break in
its name, is sent as the very same bytes as the different tree `treePlain`;
the decoder returns `treePlain` for both. -/
theorem C2_counterexample :
    readAll envEx 200 (newReader envEx treeQuote true 0) (buffer 16) 1
      = .eof ("--B0\r\nContent-Disposition: form-data; name=\"file\"; filename=\"a\"\r\n"
          ++ "Content-Type: application/octet-stream\r\n\r\nZ\"\r\n"
          ++ "Content-Type: application/octet-stream\r\n\r\nc\r\n--B0--\r\n").toList ∧
    readAll envEx 200 (newReader envEx treePlain true 0) (buffer 16) 1
      = readAll envEx 200 (newReader envEx treeQuote true 0) (buffer 16) 1 ∧
    decode (newReader envEx treeQuote true 0).Boundary
        ("--B0\r\nContent-Disposition: form-data; name=\"file\"; filename=\"a\"\r\n"
          ++ "Content-Type: application/octet-stream\r\n\r\nZ\"\r\n"
          ++ "Content-Type: application/octet-stream\r\n\r\nc\r\n--B0--\r\n").toList
      = some treePlain ∧
    treePlain ≠ treeQuote := by
  have hfit : ∀ i, (envEx.boundary i).length + 8 ≤ (buffer 16).length := by
    intro i; simp [envEx, buffer]
  have hQ : encode envEx treeQuote true 0
      = ("--B0\r\nContent-Disposition: form-data; name=\"file\"; filename=\"a\"\r\n"
          ++ "Content-Type: application/octet-stream\r\n\r\nZ\"\r\n"
          ++ "Content-Type: application/octet-stream\r\n\r\nc\r\n--B0--\r\n").toList := by
    decide
  have hP : encode envEx treePlain true 0
      = ("--B0\r\nContent-Disposition: form-data; name=\"file\"; filename=\"a\"\r\n"
          ++ "Content-Type: application/octet-stream\r\n\r\nZ\"\r\n"
          ++ "Content-Type: application/octet-stream\r\n\r\nc\r\n--B0--\r\n").toList := by
    decide
  have hrQ := readAll_newReader envEx (fun _ => rfl) treeQuote true 0 (buffer 16) hfit 200
    (by rw [hQ]; decide)
  have hrP := readAll_newReader envEx (fun _ => rfl) treePlain true 0 (buffer 16) hfit 200
    (by rw [hP]; decide)
  refine ⟨by rw [hrQ, hQ], by rw [hrQ, hrP, hQ, hP], ?_, ?_⟩
  · rw [← hP]
    exact decode_encode envEx treePlain true 0 (by decide)
  · intro h
    simp [treePlain, treeQuote] at h

/-- C2, amended. Round-trip: let a finite file tree be such that no name
holds a double quote, a backslash, a carriage return or a line feed, every
nested token is a run of letters and digits, and in no stream the delimiter
`\r\n--token` begins inside the body of one of its parts.  Read with a
buffer in which the closing line of every token fits, the reader built over
the tree reaches the end of its stream, and decoding the bytes read, under
the reader's `Boundary()` and recursing into `multipart/mixed` parts under
their boundary parameter, yields the tree itself.  With a buffer of any
positive size, a read that reaches the end of the stream has read bytes that
decode to the tree. -/
theorem C2_round_trip (env : Env) (hnf : env.NoFault) (t : Forest) (form : Bool) (rand : Nat)
    (p : List Byte) (hfit : ∀ i, (env.boundary i).length + 8 ≤ p.length)
    (hsafe : t.safe env (env.boundary rand) (rand + 1) = true) :
    (∀ calls, (encode env t form rand).length < calls →
      ∃ out, readAll env calls (newReader env t form rand) p (rand + 1) = .eof out ∧
        decode (newReader env t form rand).Boundary out = some t) ∧
    (∀ (q : List Byte) calls out, 0 < q.length →
      readAll env calls (newReader env t form rand) q (rand + 1) = .eof out →
      decode (newReader env t form rand).Boundary out = some t) := by
  obtain ⟨hg, hpend⟩ := newReader_good env t form rand
  have hb : (newReader env t form rand).Boundary = env.boundary rand := rfl
  have hdec := decode_encode env t form rand hsafe
  constructor
  · intro calls hc
    refine ⟨encode env t form rand, ?_, by rw [hb]; exact hdec⟩
    rw [← hpend]
    exact readAll_fit env hnf p.length hfit calls _ p (rand + 1) rfl hg
      (newReader_fits env t form rand _ hfit) (by rw [hpend]; exact hc)
  · intro q calls out hq h
    rcases readAll_any env hnf calls _ q (rand + 1) hq hg with h2 | h2
    · rw [h2] at h; cases h
    · rw [h2, hpend] at h
      cases h
      rw [hb]
      exact hdec

set_option maxRecDepth 100000 in
/-- C2 amended, run on the tree `[fileA, dirB{fileC}, fileD]` with two-byte
tokens and a sixteen-byte buffer: the read ends and the stream read decodes
to the tree. -/
theorem C2_round_trip_witness :
    envEx.NoFault ∧
    (∀ i, (envEx.boundary i).length + 8 ≤ (buffer 16).length) ∧
    treeABCD.safe envEx (envEx.boundary 0) 1 = true ∧
    ∃ out, readAll envEx 600 (newReader envEx treeABCD true 0) (buffer 16) 1 = .eof out ∧
      decode (newReader envEx treeABCD true 0).Boundary out = some treeABCD := by
  have hfit : ∀ i, (envEx.boundary i).length + 8 ≤ (buffer 16).length := by
    intro i; simp [envEx, buffer]
  exact ⟨fun _ => rfl, hfit, by decide,
    (C2_round_trip envEx (fun _ => rfl) treeABCD true 0 (buffer 16) hfit (by decide)).1
      600 (by decide)⟩

/-- C17. Boundary and form mode are fixed: whatever a `Read` call returns
(bytes, `io.EOF` or a failure), `Boundary()` and the form flag of the reader
afterwards are those before the call; `Boundary()` is a projection of the
state, so taking it changes nothing, and on a new reader it is the token
`multipart.NewWriter` drew, the form flag being the one passed in. -/
theorem C17_boundary_form_fixed (env : Env) (fuel : Nat) (m : MultiFileReader) (p : List Byte)
    (rand : Nat) (r : ReadResult) (h : Read env fuel m p rand = some (.ret r)) :
    r.mfr.Boundary = m.Boundary ∧ r.mfr.form = m.form ∧
    ∀ (file : Source) (form : Bool) (rand2 : Nat),
      (NewMultiFileReader env file form rand2).1.Boundary = env.boundary rand2 ∧
      (NewMultiFileReader env file form rand2).1.form = form :=
  ⟨(Read_frame env fuel m p rand r h).1, (Read_frame env fuel m p rand r h).2,
    fun _ _ _ => ⟨rfl, rfl⟩⟩

/-- C17, run on the first call of a fresh form-data reader over one leaf: the
reader that has queued the header and handed out four bytes of it still has
the token `B0` and the form flag on. -/
theorem C17_boundary_form_fixed_witness :
    Read envEx 1 mfrFresh (buffer 4) 1
      = some (.ret ⟨4, none, "--B0".toList,
          .mk .eof (.file [⟨"hi".toList, none⟩])
            ("\r\nContent-Disposition: form-data; name=\"file\"; filename=\"a\"\r\n"
              ++ "Content-Type: application/octet-stream\r\n\r\n").toList
            ⟨"B0".toList, true⟩ false true, 1⟩) ∧
    (MultiFileReader.mk .eof (.file [⟨"hi".toList, none⟩])
        ("\r\nContent-Disposition: form-data; name=\"file\"; filename=\"a\"\r\n"
          ++ "Content-Type: application/octet-stream\r\n\r\n").toList
        ⟨"B0".toList, true⟩ false true).Boundary = mfrFresh.Boundary := by
  have h : Read envEx 1 mfrFresh (buffer 4) 1
      = some (.ret ⟨4, none, "--B0".toList,
          .mk .eof (.file [⟨"hi".toList, none⟩])
            ("\r\nContent-Disposition: form-data; name=\"file\"; filename=\"a\"\r\n"
              ++ "Content-Type: application/octet-stream\r\n\r\n").toList
            ⟨"B0".toList, true⟩ false true, 1⟩) := by rfl
  exact ⟨h, (C17_boundary_form_fixed envEx 1 mfrFresh (buffer 4) 1 _ h).1⟩

/-- C18. `Read` never dereferences a missing reader or entry: the advance
step never calls a method on a nil entry and takes `Boundary()` only of a
nested reader; when control reaches the delegated read, the header buffer
holds bytes or a current file is set; no call ends in a nil dereference, in
any state; and in every state reachable from `NewMultiFileReader` by `Read`
calls a closed reader has no current file. -/
theorem C18_no_nil_dereference (env : Env) :
    (∀ m rand, advance env m rand ≠ .panic) ∧
    (∀ m rand m1 r1, ¬ (m.closed = true ∧ m.buf.length = 0) →
      advance env m rand = .next m1 r1 → 0 < m1.buf.length ∨ m1.currentFile ≠ .nil) ∧
    (∀ fuel m p rand, Read env fuel m p rand ≠ some .panic) ∧
    (∀ file form rand, (NewMultiFileReader env file form rand).1.tidy = true) ∧
    (∀ fuel m p rand r, m.tidy = true → Read env fuel m p rand = some (.ret r) →
      r.mfr.tidy = true) ∧
    (∀ m : MultiFileReader, m.tidy = true → m.closed = true → m.currentFile = .nil) := by
  refine ⟨advance_ne_panic env, ?_, Read_ne_panic env, ?_, ?_, ?_⟩
  · intro m rand m1 r1 hne hadv
    by_cases hc : m.currentFile = .nil
    · exact Or.inl (advance_nil_buf_pos env m m1 rand r1 hc hne hadv)
    · rw [advance_cur env m rand hc] at hadv
      cases hadv
      exact Or.inr hc
  · intro file form rand
    simp [NewMultiFileReader]
  · intro fuel m p rand r ht h
    exact Read_tidy env fuel m p rand r ht h
  · intro m ht hcl
    cases m with
    | mk s c b w cl f =>
      simp only [closed_mk] at hcl
      subst hcl
      cases c with
      | nil => rfl
      | file r => simp at ht
      | mfr c => simp at ht

/-- C19. A single `Read` call terminates with bounded recursion: a call
returns as soon as its fuel, the depth of calls allowed, reaches the depth of
the reader; the retry after the current file's `io.EOF` is a call on the
reader without a current file, and such a call returns with one unit of fuel,
that is without a nested call or a second retry, because it returns `io.EOF`
or a failure or reads from a header buffer that is not empty; and the depth
of every state of a run is at most one more than the nesting depth of the
tree, in which the number of sibling entries does not enter. -/
theorem C19_bounded_recursion (env : Env) :
    (∀ fuel m p rand, m.depth ≤ fuel → ∃ o, Read env fuel m p rand = some o) ∧
    (∀ fuel s reads w f p rand, (fileRead reads p).2.1 = some .EOF →
      Read env (fuel + 2) (.mk s (.file reads) [] w false f) p rand
        = Read env 1 (.mk s .nil [] w false f) (fileRead reads p).2.2.1 rand) ∧
    (∀ fuel s c w f p rand rc, Read env (fuel + 1) c p rand = some (.ret rc) →
      rc.err = some .EOF →
      Read env (fuel + 2) (.mk s (.mfr c) [] w false f) p rand
        = Read env 1 (.mk s .nil [] w false f) rc.p rc.rand) ∧
    (∀ m p rand, m.currentFile = .nil →
      ∃ o, Read env 1 m p rand = some o ∧
        (∀ m1 r1, ¬ (m.closed = true ∧ m.buf.length = 0) →
          advance env m rand = .next m1 r1 →
          0 < m1.buf.length ∧
          o = .ret ⟨min p.length m1.buf.length, none, copy p m1.buf,
            m1.setBuf (m1.buf.drop p.length), r1⟩)) ∧
    (∀ m : MultiFileReader, m.depth ≤ m.bound) ∧
    (∀ fuel m p rand r, Read env fuel m p rand = some (.ret r) → r.mfr.bound ≤ m.bound) ∧
    (∀ t form rand, (newReader env t form rand).bound = t.height + 1) := by
  refine ⟨fun fuel m p rand h => Read_fuel_enough env fuel m p rand h, ?_, ?_, ?_,
    MultiFileReader.depth_le_bound, Read_bound env, ?_⟩
  · intro fuel s reads w f p rand he
    rw [Read_cur env (fuel + 1) _ _ _ (by simp), if_neg (by simp), if_neg (by simp)]
    simp only [currentFile_mk, if_pos he, setCurrentFile_mk]
    rw [Read_nil env fuel _ _ _ (by simp), Read_nil env 0 _ _ _ (by simp)]
  · intro fuel s c w f p rand rc hc he
    rw [Read_cur env (fuel + 1) _ _ _ (by simp), if_neg (by simp), if_neg (by simp)]
    simp only [currentFile_mk, hc, if_pos he, setCurrentFile_mk]
    rw [Read_nil env fuel _ _ _ (by simp), Read_nil env 0 _ _ _ (by simp)]
  · intro m p rand hcur
    rw [Read_nil env 0 m p rand hcur]
    split
    · rename_i hc
      exact ⟨_, rfl, fun m1 r1 hne _ => absurd hc hne⟩
    · rename_i hne
      cases hadv : advance env m rand with
      | panic => exact ⟨_, rfl, fun m1 r1 _ h => by cases h⟩
      | fail e m1 r1 => exact ⟨_, rfl, fun m1 r1 _ h => by cases h⟩
      | next m1 r1 =>
        refine ⟨_, rfl, fun m2 r2 _ h => ?_⟩
        cases h
        have hpos := advance_nil_buf_pos env m m1 rand r1 hcur hne hadv
        refine ⟨hpos, ?_⟩
        simp only [bufRead_pos _ _ hpos]
  · intro t form rand
    simp [newReader, NewMultiFileReader, Forest.toSource_height]

/-- C12. No zero-byte non-terminal result: in every state whose leaves have
scripts that never return zero bytes with a nil error (a property every
`Read` call preserves), a call with a buffer that is not empty and that
reports no error returns at least one byte.  When the read of the current
file reports `io.EOF`, the same call clears the current file and runs the
advance step; if that step returns no failure it has queued the closing line
or the header block of the next entry, and the call returns the first bytes
of it. -/
theorem C12_no_zero_byte_result (env : Env) (fuel : Nat) (m : MultiFileReader)
    (p : List Byte) (rand : Nat) (r : ReadResult) (hp : 0 < p.length)
    (hl : m.lively = true) (h : Read env fuel m p rand = some (.ret r)) :
    (r.err = none → 0 < r.written) ∧ r.mfr.lively = true ∧ r.p.length = p.length ∧
    (∀ fuel2 s reads w f m1 r1, (fileRead reads p).2.1 = some .EOF →
      advance env (.mk s .nil [] w false f) rand = .next m1 r1 →
      ((m1.closed = true ∧ m1.currentFile = .nil ∧ m1.buf = w.closing) ∨
        (∃ file rest, s = .entry file rest ∧ m1.closed = false ∧
          m1.currentFile = (entryReader env file rand).1 ∧
          m1.buf = partBlock env w f file rand)) ∧
      0 < m1.buf.length ∧
      Read env (fuel2 + 2) (.mk s (.file reads) [] w false f) p rand
        = some (.ret ⟨min (fileRead reads p).2.2.1.length m1.buf.length, none,
            copy (fileRead reads p).2.2.1 m1.buf,
            m1.setBuf (m1.buf.drop (fileRead reads p).2.2.1.length), r1⟩)) ∧
    (∀ fuel2 s c w f rc m1 r1, Read env (fuel2 + 1) c p rand = some (.ret rc) →
      rc.err = some .EOF →
      advance env (.mk s .nil [] w false f) rc.rand = .next m1 r1 →
      ((m1.closed = true ∧ m1.currentFile = .nil ∧ m1.buf = w.closing) ∨
        (∃ file rest, s = .entry file rest ∧ m1.closed = false ∧
          m1.currentFile = (entryReader env file rc.rand).1 ∧
          m1.buf = partBlock env w f file rc.rand)) ∧
      0 < m1.buf.length ∧
      Read env (fuel2 + 2) (.mk s (.mfr c) [] w false f) p rand
        = some (.ret ⟨min rc.p.length m1.buf.length, none, copy rc.p m1.buf,
            m1.setBuf (m1.buf.drop rc.p.length), r1⟩)) := by
  obtain ⟨h1, h2, h3⟩ := Read_lively env fuel m p rand r hp hl h
  refine ⟨h3, h2, h1, ?_, ?_⟩
  · intro fuel2 s reads w f m1 r1 he hadv
    have hpos := advance_nil_buf_pos env _ m1 rand r1 (by simp) (by simp) hadv
    refine ⟨advance_open env s w f rand m1 r1 hadv, hpos, ?_⟩
    rw [Read_cur env (fuel2 + 1) _ _ _ (by simp), if_neg (by simp), if_neg (by simp)]
    simp only [currentFile_mk, if_pos he, setCurrentFile_mk]
    rw [Read_nil env fuel2 _ _ _ (by simp), if_neg (by simp), hadv]
    simp only [bufRead_pos _ _ hpos]
  · intro fuel2 s c w f rc m1 r1 hc he hadv
    have hpos := advance_nil_buf_pos env _ m1 rc.rand r1 (by simp) (by simp) hadv
    refine ⟨advance_open env s w f rc.rand m1 r1 hadv, hpos, ?_⟩
    rw [Read_cur env (fuel2 + 1) _ _ _ (by simp), if_neg (by simp), if_neg (by simp)]
    simp only [currentFile_mk, hc, if_pos he, setCurrentFile_mk]
    rw [Read_nil env fuel2 _ _ _ (by simp), if_neg (by simp), hadv]
    simp only [bufRead_pos _ _ hpos]

/-- C12, run on a reader whose current file, an empty leaf, is at its end and
whose next entry is the empty leaf `b`: the one call returns the first
sixteen bytes of the header of `b`. -/
theorem C12_no_zero_byte_result_witness :
    0 < (buffer 16).length ∧
    (MultiFileReader.mk (.entry (.leaf "b".toList []) .eof) (.file []) []
      ⟨"B0".toList, true⟩ false true).lively = true ∧
    Read envEx 2 (.mk (.entry (.leaf "b".toList []) .eof) (.file []) []
        ⟨"B0".toList, true⟩ false true) (buffer 16) 1
      = some (.ret ⟨16, none, "\r\n--B0\r\nContent-".toList,
          .mk .eof (.file [])
            ("Disposition: form-data; name=\"file\"; filename=\"b\"\r\n"
              ++ "Content-Type: application/octet-stream\r\n\r\n").toList
            ⟨"B0".toList, true⟩ false true, 1⟩) ∧
    ((none : Option Error) = none → 0 < 16) := by
  have h : Read envEx 2 (.mk (.entry (.leaf "b".toList []) .eof) (.file []) []
        ⟨"B0".toList, true⟩ false true) (buffer 16) 1
      = some (.ret ⟨16, none, "\r\n--B0\r\nContent-".toList,
          .mk .eof (.file [])
            ("Disposition: form-data; name=\"file\"; filename=\"b\"\r\n"
              ++ "Content-Type: application/octet-stream\r\n\r\n").toList
            ⟨"B0".toList, true⟩ false true, 1⟩) := by rfl
  exact ⟨by decide, by decide, h,
    (C12_no_zero_byte_result envEx 2 _ (buffer 16) 1 _ (by decide) (by decide) h).1⟩

/-- C13. Nested parts use the mixed vocabulary: whatever the form flag of the
parent, the nested reader stored for a directory entry is built with the
form flag off; a new reader has no nested readers, and every `Read` call
keeps the reader's own flag and keeps the flags of all nested readers off;
and the header block a reader queues for an entry named `n` opens with
`Content-Disposition: file; filename="n"` when its flag is off and with
`Content-Disposition: form-data; name="file"; filename="n"` when it is on.
So parts at nesting depth 1 and more always carry the file wording, and
form-data appears only in parts of a top-level reader built with the flag
on. -/
theorem C13_nested_parts_mixed (env : Env) :
    (∀ name entries rest b w form rand,
      ∃ c, (entryReader env (.dir name entries) rand).1 = .mfr c ∧ c.form = false ∧
        ∀ m1 r1, advance env (.mk (.entry (.dir name entries) rest) .nil b w false form) rand
            = .next m1 r1 → m1.currentFile = .mfr c) ∧
    (∀ file form rand, (NewMultiFileReader env file form rand).1.mixedBelow = true) ∧
    (∀ fuel m p rand r, Read env fuel m p rand = some (.ret r) →
      r.mfr.form = m.form ∧ (m.mixedBelow = true → r.mfr.mixedBelow = true)) ∧
    (∀ file rest b w rand m1 r1,
      advance env (.mk (.entry file rest) .nil b w false false) rand = .next m1 r1 →
      ∃ tail, m1.buf = b ++ (w.delimiter ++ "Content-Disposition: file; filename=\"".toList
        ++ file.FileName ++ "\"\r\n".toList ++ tail)) ∧
    (∀ file rest b w rand m1 r1,
      advance env (.mk (.entry file rest) .nil b w false true) rand = .next m1 r1 →
      ∃ tail, m1.buf = b ++ (w.delimiter
        ++ "Content-Disposition: form-data; name=\"file\"; filename=\"".toList
        ++ file.FileName ++ "\"\r\n".toList ++ tail)) := by
  have hblock : ∀ (file : File) (rest : Source) (b : List Byte) (w : Writer) (form : Bool)
      (rand : Nat) (m1 : MultiFileReader) (r1 : Nat),
      advance env (.mk (.entry file rest) .nil b w false form) rand = .next m1 r1 →
      m1.currentFile = (entryReader env file rand).1 ∧
      m1.buf = b ++ partBlock env w form file rand := by
    intro file rest b w form rand m1 r1 h
    rcases advance_nil_cases env (.entry file rest) b w false form rand with
      ⟨rest2, _, hadv⟩ | ⟨code, rest2, hs, hadv⟩ | ⟨file2, rest2, _, hcl, hadv⟩ |
      ⟨file2, rest2, code, _, _, _, hadv⟩ | ⟨file2, rest2, hs, _, _, hadv⟩
    · rw [advance_nil_entry, if_neg (by simp)] at hadv h
      rw [hadv] at h
      cases h
      cases file with
      | leaf n r =>
        rw [startPart_leaf] at hadv
        split at hadv <;> cases hadv
      | dir n e =>
        rw [startPart_dir] at hadv
        split at hadv <;> cases hadv
    · cases hs
    · cases hcl
    · rw [hadv] at h; cases h
    · cases hs
      rw [hadv] at h
      cases h
      exact ⟨rfl, rfl⟩
  refine ⟨?_, ?_, fun fuel m p rand r h => Read_mixed env fuel m p rand r h, ?_, ?_⟩
  · intro name entries rest b w form rand
    refine ⟨(NewMultiFileReader env entries false rand).1, rfl, rfl, ?_⟩
    intro m1 r1 h
    exact (hblock _ rest b w form rand m1 r1 h).1
  · intro file form rand
    simp [NewMultiFileReader]
  · intro file rest b w rand m1 r1 h
    rw [(hblock file rest b w false rand m1 r1 h).2]
    exact ⟨"Content-Type: ".toList
      ++ (if file.IsDirectory then mixedType (env.boundary rand) else octetStream)
      ++ "\r\n\r\n".toList, by
      simp [partBlock, Writer.partBytes, partHeader, contentDisposition, headerLine, crlf]⟩
  · intro file rest b w rand m1 r1 h
    rw [(hblock file rest b w true rand m1 r1 h).2]
    exact ⟨"Content-Type: ".toList
      ++ (if file.IsDirectory then mixedType (env.boundary rand) else octetStream)
      ++ "\r\n\r\n".toList, by
      simp [partBlock, Writer.partBytes, partHeader, contentDisposition, headerLine, crlf]⟩

/-- C15. No read-ahead: while a current file is set the advance step, the only
place where `NextFile` is called, does nothing; and after a call on a reader
with a current file, either the source is as it was and a current file is
still set, or the reader was open with an empty header buffer, the read of
the current file reported `io.EOF` in this very call, and the result is that
of the retried call on the reader with the current file cleared.  The reader
has one `currentFile` slot, so one child is live at a time, and the next
entry is asked for only after the current one has reported `io.EOF`. -/
theorem C15_no_read_ahead (env : Env) (fuel : Nat) (m : MultiFileReader) (p : List Byte)
    (rand : Nat) (r : ReadResult) (hcur : m.currentFile ≠ .nil)
    (h : Read env (fuel + 1) m p rand = some (.ret r)) :
    advance env m rand = .next m rand ∧
    ((r.mfr.files = m.files ∧ r.mfr.currentFile ≠ .nil) ∨
      (m.closed = false ∧ m.buf = [] ∧
        ((∃ reads, m.currentFile = .file reads ∧ (fileRead reads p).2.1 = some .EOF ∧
            Read env fuel (m.setCurrentFile .nil) (fileRead reads p).2.2.1 rand
              = some (.ret r)) ∨
          (∃ c rc, m.currentFile = .mfr c ∧ Read env fuel c p rand = some (.ret rc) ∧
            rc.err = some .EOF ∧
            Read env fuel (m.setCurrentFile .nil) rc.p rc.rand = some (.ret r))))) := by
  refine ⟨advance_cur env m rand hcur, ?_⟩
  rw [Read_cur env fuel m p rand hcur] at h
  split at h
  · cases h
    exact Or.inl ⟨rfl, hcur⟩
  · rename_i hne
    split at h
    · cases h
      cases m with
      | mk s c b w cl f => exact Or.inl ⟨rfl, by simpa using hcur⟩
    · rename_i hb
      cases m with
      | mk s c b w cl f =>
        have hb0 : b = [] := List.length_eq_zero.mp (by simpa using hb)
        subst hb0
        have hcl : cl = false := by
          cases cl with
          | false => rfl
          | true => exact absurd ⟨rfl, rfl⟩ hne
        subst hcl
        cases c with
        | nil => exact absurd rfl hcur
        | file reads =>
          simp only [currentFile_mk] at h
          split at h
          · rename_i he
            exact Or.inr ⟨rfl, rfl, Or.inl ⟨reads, rfl, he, h⟩⟩
          · cases h
            exact Or.inl ⟨rfl, by simp⟩
        | mfr c =>
          simp only [currentFile_mk] at h
          cases hcr : Read env fuel c p rand with
          | none => rw [hcr] at h; simp at h
          | some oc =>
            rw [hcr] at h
            cases oc with
            | panic => simp at h
            | ret rc =>
              simp only at h
              split at h
              · rename_i he
                exact Or.inr ⟨rfl, rfl, Or.inr ⟨c, rc, rfl, hcr, he, h⟩⟩
              · cases h
                exact Or.inl ⟨rfl, by simp⟩

/-- C15, run on a reader inside the part of a leaf that still holds `hi`,
with the entry `b` waiting in the source: the call hands out `hi` and the
source still holds `b`. -/
theorem C15_no_read_ahead_witness :
    (MultiFileReader.mk (.entry (.leaf "b".toList []) .eof) (.file [⟨"hi".toList, none⟩]) []
      ⟨"B0".toList, true⟩ false true).currentFile ≠ .nil ∧
    Read envEx 1 (.mk (.entry (.leaf "b".toList []) .eof) (.file [⟨"hi".toList, none⟩]) []
        ⟨"B0".toList, true⟩ false true) (buffer 4) 1
      = some (.ret ⟨2, none, "hixx".toList,
          .mk (.entry (.leaf "b".toList []) .eof) (.file []) [] ⟨"B0".toList, true⟩ false true,
          1⟩) ∧
    advance envEx (.mk (.entry (.leaf "b".toList []) .eof) (.file [⟨"hi".toList, none⟩]) []
        ⟨"B0".toList, true⟩ false true) 1
      = .next (.mk (.entry (.leaf "b".toList []) .eof) (.file [⟨"hi".toList, none⟩]) []
        ⟨"B0".toList, true⟩ false true) 1 := by
  have h : Read envEx 1 (.mk (.entry (.leaf "b".toList []) .eof) (.file [⟨"hi".toList, none⟩])
        [] ⟨"B0".toList, true⟩ false true) (buffer 4) 1
      = some (.ret ⟨2, none, "hixx".toList,
          .mk (.entry (.leaf "b".toList []) .eof) (.file []) [] ⟨"B0".toList, true⟩ false true,
          1⟩) := by rfl
  exact ⟨by simp, h, (C15_no_read_ahead envEx 0 _ (buffer 4) 1 _ (by simp) h).1⟩

/-- C11. Headers before body: in a call in which the header buffer is
non-empty after the advance step, the bytes returned are the first bytes of
the header buffer and nothing else, the call reports no error, and the
current file is left exactly as the advance step set it, so it is not read.
Consequently, when the advance step has just started a part, the successive
calls of a caller with a buffer of any positive size hand out the header
buffer from its start, leaving the current file untouched, for as long as
bytes of it remain: a part's delimiter and header are out before its body
is touched. -/
theorem C11_headers_before_body (env : Env) (m m1 : MultiFileReader) (p : List Byte)
    (rand r1 : Nat) (hp : 0 < p.length) (hne : ¬ (m.closed = true ∧ m.buf.length = 0))
    (hadv : advance env m rand = .next m1 r1) (hb : 0 < m1.buf.length) :
    (∀ fuel, Read env (fuel + 1) m p rand
      = some (.ret ⟨min p.length m1.buf.length, none, copy p m1.buf,
          m1.setBuf (m1.buf.drop p.length), r1⟩)) ∧
    (copy p m1.buf).take (min p.length m1.buf.length) = m1.buf.take p.length ∧
    (m1.setBuf (m1.buf.drop p.length)).currentFile = m1.currentFile ∧
    (m1.currentFile ≠ .nil → ∀ j, j * p.length < m1.buf.length →
      readN env (j + 1) m p rand
        = (m1.buf.take ((j + 1) * p.length),
            m1.setBuf (m1.buf.drop ((j + 1) * p.length)))) := by
  have hread : ∀ fuel, Read env (fuel + 1) m p rand
      = some (.ret ⟨min p.length m1.buf.length, none, copy p m1.buf,
          m1.setBuf (m1.buf.drop p.length), r1⟩) := by
    intro fuel
    rw [Read_succ, if_neg hne, hadv]
    simp only
    rw [if_pos hb, bufRead_pos _ _ hb]
  refine ⟨hread, ?_, by cases m1; rfl, ?_⟩
  · rw [copy_take]
  · intro hcur j hj
    obtain ⟨d, hd⟩ : ∃ d, m.depth = d + 1 := ⟨m.depth - 1, by have := depth_pos m; omega⟩
    simp only [readN, hd, hread d]
    have hnext := readN_header env j (m1.setBuf (m1.buf.drop p.length)) (copy p m1.buf) r1
      (by rw [copy_length]; exact hp)
      (by cases m1; simpa using hcur)
      (by
        cases m1 with
        | mk s c b w cl f =>
          simp only [setBuf_mk, buf_mk, List.length_drop, copy_length] at hj ⊢
          rcases Nat.lt_or_ge b.length p.length with hlt | hge
          · have : j = 0 := by
              rcases Nat.eq_zero_or_pos j with h0 | h0
              · exact h0
              · have : p.length ≤ j * p.length := Nat.le_mul_of_pos_left _ h0
                omega
            subst this
            omega
          · omega)
    rw [hnext]
    cases m1 with
    | mk s c b w cl f =>
      simp only [setBuf_mk, buf_mk, copy_length, copy_take, List.drop_drop]
      have h1 : (j + 1) * p.length = p.length + j * p.length := by ring
      rw [h1, List.take_add]

/-- C11, run on the fresh reader over the one leaf `a` with a buffer of four
bytes: the first three calls hand out the first twelve bytes of the header
block and leave the leaf, which still holds `hi`, as the current file. -/
theorem C11_headers_before_body_witness :
    0 < (buffer 4).length ∧
    readN envEx 3 mfrFresh (buffer 4) 1
      = ("--B0\r\nConten".toList,
          .mk .eof (.file [⟨"hi".toList, none⟩])
            ("t-Disposition: form-data; name=\"file\"; filename=\"a\"\r\n"
              ++ "Content-Type: application/octet-stream\r\n\r\n").toList
            ⟨"B0".toList, true⟩ false true) := by
  refine ⟨by decide, ?_⟩
  have h := (C11_headers_before_body envEx mfrFresh
    (.mk .eof (.file [⟨"hi".toList, none⟩])
      ("--B0\r\nContent-Disposition: form-data; name=\"file\"; filename=\"a\"\r\n"
        ++ "Content-Type: application/octet-stream\r\n\r\n").toList
      ⟨"B0".toList, true⟩ false true)
    (buffer 4) 1 1 (by decide) (by decide) (by rfl) (by decide)).2.2.2 (by simp) 2 (by decide)
  rw [h]
  rfl

/-- C14. Closing line queued again: a call on a closed reader whose header
buffer still holds bytes `b` asks the exhausted source again, has the writer
append the closing line to the header buffer once more, and hands out the
start of `b` followed by that second closing line; the header buffer after
the call is what is left of `b` followed by a whole new closing line.  What
does hold of the sentence is that `closed`, once set, stays set. -/
theorem C14_closing_queued_again (env : Env) (w : Writer) (f : Bool) (b p : List Byte)
    (rand fuel : Nat) (hb : b ≠ []) :
    Read env (fuel + 1) (.mk .eof .nil b w true f) p rand
      = some (.ret ⟨min p.length (b ++ w.closing).length, none, copy p (b ++ w.closing),
          .mk .eof .nil ((b ++ w.closing).drop p.length) { w with lastpart := false } true f,
          rand⟩) ∧
    (∀ fuel1 m q rand1 r, m.closed = true → Read env fuel1 m q rand1 = some (.ret r) →
      r.mfr.closed = true) := by
  constructor
  · have hlen : 0 < b.length := List.length_pos.mpr hb
    have hl : 0 < (b ++ w.closing).length := by rw [List.length_append]; omega
    rw [Read_succ, if_neg (by simp [hb]), advance_nil_eof]
    simp only [buf_mk]
    rw [if_pos hl, bufRead_pos _ _ hl]
    rfl
  · intro fuel1 m q rand1 r hcl h
    exact Read_closed env fuel1 m q rand1 r hcl h

/-- C14, run on the reader over the empty tree with a buffer of one byte:
after the first call nine bytes of the closing line wait in the header
buffer; the second call leaves eighteen. -/
theorem C14_closing_queued_again_witness :
    "\n--B0--\r\n".toList ≠ [] ∧
    Read envEx 1 (.mk .eof .nil [] ⟨"B0".toList, false⟩ false true) (buffer 1) 1
      = some (.ret ⟨1, none, "\r".toList,
          .mk .eof .nil "\n--B0--\r\n".toList ⟨"B0".toList, false⟩ true true, 1⟩) ∧
    Read envEx 1 (.mk .eof .nil "\n--B0--\r\n".toList ⟨"B0".toList, false⟩ true true)
        (buffer 1) 1
      = some (.ret ⟨1, none, "\n".toList,
          .mk .eof .nil "--B0--\r\n\r\n--B0--\r\n".toList ⟨"B0".toList, false⟩ true true, 1⟩) := by
  refine ⟨by decide, by rfl, ?_⟩
  rw [(C14_closing_queued_again envEx ⟨"B0".toList, false⟩ true "\n--B0--\r\n".toList
    (buffer 1) 1 0 (by decide)).1]
  rfl

/-- C16. Bytes delivered with `io.EOF` are dropped: when the read of the
current leaf reports `io.EOF`, whatever count it reports, the call clears the
current file and returns the result of the retried call on the caller's
buffer, in which the count of the leaf's read appears nowhere. -/
theorem C16_bytes_lost_at_eof (env : Env) (s : Source) (reads : List ReadStep) (w : Writer)
    (f : Bool) (p : List Byte) (rand fuel : Nat)
    (he : (fileRead reads p).2.1 = some .EOF) :
    Read env (fuel + 1) (.mk s (.file reads) [] w false f) p rand
      = Read env fuel (.mk s .nil [] w false f) (fileRead reads p).2.2.1 rand := by
  rw [Read_cur env fuel _ p rand (by simp)]
  simp [he]

/-- C16, run on a reader inside the part of a leaf, the last of the tree,
whose read hands out `hi` together with `io.EOF`: the call returns the ten
bytes of the closing line, and `hi` is in no byte it returns. -/
theorem C16_bytes_lost_at_eof_witness :
    (fileRead [⟨"hi".toList, some .EOF⟩] (buffer 16)) = (2, some .EOF,
      "hixxxxxxxxxxxxxx".toList, []) ∧
    Read envEx 2 (.mk .eof (.file [⟨"hi".toList, some .EOF⟩]) [] ⟨"B0".toList, true⟩ false true)
        (buffer 16) 1
      = some (.ret ⟨10, none, "\r\n--B0--\r\nxxxxxx".toList,
          .mk .eof .nil [] ⟨"B0".toList, false⟩ true true, 1⟩) := by
  refine ⟨by rfl, ?_⟩
  rw [C16_bytes_lost_at_eof envEx .eof [⟨"hi".toList, some .EOF⟩] ⟨"B0".toList, true⟩ true
    (buffer 16) 1 1 (by rfl)]
  rfl

end Http
